import Mathlib

/-!
# A t-spanner construction and its distance checker

Shallow embedding of `src/algo/t-spanner.cpp` (the clustering program) and of
`src/checker.cpp` (the all-pairs distance verifier).

Conventions of the embedding:

* `vector<T>` is `List T`; `a[i]` is `List.getD a i d` and `a[i] = x` is `List.set a i x`.
* an `int` used as an index with the sentinel `-1` is an `Option Nat` (`none` is `-1`);
* weights are `Int`; statuses are `Nat` (0 removed, 1 possible, 2 in spanner);
* the calls of `sample(n, k)` are answered by an oracle `draws : Nat → Bool`, the
  `p`-th call of a run returning `draws p`; the state carries the number of calls made.
-/

namespace TSpanner

/-- Edge record `struct edge`: opposite vertex, weight, status, index in opposite list. -/
structure edge where
  v : Nat
  w : Int
  s : Nat
  oi : Nat
deriving DecidableEq, Repr

instance : Inhabited edge := ⟨⟨0, 0, 0, 0⟩⟩

/-- The adjacency store `vector<vector<edge>> adj`. -/
abbrev Adj := List (List edge)

/-- An input line `u v w`. -/
abbrev InEdge := Nat × Nat × Int

/-- The constant `INF = (int)1e9`. -/
def INF : Int := 1000000000

/-- The record `adj[j][k]`. -/
def getE (adj : Adj) (j k : Nat) : edge := (adj.getD j []).getD k default

/-- The write `adj[j][k].s = s`. -/
def setS (adj : Adj) (j k s : Nat) : Adj :=
  adj.set j ((adj.getD j []).set k { getE adj j k with s := s })

/-- Body of the input loop (lines 52-65): one input line creates two mirrored records. -/
def addEdge (adj : Adj) (e : InEdge) : Adj :=
  let u := e.1
  let v := e.2.1
  let w := e.2.2
  let eu : edge := { v := v, w := w, s := 1, oi := (adj.getD v []).length }
  let ev : edge := { v := u, w := w, s := 1, oi := (adj.getD u []).length }
  let adj1 := adj.set v (adj.getD v [] ++ [ev])
  adj1.set u (adj1.getD u [] ++ [eu])

/-- Graph construction: `adj.resize(n)` followed by the input loop. -/
def build (n : Nat) (edges : List InEdge) : Adj :=
  edges.foldl addEdge (List.replicate n [])

/-- The mutable state of `main` that lives across rounds. -/
structure State where
  adj : Adj
  cluster : List Nat
  ivd : List Nat
  centers : List Nat
  pos : Nat
deriving DecidableEq, Repr

/-- State at line 79: singleton clusters, every vertex a center, every vertex active. -/
def initState (n : Nat) (edges : List InEdge) : State :=
  { adj := build n edges
    cluster := List.range n
    ivd := List.replicate n 1
    centers := List.range n
    pos := 0 }

/-- Step 1 (lines 86-96): one draw per active center, then the forced survivor. -/
def sampleLoop (draws : Nat → Bool) (n : Nat) (centers : List Nat) (pos : Nat) :
    List Nat × Nat × Nat :=
  centers.foldl
    (fun (acc : List Nat × Nat × Nat) j =>
      if draws acc.2.2 then (acc.1.set j 1, acc.2.1 + 1, acc.2.2 + 1)
      else (acc.1, acc.2.1, acc.2.2 + 1))
    (List.replicate n 0, 0, pos)

/-- The vector `is_center` after step 1. -/
def step1 (draws : Nat → Bool) (n : Nat) (centers : List Nat) (pos : Nat) : List Nat :=
  let r := sampleLoop draws n centers pos
  if r.2.1 = 0 then r.1.set (centers.getD 0 0) 1 else r.1

/-- Inner loop of step 2 (lines 111-122) for vertex `j`: returns `(mw, min_idx[j])`. -/
def nearestLoop (adj : Adj) (cluster is_center : List Nat) (j : Nat) : Int × Option Nat :=
  (List.range (adj.getD j []).length).foldl
    (fun (acc : Int × Option Nat) k =>
      let e := getE adj j k
      if e.s = 0 then acc
      else if is_center.getD (cluster.getD e.v 0) 0 = 0 then acc
      else if e.w < acc.1 then (e.w, some k) else acc)
    (INF, none)

/-- Step 2 (lines 106-123): the vector `min_idx`. -/
def step2 (n : Nat) (adj : Adj) (cluster ivd is_center : List Nat) : List (Option Nat) :=
  (List.range n).foldl
    (fun (min_idx : List (Option Nat)) j =>
      if ivd.getD j 0 = 0 then min_idx
      else if is_center.getD (cluster.getD j 0) 0 ≠ 0 then min_idx
      else min_idx.set j (nearestLoop adj cluster is_center j).2)
    (List.replicate n none)

/-- Lines 126-132 (and 272-278): the vector `center_idx` and the counter `cidx`. -/
def centerIdx (n : Nat) (centers : List Nat) : List (Option Nat) × Nat :=
  centers.foldl
    (fun (acc : List (Option Nat) × Nat) j => (acc.1.set j (some acc.2), acc.2 + 1))
    (List.replicate n none, 0)

/-- Lines 149-157 (also 183-191 and 289-297): update of `min_ed[ci]` by edge `k` of `j`. -/
def minEdUpd (adj : Adj) (j : Nat) (min_ed : List (Option Nat)) (ci k : Nat) :
    List (Option Nat) :=
  match min_ed.getD ci none with
  | none => min_ed.set ci (some k)
  | some m => if (getE adj j k).w < (getE adj j m).w then min_ed.set ci (some k) else min_ed

/-- Orphan case, inner loop (lines 143-158): returns `(to_rem, min_ed)`. -/
def orphanScan (adj : Adj) (cluster : List Nat) (center_idx : List (Option Nat)) (cidx j : Nat)
    (to_rem : List (Nat × Nat)) : List (Nat × Nat) × List (Option Nat) :=
  (List.range (adj.getD j []).length).foldl
    (fun (acc : List (Nat × Nat) × List (Option Nat)) k =>
      let e := getE adj j k
      if e.s ≠ 1 then acc
      else
        let to_rem1 := acc.1 ++ [(j, k)]
        match center_idx.getD (cluster.getD e.v 0) none with
        | none => (to_rem1, acc.2)
        | some ci => (to_rem1, minEdUpd adj j acc.2 ci k))
    (to_rem, List.replicate cidx none)

/-- Lines 160-164 (and 299-303): push `{j, min_ed[k]}` for every `k` with `min_ed[k] >= 0`. -/
def pushMinEd (j : Nat) (min_ed : List (Option Nat)) (cidx : Nat) (to_add : List (Nat × Nat)) :
    List (Nat × Nat) :=
  (List.range cidx).foldl
    (fun (acc : List (Nat × Nat)) k =>
      match min_ed.getD k none with
      | none => acc
      | some m => acc ++ [(j, m)])
    to_add

/-- First loop of step 3 (lines 136-166): returns `(to_add, to_rem, ivd)`. -/
def orphanLoop (n : Nat) (adj : Adj) (cluster ivd is_center : List Nat)
    (min_idx center_idx : List (Option Nat)) (cidx : Nat) :
    List (Nat × Nat) × List (Nat × Nat) × List Nat :=
  (List.range n).foldl
    (fun (acc : List (Nat × Nat) × List (Nat × Nat) × List Nat) j =>
      if acc.2.2.getD j 0 = 0 then acc
      else if is_center.getD (cluster.getD j 0) 0 ≠ 0 then acc
      else
        match min_idx.getD j none with
        | some _ => acc
        | none =>
          let r := orphanScan adj cluster center_idx cidx j acc.2.1
          (pushMinEd j r.2 cidx acc.1, r.1, acc.2.2.set j 0))
    ([], [], ivd)

/-- Found case, first inner loop (lines 176-196): returns `(to_rem, min_ed, tr)`. -/
def foundScan (adj : Adj) (cluster : List Nat) (center_idx : List (Option Nat)) (cidx j mi : Nat)
    (ncj : Nat) (to_rem : List (Nat × Nat)) :
    List (Nat × Nat) × List (Option Nat) × List Nat :=
  (List.range (adj.getD j []).length).foldl
    (fun (acc : List (Nat × Nat) × List (Option Nat) × List Nat) k =>
      let e := getE adj j k
      if e.s ≠ 1 then acc
      else
        let to_rem1 := if cluster.getD e.v 0 = ncj then acc.1 ++ [(j, k)] else acc.1
        match center_idx.getD (cluster.getD e.v 0) none with
        | none => (to_rem1, acc.2.1, acc.2.2)
        | some ci =>
          let min_ed1 := minEdUpd adj j acc.2.1 ci k
          let tr1 :=
            if e.w < (getE adj j mi).w ∧ some ci ≠ center_idx.getD ncj none then acc.2.2.set ci 1
            else acc.2.2
          (to_rem1, min_ed1, tr1))
    (to_rem, List.replicate cidx none, List.replicate cidx 0)

/-- Found case, lines 199-205: push the per-cluster minima strictly cheaper than `cw`. -/
def pushCheaper (adj : Adj) (j : Nat) (min_ed : List (Option Nat)) (cidx : Nat) (cw : Int)
    (to_add : List (Nat × Nat)) : List (Nat × Nat) :=
  (List.range cidx).foldl
    (fun (acc : List (Nat × Nat)) k =>
      match min_ed.getD k none with
      | none => acc
      | some m => if (getE adj j m).w ≥ cw then acc else acc ++ [(j, m)])
    to_add

/-- Found case, second inner loop (lines 207-213); a negative `ci` reads `tr` out of bounds. -/
def trScan (adj : Adj) (cluster : List Nat) (center_idx : List (Option Nat)) (j : Nat)
    (tr : List Nat) (to_rem : List (Nat × Nat)) : List (Nat × Nat) :=
  (List.range (adj.getD j []).length).foldl
    (fun (acc : List (Nat × Nat)) k =>
      let e := getE adj j k
      if e.s ≠ 1 then acc
      else
        match center_idx.getD (cluster.getD e.v 0) none with
        | none => acc
        | some ci => if tr.getD ci 0 ≠ 0 then acc ++ [(j, k)] else acc)
    to_rem

/-- Second loop of step 3 (lines 167-215): returns `(to_add, to_rem, cluster_change)`. -/
def foundLoop (n : Nat) (adj : Adj) (cluster ivd is_center : List Nat)
    (min_idx center_idx : List (Option Nat)) (cidx : Nat)
    (to_add to_rem : List (Nat × Nat)) :
    List (Nat × Nat) × List (Nat × Nat) × List (Nat × Nat) :=
  (List.range n).foldl
    (fun (acc : List (Nat × Nat) × List (Nat × Nat) × List (Nat × Nat)) j =>
      if ivd.getD j 0 = 0 then acc
      else if is_center.getD (cluster.getD j 0) 0 ≠ 0 then acc
      else
        match min_idx.getD j none with
        | none => acc
        | some mi =>
          let ncj := cluster.getD (getE adj j mi).v 0
          let r := foundScan adj cluster center_idx cidx j mi ncj acc.2.1
          let cw := (getE adj j mi).w
          let to_add1 := pushCheaper adj j r.2.1 cidx cw acc.1 ++ [(j, mi)]
          (to_add1, trScan adj cluster center_idx j r.2.2 r.1, acc.2.2 ++ [(j, ncj)]))
    (to_add, to_rem, [])

/-- Body of the loops at lines 216-221 and 306-311. -/
def addWrite (adj : Adj) (p : Nat × Nat) : Adj :=
  let e := getE adj p.1 p.2
  setS (setS adj p.1 p.2 2) e.v e.oi 2

/-- Body of the loops at lines 222-228 and 312-318. -/
def remWrite (adj : Adj) (p : Nat × Nat) : Adj :=
  let e := getE adj p.1 p.2
  if e.s = 2 then adj else setS (setS adj p.1 p.2 0) e.v e.oi 0

/-- Lines 216-228: apply `to_add`, then `to_rem`. -/
def applyLists (adj : Adj) (to_add to_rem : List (Nat × Nat)) : Adj :=
  to_rem.foldl remWrite (to_add.foldl addWrite adj)

/-- Lines 229-232: apply `cluster_change`. -/
def applyChange (cluster : List Nat) (cluster_change : List (Nat × Nat)) : List Nat :=
  cluster_change.foldl (fun c p => c.set p.1 p.2) cluster

/-- Body of the inner loop of step 4 (lines 241-242) on one record of vertex `j`. -/
def cleanRecord (cluster : List Nat) (j : Nat) (e : edge) : edge :=
  if cluster.getD e.v 0 ≠ cluster.getD j 0 then e
  else if e.s < 2 then { e with s := 0 } else e

/-- Step 4 (lines 236-244). -/
def step4 (n : Nat) (adj : Adj) (cluster is_center : List Nat) : Adj :=
  (List.range n).foldl
    (fun (a : Adj) j =>
      if is_center.getD (cluster.getD j 0) 0 = 0 then a
      else a.set j ((a.getD j []).map (cleanRecord cluster j)))
    adj

/-- Lines 246-250: the new list `centers`. -/
def refresh (n : Nat) (is_center : List Nat) : List Nat :=
  (List.range n).filter (fun j => is_center.getD j 0 ≠ 0)

/-- One iteration of the phase 1 loop (lines 84-250). -/
def round (draws : Nat → Bool) (n : Nat) (st : State) : State :=
  let is_center := step1 draws n st.centers st.pos
  let pos1 := (sampleLoop draws n st.centers st.pos).2.2
  let min_idx := step2 n st.adj st.cluster st.ivd is_center
  let ci := centerIdx n st.centers
  let o := orphanLoop n st.adj st.cluster st.ivd is_center min_idx ci.1 ci.2
  let f := foundLoop n st.adj st.cluster o.2.2 is_center min_idx ci.1 ci.2 o.1 o.2.1
  let adj1 := applyLists st.adj f.1 f.2.1
  let cluster1 := applyChange st.cluster f.2.2
  { adj := step4 n adj1 cluster1 is_center
    cluster := cluster1
    ivd := o.2.2
    centers := refresh n is_center
    pos := pos1 }

/-- Phase 1 (lines 82-251): the state after `r` iterations of the round loop. -/
def rounds (draws : Nat → Bool) (n : Nat) (st : State) : Nat → State
  | 0 => st
  | r + 1 => round draws n (rounds draws n st r)

/-- Phase 2, inner loop (lines 283-298): returns `(to_rem, min_ed)`. -/
def finalScan (adj : Adj) (cluster : List Nat) (center_idx : List (Option Nat)) (cidx i : Nat)
    (to_rem : List (Nat × Nat)) : List (Nat × Nat) × List (Option Nat) :=
  (List.range (adj.getD i []).length).foldl
    (fun (acc : List (Nat × Nat) × List (Option Nat)) j =>
      let e := getE adj i j
      if e.s ≠ 1 then acc
      else
        match center_idx.getD (cluster.getD e.v 0) none with
        | none => acc
        | some ci => (acc.1 ++ [(i, j)], minEdUpd adj i acc.2 ci j))
    (to_rem, List.replicate cidx none)

/-- Phase 2, outer loop (lines 279-304): returns `(to_add, to_rem)`. -/
def finalLoop (n : Nat) (adj : Adj) (cluster ivd : List Nat) (center_idx : List (Option Nat))
    (cidx : Nat) : List (Nat × Nat) × List (Nat × Nat) :=
  (List.range n).foldl
    (fun (acc : List (Nat × Nat) × List (Nat × Nat)) i =>
      if ivd.getD i 0 = 0 then acc
      else
        let r := finalScan adj cluster center_idx cidx i acc.2
        (pushMinEd i r.2 cidx acc.1, r.1))
    ([], [])

/-- Phase 2 (lines 269-318), the final augmentation. -/
def phase2 (n : Nat) (st : State) : State :=
  let ci := centerIdx n st.centers
  let l := finalLoop n st.adj st.cluster st.ivd ci.1 ci.2
  { st with adj := applyLists st.adj l.1 l.2 }

/-- The emitter loop (lines 321-331): the vector `fin` of entries `{{i, e.v}, e.w}`. -/
def fin (n : Nat) (adj : Adj) : List InEdge :=
  (List.range n).foldl
    (fun (acc : List InEdge) i =>
      (adj.getD i []).foldl
        (fun (acc1 : List InEdge) e =>
          if e.v < i then acc1
          else if e.s < 2 then acc1
          else acc1 ++ [(i, e.v, e.w)])
        acc)
    []

/-- The state of `main` after phase 2, for stretch `t`. -/
def finalState (draws : Nat → Bool) (n t : Nat) (edges : List InEdge) : State :=
  phase2 n (rounds draws n (initState n edges) ((t + 1) / 2 - 1))

/-- The output of the program: the count on the first line and the edge lines. -/
def spanner (draws : Nat → Bool) (n t : Nat) (edges : List InEdge) : Nat × List InEdge :=
  let f := fin n (finalState draws n t edges).adj
  (f.length, f)

/-! ## Auxiliary notions for the invariants -/

/-- Slot `k` of vertex `j` exists in the store. -/
def InB (adj : Adj) (j k : Nat) : Prop := k < (adj.getD j []).length

instance (adj : Adj) (j k : Nat) : Decidable (InB adj j k) :=
  inferInstanceAs (Decidable (k < (adj.getD j []).length))

/-- The slot of the mirror record of slot `p`. -/
def mir (adj : Adj) (p : Nat × Nat) : Nat × Nat :=
  ((getE adj p.1 p.2).v, (getE adj p.1 p.2).oi)

/-- Two stores agree on everything but the statuses. -/
def SameSkel (a b : Adj) : Prop :=
  a.length = b.length ∧ (∀ j, (a.getD j []).length = (b.getD j []).length) ∧
    ∀ j k, (getE a j k).v = (getE b j k).v ∧ (getE a j k).w = (getE b j k).w ∧
      (getE a j k).oi = (getE b j k).oi

/-- Mirror consistency of the store: the record `adj[adj[u][i].v][adj[u][i].oi]` exists, lies at
another vertex, points back to `u` with mirror index `i`, and has the weight and the status of
`adj[u][i]`. -/
def Mirror (adj : Adj) : Prop :=
  ∀ u i, InB adj u i →
    (getE adj u i).v ≠ u ∧ InB adj (getE adj u i).v (getE adj u i).oi ∧
      getE adj (getE adj u i).v (getE adj u i).oi =
        { v := u, w := (getE adj u i).w, s := (getE adj u i).s, oi := i }

/-- The slots `(i, k)` of the records the emitter loop pushes an entry for, in push order. -/
def finSlots (n : Nat) (adj : Adj) : List (Nat × Nat) :=
  (List.range n).flatMap (fun i =>
    ((List.range (adj.getD i []).length).filter
      (fun k => decide (¬ (getE adj i k).v < i ∧ ¬ (getE adj i k).s < 2))).map (fun k => (i, k)))

/-- The entry `{{i, e.v}, e.w}` pushed for the record in slot `p`. -/
def lineOf (adj : Adj) (p : Nat × Nat) : InEdge :=
  (p.1, (getE adj p.1 p.2).v, (getE adj p.1 p.2).w)

/-- The output line of an input line: smaller endpoint first. -/
def canon (e : InEdge) : InEdge := (min e.1 e.2.1, max e.1 e.2.1, e.2.2)

/-- The entries the emitter would push if every record were in the spanner. -/
def allLines (n : Nat) (adj : Adj) : List InEdge :=
  (List.range n).flatMap (fun i =>
    ((adj.getD i []).filter (fun e => decide (¬ e.v < i))).map (fun e => (i, e.v, e.w)))

/-- Every record of the store has status 1 (possible). -/
def AllCand (adj : Adj) : Prop := ∀ j k, InB adj j k → (getE adj j k).s = 1

/-- The vector `min_ed` of a scan of vertex `j` after its first `m` iterations. -/
def minEdPre (adj : Adj) (cluster : List Nat) (center_idx : List (Option Nat)) (cidx j m : Nat) :
    List (Option Nat) :=
  (List.range m).foldl
    (fun (min_ed : List (Option Nat)) k =>
      let e := getE adj j k
      if e.s ≠ 1 then min_ed
      else
        match center_idx.getD (cluster.getD e.v 0) none with
        | none => min_ed
        | some ci => minEdUpd adj j min_ed ci k)
    (List.replicate cidx none)

/-- The vector `min_ed` at the end of a scan of vertex `j`. -/
def minEdOf (adj : Adj) (cluster : List Nat) (center_idx : List (Option Nat)) (cidx j : Nat) :
    List (Option Nat) :=
  minEdPre adj cluster center_idx cidx j (adj.getD j []).length

/-- Edge `k` of `j` passes the two filters of step 2 (lines 115-116): not removed, and its
far endpoint lies in a cluster marked in `is_center`. -/
def Eligible (adj : Adj) (cluster is_center : List Nat) (j k : Nat) : Prop :=
  (getE adj j k).s ≠ 0 ∧ is_center.getD (cluster.getD (getE adj j k).v 0) 0 ≠ 0

/-- Vertex `j` takes the orphan branch of step 3. -/
def IsOrphan (cluster ivd is_center : List Nat) (min_idx : List (Option Nat)) (j : Nat) : Prop :=
  ivd.getD j 0 ≠ 0 ∧ is_center.getD (cluster.getD j 0) 0 = 0 ∧ min_idx.getD j none = none

instance (cluster ivd is_center : List Nat) (min_idx : List (Option Nat)) (j : Nat) :
    Decidable (IsOrphan cluster ivd is_center min_idx j) :=
  inferInstanceAs (Decidable
    (ivd.getD j 0 ≠ 0 ∧ is_center.getD (cluster.getD j 0) 0 = 0 ∧ min_idx.getD j none = none))

/-- Vertex `j` takes the found branch of step 3 with `min_idx[j] = mi`. -/
def IsFound (cluster ivd is_center : List Nat) (min_idx : List (Option Nat)) (j mi : Nat) :
    Prop :=
  ivd.getD j 0 ≠ 0 ∧ is_center.getD (cluster.getD j 0) 0 = 0 ∧ min_idx.getD j none = some mi

instance (cluster ivd is_center : List Nat) (min_idx : List (Option Nat)) (j mi : Nat) :
    Decidable (IsFound cluster ivd is_center min_idx j mi) :=
  inferInstanceAs (Decidable
    (ivd.getD j 0 ≠ 0 ∧ is_center.getD (cluster.getD j 0) 0 = 0 ∧
      min_idx.getD j none = some mi))

/-- Edge `k` of `j` is a Candidate edge leading into the cluster with center index `ci`. -/
def CandInto (adj : Adj) (cluster : List Nat) (center_idx : List (Option Nat)) (j k ci : Nat) :
    Prop :=
  InB adj j k ∧ (getE adj j k).s = 1 ∧
    center_idx.getD (cluster.getD (getE adj j k).v 0) none = some ci

instance (adj : Adj) (cluster : List Nat) (center_idx : List (Option Nat)) (j k ci : Nat) :
    Decidable (CandInto adj cluster center_idx j k ci) :=
  inferInstanceAs (Decidable
    (InB adj j k ∧ (getE adj j k).s = 1 ∧
      center_idx.getD (cluster.getD (getE adj j k).v 0) none = some ci))

instance (adj : Adj) (cluster is_center : List Nat) (j k : Nat) :
    Decidable (Eligible adj cluster is_center j k) :=
  inferInstanceAs (Decidable
    ((getE adj j k).s ≠ 0 ∧ is_center.getD (cluster.getD (getE adj j k).v 0) 0 ≠ 0))

/-- The vector `is_center` of the round started in state `st`. -/
def rIsc (draws : Nat → Bool) (n : Nat) (st : State) : List Nat :=
  step1 draws n st.centers st.pos

/-- The vector `min_idx` of the round started in state `st`. -/
def rMin (draws : Nat → Bool) (n : Nat) (st : State) : List (Option Nat) :=
  step2 n st.adj st.cluster st.ivd (rIsc draws n st)

/-- The result `(to_add, to_rem, ivd)` of the first loop of step 3 of the round. -/
def rOrphan (draws : Nat → Bool) (n : Nat) (st : State) :
    List (Nat × Nat) × List (Nat × Nat) × List Nat :=
  orphanLoop n st.adj st.cluster st.ivd (rIsc draws n st) (rMin draws n st)
    (centerIdx n st.centers).1 (centerIdx n st.centers).2

/-- The result `(to_add, to_rem, cluster_change)` of the second loop of step 3 of the round. -/
def rFound (draws : Nat → Bool) (n : Nat) (st : State) :
    List (Nat × Nat) × List (Nat × Nat) × List (Nat × Nat) :=
  foundLoop n st.adj st.cluster (rOrphan draws n st).2.2 (rIsc draws n st) (rMin draws n st)
    (centerIdx n st.centers).1 (centerIdx n st.centers).2
    (rOrphan draws n st).1 (rOrphan draws n st).2.1

/-- Vertex `j` is orphaned in the round started in state `st`. -/
def Orph (draws : Nat → Bool) (n : Nat) (st : State) (j : Nat) : Prop :=
  IsOrphan st.cluster st.ivd (rIsc draws n st) (rMin draws n st) j

instance (draws : Nat → Bool) (n : Nat) (st : State) (j : Nat) :
    Decidable (Orph draws n st j) :=
  inferInstanceAs (Decidable (IsOrphan st.cluster st.ivd (rIsc draws n st) (rMin draws n st) j))

/-- Vertex `j` finds edge `mi` in the round started in state `st`. -/
def Fnd (draws : Nat → Bool) (n : Nat) (st : State) (j mi : Nat) : Prop :=
  IsFound st.cluster st.ivd (rIsc draws n st) (rMin draws n st) j mi

instance (draws : Nat → Bool) (n : Nat) (st : State) (j mi : Nat) :
    Decidable (Fnd draws n st j mi) :=
  inferInstanceAs (Decidable
    (IsFound st.cluster st.ivd (rIsc draws n st) (rMin draws n st) j mi))

/-- The entry `min_ed[ci]` of vertex `j` in state `st` is `x`. -/
def MinEd (n : Nat) (st : State) (j ci x : Nat) : Prop :=
  ci < (centerIdx n st.centers).2 ∧
    (minEdOf st.adj st.cluster (centerIdx n st.centers).1 (centerIdx n st.centers).2 j).getD
      ci none = some x

/-- Edge `k` of `j` is a Candidate edge into the cluster of center index `ci` in state `st`. -/
def Cand (n : Nat) (st : State) (j k ci : Nat) : Prop :=
  CandInto st.adj st.cluster (centerIdx n st.centers).1 j k ci

/-- The status of the record in slot `q` after lines 216-228 of the round started in `st`. -/
def midS (draws : Nat → Bool) (n : Nat) (st : State) (q : Nat × Nat) : Nat :=
  if (getE st.adj q.1 q.2).s = 2 ∨ q ∈ (rFound draws n st).1 ∨
      mir st.adj q ∈ (rFound draws n st).1 then 2
  else if q ∈ (rFound draws n st).2.1 ∨ mir st.adj q ∈ (rFound draws n st).2.1 then 0
  else (getE st.adj q.1 q.2).s

/-- Vertices joined by a path of records with status 2 (in spanner). -/
inductive SpConn (adj : Adj) : Nat → Nat → Prop
  | refl (u : Nat) : SpConn adj u u
  | step {u k w : Nat} : InB adj u k → (getE adj u k).s = 2 →
      SpConn adj (getE adj u k).v w → SpConn adj u w

/-- The invariant of the state of `main` at the start of phase 1, after every round and at the
start of phase 2. -/
structure Inv (n : Nat) (st : State) : Prop where
  len_adj : st.adj.length = n
  len_cluster : st.cluster.length = n
  len_ivd : st.ivd.length = n
  mirror : Mirror st.adj
  status_le : ∀ j k, InB st.adj j k → (getE st.adj j k).s ≤ 2
  centers_ok : ∀ c ∈ st.centers, c < n ∧ st.ivd.getD c 0 = 1 ∧ st.cluster.getD c 0 = c
  centers_ne : 0 < n → st.centers ≠ []
  active_cluster : ∀ v, v < n → st.ivd.getD v 0 ≠ 0 → st.cluster.getD v 0 ∈ st.centers
  cand_active : ∀ j k, InB st.adj j k → (getE st.adj j k).s = 1 → st.ivd.getD j 0 ≠ 0
  conn_center : ∀ v, v < n → SpConn st.adj v (st.cluster.getD v 0)
  conn_removed : ∀ j k, InB st.adj j k → (getE st.adj j k).s = 0 →
    SpConn st.adj j (getE st.adj j k).v

/-! ## Specification-level notions -/

/-- A valid input graph: at least one vertex, endpoints in range, no self-loop, weight `>= 0`.
The predicate puts no upper bound on the numbers; `FitsInt` does. -/
def ValidInput (n : Nat) (edges : List InEdge) : Prop :=
  1 ≤ n ∧ ∀ e ∈ edges, e.1 < n ∧ e.2.1 < n ∧ e.1 ≠ e.2.1 ∧ 0 ≤ e.2.2

instance (n : Nat) (edges : List InEdge) : Decidable (ValidInput n edges) :=
  inferInstanceAs (Decidable
    (1 ≤ n ∧ ∀ e ∈ edges, e.1 < n ∧ e.2.1 < n ∧ e.1 ≠ e.2.1 ∧ 0 ≤ e.2.2))

/-- The numbers of the input fit the variables they are read into. The program holds `n`, `m`,
`t` and the `u`, `v`, `w` of every line in 32-bit `int` variables (`int n, m, t;` line 5,
`int u, v, w;` line 54, the field `w` of `struct edge` line 9) and computes `(t+1)/2` in `int`
(line 50). A number of `2^31` or more is not stored as written (`cin >>` stores `2147483647`
and reads nothing after it), so the stored graph is the input graph only under these bounds;
the endpoints are below `n` in a valid input. -/
def FitsInt (n t : Nat) (edges : List InEdge) : Prop :=
  n < 2147483648 ∧ edges.length < 2147483648 ∧ t + 1 < 2147483648 ∧
    ∀ e ∈ edges, e.2.2 < 2147483648

instance (n t : Nat) (edges : List InEdge) : Decidable (FitsInt n t edges) :=
  inferInstanceAs (Decidable
    (n < 2147483648 ∧ edges.length < 2147483648 ∧ t + 1 < 2147483648 ∧
      ∀ e ∈ edges, e.2.2 < 2147483648))

/-- A walk from `i` to `j` of total weight `d` in the undirected graph given by an edge list. -/
inductive Walk (es : List InEdge) : Nat → Nat → Int → Prop
  | nil (i : Nat) : Walk es i i 0
  | cons {i j k : Nat} {w d : Int} :
      ((i, j, w) ∈ es ∨ (j, i, w) ∈ es) → Walk es j k d → Walk es i k (w + d)

/-- Shortest-path distance: `d` is the least weight of a walk from `i` to `j`. -/
def IsDist (es : List InEdge) (i j : Nat) (d : Int) : Prop :=
  Walk es i j d ∧ ∀ d1, Walk es i j d1 → d ≤ d1

/-- Vertex `j` is reachable from `i`. -/
def Reachable (es : List InEdge) (i j : Nat) : Prop := ∃ d, Walk es i j d

/-- A sampling oracle answering the first calls from a list and `false` afterwards. -/
def drawsOf (l : List Bool) : Nat → Bool := fun p => l.getD p false

end TSpanner

/-!
# The distance checker (`src/checker.cpp`)

`int` is `long long` there (`#define int ll`): values are `Int`, and the results of `+` and
`*` are reduced to the 64-bit two's-complement range by `wrap64`.
-/

namespace Checker

/-- The value a 64-bit signed integer takes for the mathematical result `x`. -/
def wrap64 (x : Int) : Int := (x + 2 ^ 63) % 2 ^ 64 - 2 ^ 63

/-- The constant `1LL << 50`. -/
def BIG : Int := 2 ^ 50

/-- The entry `dist[i][j]`. -/
def getM (dist : List (List Int)) (i j : Nat) : Int := (dist.getD i []).getD j 0

/-- The write `dist[i][j] = x`. -/
def setM (dist : List (List Int)) (i j : Nat) (x : Int) : List (List Int) :=
  dist.set i ((dist.getD i []).set j x)

/-- Lines 20-23 for one `u`: `dist[u][u] = 0`, then `dist[u][v] = min(dist[u][v], w)` for every
pair `(v, w)` of `adj[u]`. -/
def initRow (dist : List (List Int)) (u : Nat) (row : List (Nat × Int)) : List (List Int) :=
  row.foldl (fun d p => setM d u p.1 (min (getM d u p.1) p.2)) (setM dist u u 0)

/-- Lines 18-24: the matrix before the triple loop. -/
def fwInit (n : Nat) (adj : List (List (Nat × Int))) : List (List Int) :=
  (List.range n).foldl (fun d u => initRow d u (adj.getD u []))
    (List.replicate n (List.replicate n BIG))

/-- Line 28: `dist[i][j] = min(dist[i][j], dist[i][k] + dist[k][j])`. -/
def relax (dist : List (List Int)) (k i j : Nat) : List (List Int) :=
  setM dist i j (min (getM dist i j) (wrap64 (getM dist i k + getM dist k j)))

/-- Lines 26-28 for one `k`: the loops over `i` and `j`. -/
def fwStage (n : Nat) (dist : List (List Int)) (k : Nat) : List (List Int) :=
  (List.range n).foldl
    (fun d i => (List.range n).foldl (fun d1 j => relax d1 k i j) d) dist

/-- The function `distances_fw` (lines 17-30). -/
def distances_fw (n : Nat) (adj : List (List (Nat × Int))) : List (List Int) :=
  (List.range n).foldl (fun d k => fwStage n d k) (fwInit n adj)

/-- The function `verify` (lines 32-39); `n` is `dist1.size()`. -/
def verify (dist1 dist2 : List (List Int)) (threshold : Int) : Bool :=
  (List.range dist1.length).all (fun i =>
    (List.range dist1.length).all (fun j =>
      !decide (getM dist2 i j > wrap64 (getM dist1 i j * threshold))))

/-- Lines 47-52 and 56-61: one input line `u v w` is pushed to `adj[u]` and to `adj[v]`. -/
def addPair (adj : List (List (Nat × Int))) (e : TSpanner.InEdge) : List (List (Nat × Int)) :=
  let a1 := adj.set e.1 (adj.getD e.1 [] ++ [(e.2.1, e.2.2)])
  a1.set e.2.1 (a1.getD e.2.1 [] ++ [(e.1, e.2.2)])

/-- The adjacency lists read for a graph on `n` vertices. -/
def adjOf (n : Nat) (edges : List TSpanner.InEdge) : List (List (Nat × Int)) :=
  edges.foldl addPair (List.replicate n [])

/-- The function `solve` (lines 41-65): `true` is the answer `YES`, `false` is `NO`. The first
graph is the original one, the second the spanner, both on the same `n` vertices. -/
def solve (n : Nat) (threshold : Int) (edges1 edges2 : List TSpanner.InEdge) : Bool :=
  verify (distances_fw n (adjOf n edges1)) (distances_fw n (adjOf n edges2)) threshold

/-- A graph the checker can read: endpoints in range and weights `>= 0`. -/
def ValidGraph (n : Nat) (edges : List TSpanner.InEdge) : Prop :=
  ∀ e ∈ edges, e.1 < n ∧ e.2.1 < n ∧ 0 ≤ e.2.2

instance (n : Nat) (edges : List TSpanner.InEdge) : Decidable (ValidGraph n edges) :=
  inferInstanceAs (Decidable (∀ e ∈ edges, e.1 < n ∧ e.2.1 < n ∧ 0 ≤ e.2.2))

/-- The matrix is `n` by `n`. -/
def Shape (n : Nat) (dist : List (List Int)) : Prop :=
  dist.length = n ∧ ∀ i, i < n → (dist.getD i []).length = n

/-- Every entry is between 0 and `2^50`, and an entry below `2^50` is the weight of a walk. -/
def Sound (n : Nat) (es : List TSpanner.InEdge) (dist : List (List Int)) : Prop :=
  ∀ i j, i < n → j < n → 0 ≤ getM dist i j ∧ getM dist i j ≤ BIG ∧
    (getM dist i j < BIG → TSpanner.Walk es i j (getM dist i j))

/-- A walk from `i` to `j` all of whose intermediate vertices are below `k`. -/
inductive WalkIn (es : List TSpanner.InEdge) (k : Nat) : Nat → Nat → Int → Prop
  | nil (i : Nat) : WalkIn es k i i 0
  | edge {i j : Nat} {w : Int} : ((i, j, w) ∈ es ∨ (j, i, w) ∈ es) → WalkIn es k i j w
  | cons {i m j : Nat} {w d : Int} : ((i, m, w) ∈ es ∨ (m, i, w) ∈ es) → m < k →
      WalkIn es k m j d → WalkIn es k i j (w + d)

end Checker

namespace TSpanner

/-! ## Cluster radius -/

/-- Vertex `v` is joined to the vertex `c` by a path of at most `i` records of status 2 (in
spanner), every vertex of which (both ends included) is active and has cluster value `c`. -/
inductive Joined (st : State) (c : Nat) : Nat → Nat → Prop
  | base (i : Nat) : st.ivd.getD c 0 ≠ 0 → st.cluster.getD c 0 = c → Joined st c i c
  | step {i v k : Nat} : InB st.adj v k → (getE st.adj v k).s = 2 → st.ivd.getD v 0 ≠ 0 →
      st.cluster.getD v 0 = c → Joined st c i (getE st.adj v k).v → Joined st c (i + 1) v

/-!
## The program with checked vector accesses

A second embedding of `src/algo/t-spanner.cpp` in which every subscript `a[i]` is checked:
a read or a write outside the bounds of the vector makes the run fail (`none`). The functions
follow the unchecked ones above line by line and carry the same names with the suffix `C`; a
`-1` read from `center_idx` and used as a subscript (line 212) is a failure as well.
-/

/-- Checked read `a[i]`. -/
def rd {α : Type} (a : List α) (i : Nat) : Option α := a[i]?

/-- Checked write `a[i] = x`. -/
def wr {α : Type} (a : List α) (i : Nat) (x : α) : Option (List α) :=
  if i < a.length then some (a.set i x) else none

/-- Checked read of the record `adj[j][k]`. -/
def rdE (adj : Adj) (j k : Nat) : Option edge := do
  let row ← rd adj j
  rd row k

/-- Checked write `adj[j][k].s = s`. -/
def wrS (adj : Adj) (j k s : Nat) : Option Adj := do
  let row ← rd adj j
  let e ← rd row k
  let row1 ← wr row k { e with s := s }
  wr adj j row1

/-- Checked loop body `for x in l: out.push_back(g x)`. -/
def mapC {α β : Type} (g : α → Option β) : List α → Option (List β)
  | [] => some []
  | a :: l => do
    let b ← g a
    let r ← mapC g l
    pure (b :: r)

/-- Lines 52-65, checked: `adj[v].size()`, `adj[u].size()`, `adj[v].push_back(ev)`,
`adj[u].push_back(eu)`. -/
def addEdgeC (adj : Adj) (e : InEdge) : Option Adj := do
  let rv ← rd adj e.2.1
  let ru ← rd adj e.1
  let eu : edge := { v := e.2.1, w := e.2.2, s := 1, oi := rv.length }
  let ev : edge := { v := e.1, w := e.2.2, s := 1, oi := ru.length }
  let adj1 ← wr adj e.2.1 (rv ++ [ev])
  let ru1 ← rd adj1 e.1
  wr adj1 e.1 (ru1 ++ [eu])

/-- Graph construction, checked. -/
def buildC (n : Nat) (edges : List InEdge) : Option Adj :=
  edges.foldlM addEdgeC (List.replicate n [])

/-- Lines 86-95, checked: the write `is_center[j] = 1`. -/
def sampleLoopC (draws : Nat → Bool) (n : Nat) (centers : List Nat) (pos : Nat) :
    Option (List Nat × Nat × Nat) :=
  centers.foldlM
    (fun (acc : List Nat × Nat × Nat) j =>
      if draws acc.2.2 then do
        let isc ← wr acc.1 j 1
        pure (isc, acc.2.1 + 1, acc.2.2 + 1)
      else pure (acc.1, acc.2.1, acc.2.2 + 1))
    (List.replicate n 0, 0, pos)

/-- Step 1, checked: line 96 reads `centers[0]` and writes `is_center[centers[0]]`. -/
def step1C (draws : Nat → Bool) (n : Nat) (centers : List Nat) (pos : Nat) :
    Option (List Nat) := do
  let r ← sampleLoopC draws n centers pos
  if r.2.1 = 0 then do
    let c0 ← rd centers 0
    wr r.1 c0 1
  else pure r.1

/-- Lines 111-122, checked: `adj[j]`, `adj[j][k]`, and for a record that is not removed
`cluster[e.v]` and `is_center[cluster[e.v]]`. -/
def nearestLoopC (adj : Adj) (cluster is_center : List Nat) (j : Nat) :
    Option (Int × Option Nat) := do
  let row ← rd adj j
  (List.range row.length).foldlM
    (fun (acc : Int × Option Nat) k => do
      let e ← rdE adj j k
      if e.s = 0 then pure acc
      else do
        let c ← rd cluster e.v
        let b ← rd is_center c
        if b = 0 then pure acc
        else if e.w < acc.1 then pure (e.w, some k) else pure acc)
    (INF, none)

/-- Step 2, checked: `ivd[j]`, `cluster[j]`, `is_center[cluster[j]]`, `min_idx[j]`. -/
def step2C (n : Nat) (adj : Adj) (cluster ivd is_center : List Nat) :
    Option (List (Option Nat)) :=
  (List.range n).foldlM
    (fun (min_idx : List (Option Nat)) j => do
      let a ← rd ivd j
      if a = 0 then pure min_idx
      else do
        let c ← rd cluster j
        let b ← rd is_center c
        if b ≠ 0 then pure min_idx
        else do
          let r ← nearestLoopC adj cluster is_center j
          wr min_idx j r.2)
    (List.replicate n none)

/-- Lines 126-132 (and 272-278), checked: the write `center_idx[j] = cidx`. -/
def centerIdxC (n : Nat) (centers : List Nat) : Option (List (Option Nat) × Nat) :=
  centers.foldlM
    (fun (acc : List (Option Nat) × Nat) j => do
      let ci ← wr acc.1 j (some acc.2)
      pure (ci, acc.2 + 1))
    (List.replicate n none, 0)

/-- Lines 150-157 (also 184-191 and 290-297), checked: `min_ed[ci]`, and when it is set
`adj[j][k]` and `adj[j][min_ed[ci]]`. -/
def minEdUpdC (adj : Adj) (j : Nat) (min_ed : List (Option Nat)) (ci k : Nat) :
    Option (List (Option Nat)) := do
  let cur ← rd min_ed ci
  match cur with
  | none => wr min_ed ci (some k)
  | some m => do
    let e ← rdE adj j k
    let em ← rdE adj j m
    if e.w < em.w then wr min_ed ci (some k) else pure min_ed

/-- Orphan case, inner loop (lines 143-158), checked. -/
def orphanScanC (adj : Adj) (cluster : List Nat) (center_idx : List (Option Nat))
    (cidx j : Nat) (to_rem : List (Nat × Nat)) :
    Option (List (Nat × Nat) × List (Option Nat)) := do
  let row ← rd adj j
  (List.range row.length).foldlM
    (fun (acc : List (Nat × Nat) × List (Option Nat)) k => do
      let e ← rdE adj j k
      if e.s ≠ 1 then pure acc
      else do
        let to_rem1 := acc.1 ++ [(j, k)]
        let c ← rd cluster e.v
        let oc ← rd center_idx c
        match oc with
        | none => pure (to_rem1, acc.2)
        | some ci => do
          let m ← minEdUpdC adj j acc.2 ci k
          pure (to_rem1, m))
    (to_rem, List.replicate cidx none)

/-- Lines 160-164 (and 299-303), checked: the read `min_ed[k]`. -/
def pushMinEdC (j : Nat) (min_ed : List (Option Nat)) (cidx : Nat)
    (to_add : List (Nat × Nat)) : Option (List (Nat × Nat)) :=
  (List.range cidx).foldlM
    (fun (acc : List (Nat × Nat)) k => do
      let o ← rd min_ed k
      match o with
      | none => pure acc
      | some m => pure (acc ++ [(j, m)]))
    to_add

/-- First loop of step 3 (lines 136-166), checked: `ivd[j]`, `cluster[j]`,
`is_center[cluster[j]]`, `min_idx[j]` and the write `ivd[j] = 0`. -/
def orphanLoopC (n : Nat) (adj : Adj) (cluster ivd is_center : List Nat)
    (min_idx center_idx : List (Option Nat)) (cidx : Nat) :
    Option (List (Nat × Nat) × List (Nat × Nat) × List Nat) :=
  (List.range n).foldlM
    (fun (acc : List (Nat × Nat) × List (Nat × Nat) × List Nat) j => do
      let a ← rd acc.2.2 j
      if a = 0 then pure acc
      else do
        let c ← rd cluster j
        let b ← rd is_center c
        if b ≠ 0 then pure acc
        else do
          let mi ← rd min_idx j
          match mi with
          | some _ => pure acc
          | none => do
            let r ← orphanScanC adj cluster center_idx cidx j acc.2.1
            let ivd1 ← wr acc.2.2 j 0
            let to_add1 ← pushMinEdC j r.2 cidx acc.1
            pure (to_add1, r.1, ivd1))
    ([], [], ivd)

/-- Found case, first inner loop (lines 176-196), checked; line 192 reads
`adj[j][min_idx[j]]`, then `center_idx[ncj]` when the first test holds, and writes `tr[ci]`. -/
def foundScanC (adj : Adj) (cluster : List Nat) (center_idx : List (Option Nat))
    (cidx j mi : Nat) (ncj : Nat) (to_rem : List (Nat × Nat)) :
    Option (List (Nat × Nat) × List (Option Nat) × List Nat) := do
  let row ← rd adj j
  (List.range row.length).foldlM
    (fun (acc : List (Nat × Nat) × List (Option Nat) × List Nat) k => do
      let e ← rdE adj j k
      if e.s ≠ 1 then pure acc
      else do
        let c ← rd cluster e.v
        let to_rem1 := if c = ncj then acc.1 ++ [(j, k)] else acc.1
        let oc ← rd center_idx c
        match oc with
        | none => pure (to_rem1, acc.2.1, acc.2.2)
        | some ci => do
          let min_ed1 ← minEdUpdC adj j acc.2.1 ci k
          let emi ← rdE adj j mi
          if e.w < emi.w then do
            let cn ← rd center_idx ncj
            if some ci ≠ cn then do
              let tr1 ← wr acc.2.2 ci 1
              pure (to_rem1, min_ed1, tr1)
            else pure (to_rem1, min_ed1, acc.2.2)
          else pure (to_rem1, min_ed1, acc.2.2))
    (to_rem, List.replicate cidx none, List.replicate cidx 0)

/-- Found case, lines 199-205, checked: `min_ed[k]` and `adj[j][min_ed[k]]`. -/
def pushCheaperC (adj : Adj) (j : Nat) (min_ed : List (Option Nat)) (cidx : Nat) (cw : Int)
    (to_add : List (Nat × Nat)) : Option (List (Nat × Nat)) :=
  (List.range cidx).foldlM
    (fun (acc : List (Nat × Nat)) k => do
      let o ← rd min_ed k
      match o with
      | none => pure acc
      | some m => do
        let em ← rdE adj j m
        if em.w ≥ cw then pure acc else pure (acc ++ [(j, m)]))
    to_add

/-- Found case, second inner loop (lines 207-213), checked: `ci = center_idx[cluster[e.v]]`
is used as a subscript of `tr` without a test, so a `-1` there is a failure. -/
def trScanC (adj : Adj) (cluster : List Nat) (center_idx : List (Option Nat)) (j : Nat)
    (tr : List Nat) (to_rem : List (Nat × Nat)) : Option (List (Nat × Nat)) := do
  let row ← rd adj j
  (List.range row.length).foldlM
    (fun (acc : List (Nat × Nat)) k => do
      let e ← rdE adj j k
      if e.s ≠ 1 then pure acc
      else do
        let c ← rd cluster e.v
        let oc ← rd center_idx c
        match oc with
        | none => none
        | some ci => do
          let b ← rd tr ci
          if b ≠ 0 then pure (acc ++ [(j, k)]) else pure acc)
    to_rem

/-- Second loop of step 3 (lines 167-215), checked. -/
def foundLoopC (n : Nat) (adj : Adj) (cluster ivd is_center : List Nat)
    (min_idx center_idx : List (Option Nat)) (cidx : Nat)
    (to_add to_rem : List (Nat × Nat)) :
    Option (List (Nat × Nat) × List (Nat × Nat) × List (Nat × Nat)) :=
  (List.range n).foldlM
    (fun (acc : List (Nat × Nat) × List (Nat × Nat) × List (Nat × Nat)) j => do
      let a ← rd ivd j
      if a = 0 then pure acc
      else do
        let c ← rd cluster j
        let b ← rd is_center c
        if b ≠ 0 then pure acc
        else do
          let omi ← rd min_idx j
          match omi with
          | none => pure acc
          | some mi => do
            let emi ← rdE adj j mi
            let ncj ← rd cluster emi.v
            let r ← foundScanC adj cluster center_idx cidx j mi ncj acc.2.1
            let emi1 ← rdE adj j mi
            let cw := emi1.w
            let to_add0 ← pushCheaperC adj j r.2.1 cidx cw acc.1
            let to_add1 := to_add0 ++ [(j, mi)]
            let to_rem1 ← trScanC adj cluster center_idx j r.2.2 r.1
            pure (to_add1, to_rem1, acc.2.2 ++ [(j, ncj)]))
    (to_add, to_rem, [])

/-- Body of the loops at lines 216-221 and 306-311, checked: `adj[p.first][p.second]` and
`adj[e.v][e.oi]`. -/
def addWriteC (adj : Adj) (p : Nat × Nat) : Option Adj := do
  let e ← rdE adj p.1 p.2
  let adj1 ← wrS adj p.1 p.2 2
  wrS adj1 e.v e.oi 2

/-- Body of the loops at lines 222-228 and 312-318, checked. -/
def remWriteC (adj : Adj) (p : Nat × Nat) : Option Adj := do
  let e ← rdE adj p.1 p.2
  if e.s = 2 then pure adj
  else do
    let adj1 ← wrS adj p.1 p.2 0
    wrS adj1 e.v e.oi 0

/-- Lines 216-228, checked. -/
def applyListsC (adj : Adj) (to_add to_rem : List (Nat × Nat)) : Option Adj := do
  let adj1 ← to_add.foldlM addWriteC adj
  to_rem.foldlM remWriteC adj1

/-- Lines 229-232, checked: the write `cluster[p.first] = p.second`. -/
def applyChangeC (cluster : List Nat) (cluster_change : List (Nat × Nat)) : Option (List Nat) :=
  cluster_change.foldlM (fun c p => wr c p.1 p.2) cluster

/-- Body of the inner loop of step 4 (lines 241-242), checked: `cluster[e.v]`, `cluster[j]`. -/
def cleanRecordC (cluster : List Nat) (j : Nat) (e : edge) : Option edge := do
  let ce ← rd cluster e.v
  let cj ← rd cluster j
  if ce ≠ cj then pure e
  else if e.s < 2 then pure { e with s := 0 } else pure e

/-- Step 4 (lines 236-244), checked: `cluster[j]`, `is_center[cluster[j]]`, `adj[j]`. -/
def step4C (n : Nat) (adj : Adj) (cluster is_center : List Nat) : Option Adj :=
  (List.range n).foldlM
    (fun (a : Adj) j => do
      let c ← rd cluster j
      let b ← rd is_center c
      if b = 0 then pure a
      else do
        let row ← rd a j
        let row1 ← mapC (cleanRecordC cluster j) row
        wr a j row1)
    adj

/-- Lines 246-250, checked: the read `is_center[j]`. -/
def refreshC (n : Nat) (is_center : List Nat) : Option (List Nat) :=
  (List.range n).foldlM
    (fun (acc : List Nat) j => do
      let b ← rd is_center j
      if b ≠ 0 then pure (acc ++ [j]) else pure acc)
    []

/-- One iteration of the phase 1 loop (lines 84-250), checked. -/
def roundC (draws : Nat → Bool) (n : Nat) (st : State) : Option State := do
  let is_center ← step1C draws n st.centers st.pos
  let s ← sampleLoopC draws n st.centers st.pos
  let min_idx ← step2C n st.adj st.cluster st.ivd is_center
  let ci ← centerIdxC n st.centers
  let o ← orphanLoopC n st.adj st.cluster st.ivd is_center min_idx ci.1 ci.2
  let f ← foundLoopC n st.adj st.cluster o.2.2 is_center min_idx ci.1 ci.2 o.1 o.2.1
  let adj1 ← applyListsC st.adj f.1 f.2.1
  let cluster1 ← applyChangeC st.cluster f.2.2
  let adj2 ← step4C n adj1 cluster1 is_center
  let centers1 ← refreshC n is_center
  pure { adj := adj2, cluster := cluster1, ivd := o.2.2, centers := centers1, pos := s.2.2 }

/-- Phase 1 (lines 82-251), checked: `r` iterations of the round loop. -/
def roundsC (draws : Nat → Bool) (n : Nat) (st : State) : Nat → Option State
  | 0 => some st
  | r + 1 => (roundsC draws n st r).bind (roundC draws n)

/-- Phase 2, inner loop (lines 283-298), checked. -/
def finalScanC (adj : Adj) (cluster : List Nat) (center_idx : List (Option Nat))
    (cidx i : Nat) (to_rem : List (Nat × Nat)) :
    Option (List (Nat × Nat) × List (Option Nat)) := do
  let row ← rd adj i
  (List.range row.length).foldlM
    (fun (acc : List (Nat × Nat) × List (Option Nat)) j => do
      let e ← rdE adj i j
      if e.s ≠ 1 then pure acc
      else do
        let c ← rd cluster e.v
        let oc ← rd center_idx c
        match oc with
        | none => pure acc
        | some ci => do
          let m ← minEdUpdC adj i acc.2 ci j
          pure (acc.1 ++ [(i, j)], m))
    (to_rem, List.replicate cidx none)

/-- Phase 2, outer loop (lines 279-304), checked. -/
def finalLoopC (n : Nat) (adj : Adj) (cluster ivd : List Nat) (center_idx : List (Option Nat))
    (cidx : Nat) : Option (List (Nat × Nat) × List (Nat × Nat)) :=
  (List.range n).foldlM
    (fun (acc : List (Nat × Nat) × List (Nat × Nat)) i => do
      let a ← rd ivd i
      if a = 0 then pure acc
      else do
        let r ← finalScanC adj cluster center_idx cidx i acc.2
        let to_add1 ← pushMinEdC i r.2 cidx acc.1
        pure (to_add1, r.1))
    ([], [])

/-- Phase 2 (lines 269-318), checked. -/
def phase2C (n : Nat) (st : State) : Option State := do
  let ci ← centerIdxC n st.centers
  let l ← finalLoopC n st.adj st.cluster st.ivd ci.1 ci.2
  let adj1 ← applyListsC st.adj l.1 l.2
  pure { st with adj := adj1 }

/-- The emitter loop (lines 321-331), checked: the read `adj[i]`. -/
def finC (n : Nat) (adj : Adj) : Option (List InEdge) :=
  (List.range n).foldlM
    (fun (acc : List InEdge) i => do
      let row ← rd adj i
      pure (row.foldl
        (fun (acc1 : List InEdge) e =>
          if e.v < i then acc1
          else if e.s < 2 then acc1
          else acc1 ++ [(i, e.v, e.w)])
        acc))
    []

/-- The whole run with checked accesses: `none` when some access is out of bounds, and the
output of the program otherwise. -/
def spannerC (draws : Nat → Bool) (n t : Nat) (edges : List InEdge) :
    Option (Nat × List InEdge) := do
  let adj ← buildC n edges
  let st0 : State :=
    { adj := adj, cluster := List.range n, ivd := List.replicate n 1,
      centers := List.range n, pos := 0 }
  let st1 ← roundsC draws n st0 ((t + 1) / 2 - 1)
  let st2 ← phase2C n st1
  let f ← finC n st2.adj
  pure (f.length, f)

theorem walk_potential {es : List InEdge} (φ : Nat → Int)
    (h : ∀ e ∈ es, φ e.2.1 - φ e.1 ≤ e.2.2 ∧ φ e.1 - φ e.2.1 ≤ e.2.2)
    {i j : Nat} {d : Int} (hw : Walk es i j d) : φ j - φ i ≤ d := by
  induction hw with
  | nil i => simp
  | cons he _ ih =>
    rcases he with he | he
    · have h1 := (h _ he).1
      simp only at h1
      omega
    · have h1 := (h _ he).2
      simp only at h1
      omega

theorem walk_single {es : List InEdge} {i j : Nat} {w : Int}
    (h : (i, j, w) ∈ es ∨ (j, i, w) ∈ es) : Walk es i j w := by
  have h1 := Walk.cons h (Walk.nil j)
  simpa using h1

theorem walk_trans {es : List InEdge} {i j k : Nat} {d1 d2 : Int}
    (h1 : Walk es i j d1) (h2 : Walk es j k d2) : Walk es i k (d1 + d2) := by
  induction h1 with
  | nil i => simpa using h2
  | cons he _ ih =>
    have h3 := Walk.cons he (ih h2)
    rw [add_assoc]
    exact h3

/-- C1 (stretch bound), evaluated at a failing input: on the valid 4-vertex input
`0-1 (1), 0-2 (2), 0-3 (1), 1-2 (10)` with `t = 5` and the draws `F F T T` (round 1) and
`F F` (round 2) the program emits `0-1, 0-3, 1-2`; the distance from 0 to 2 is 2 in the
input and 11 in the output, and 11 exceeds `5 * 2`. -/
theorem stretch_bound_violated :
    ValidInput 4 [(0, 1, 1), (0, 2, 2), (0, 3, 1), (1, 2, 10)] ∧
    IsDist [(0, 1, 1), (0, 2, 2), (0, 3, 1), (1, 2, 10)] 0 2 2 ∧
    spanner (drawsOf [false, false, true, true, false, false]) 4 5
        [(0, 1, 1), (0, 2, 2), (0, 3, 1), (1, 2, 10)]
      = (3, [(0, 1, 1), (0, 3, 1), (1, 2, 10)]) ∧
    IsDist (spanner (drawsOf [false, false, true, true, false, false]) 4 5
        [(0, 1, 1), (0, 2, 2), (0, 3, 1), (1, 2, 10)]).2 0 2 11 ∧
    ¬ ((11 : Int) ≤ 5 * 2) := by
  have hs : spanner (drawsOf [false, false, true, true, false, false]) 4 5
        [(0, 1, 1), (0, 2, 2), (0, 3, 1), (1, 2, 10)]
      = (3, [(0, 1, 1), (0, 3, 1), (1, 2, 10)]) := by decide
  refine ⟨by decide, ⟨?_, ?_⟩, hs, ?_, by decide⟩
  · exact walk_single (Or.inl (by decide))
  · intro d1 hw
    have h := walk_potential (fun x => [0, 1, 2, 1].getD x 0) (by decide) hw
    simpa using h
  · rw [hs]
    refine ⟨?_, ?_⟩
    · have h1 : Walk [((0 : Nat), (1 : Nat), (1 : Int)), (0, 3, 1), (1, 2, 10)] 0 1 1 :=
        walk_single (Or.inl (by decide))
      have h2 : Walk [((0 : Nat), (1 : Nat), (1 : Int)), (0, 3, 1), (1, 2, 10)] 1 2 10 :=
        walk_single (Or.inl (by decide))
      exact walk_trans h1 h2
    · intro d1 hw
      have h := walk_potential (fun x => [0, 1, 11, 1].getD x 0) (by decide) hw
      simpa using h

/-! ## Lists as vectors -/

theorem getD_set_eq {α : Type} (l : List α) (i j : Nat) (a d : α) :
    (l.set i a).getD j d = if i = j ∧ i < l.length then a else l.getD j d := by
  simp only [List.getD_eq_getElem?_getD, List.getElem?_set]
  by_cases h : i = j
  · subst h
    by_cases h2 : i < l.length
    · simp [h2]
    · simp [h2, List.getElem?_eq_none (Nat.le_of_not_lt h2)]
  · simp [h]

theorem getD_set_self {α : Type} (l : List α) (i : Nat) (a d : α) (h : i < l.length) :
    (l.set i a).getD i d = a := by
  simp [getD_set_eq, h]

theorem getD_set_ne {α : Type} (l : List α) {i j : Nat} (a d : α) (h : i ≠ j) :
    (l.set i a).getD j d = l.getD j d := by
  simp [getD_set_eq, h]

theorem getD_replicate_eq {α : Type} (n i : Nat) (a d : α) :
    (List.replicate n a).getD i d = if i < n then a else d := by
  simp only [List.getD_eq_getElem?_getD, List.getElem?_replicate]
  split <;> simp

theorem getD_range_eq (n i : Nat) : (List.range n).getD i 0 = if i < n then i else 0 := by
  simp only [List.getD_eq_getElem?_getD]
  by_cases h : i < n
  · simp [h, List.getElem?_range h]
  · simp [h, List.getElem?_eq_none (by simpa using h : (List.range n).length ≤ i)]

theorem getD_of_le {α : Type} (l : List α) (i : Nat) (d : α) (h : l.length ≤ i) :
    l.getD i d = d := by
  simp [List.getD_eq_getElem?_getD, List.getElem?_eq_none h]

/-! ## Loop invariants -/

theorem foldl_inv {α β : Type} (P : β → Prop) (f : β → α → β) (l : List α) (b : β)
    (h0 : P b) (hs : ∀ b a, a ∈ l → P b → P (f b a)) : P (l.foldl f b) := by
  induction l generalizing b with
  | nil => simpa using h0
  | cons x xs ih =>
    simp only [List.foldl_cons]
    apply ih
    · exact hs b x (by simp) h0
    · intro b1 a ha hb
      exact hs b1 a (by simp [ha]) hb

theorem foldl_range_inv {β : Type} (P : Nat → β → Prop) (f : β → Nat → β) (n : Nat) (b : β)
    (h0 : P 0 b) (hs : ∀ k b, k < n → P k b → P (k + 1) (f b k)) :
    P n ((List.range n).foldl f b) := by
  induction n with
  | zero => simpa using h0
  | succ m ih =>
    rw [List.range_succ, List.foldl_append]
    simp only [List.foldl_cons, List.foldl_nil]
    apply hs m _ (Nat.lt_succ_self m)
    apply ih
    intro k b1 hk hb
    exact hs k b1 (Nat.lt_succ_of_lt hk) hb

/-! ## Step 1: sampling -/

theorem exists_lt_succ_iff (n : Nat) (P : Nat → Prop) :
    (∃ i, i < n + 1 ∧ P i) ↔ P 0 ∨ ∃ i, i < n ∧ P (i + 1) := by
  constructor
  · rintro ⟨i, hi, hp⟩
    cases i with
    | zero => exact Or.inl hp
    | succ k => exact Or.inr ⟨k, by omega, hp⟩
  · rintro (h | ⟨i, hi, hp⟩)
    · exact ⟨0, by omega, h⟩
    · exact ⟨i + 1, by omega, hp⟩

theorem forall_lt_succ_iff (n : Nat) (P : Nat → Prop) :
    (∀ i, i < n + 1 → P i) ↔ P 0 ∧ ∀ i, i < n → P (i + 1) := by
  constructor
  · intro h
    exact ⟨h 0 (by omega), fun i hi => h (i + 1) (by omega)⟩
  · rintro ⟨h0, hs⟩ i hi
    cases i with
    | zero => exact h0
    | succ k => exact hs k (by omega)

theorem sampleLoop_fold (draws : Nat → Bool) (l : List Nat) (isc : List Nat) (cc pos : Nat) :
    (l.foldl
      (fun (acc : List Nat × Nat × Nat) j =>
        if draws acc.2.2 then (acc.1.set j 1, acc.2.1 + 1, acc.2.2 + 1)
        else (acc.1, acc.2.1, acc.2.2 + 1)) (isc, cc, pos)).1.length = isc.length ∧
    (l.foldl
      (fun (acc : List Nat × Nat × Nat) j =>
        if draws acc.2.2 then (acc.1.set j 1, acc.2.1 + 1, acc.2.2 + 1)
        else (acc.1, acc.2.1, acc.2.2 + 1)) (isc, cc, pos)).2.2 = pos + l.length ∧
    (∀ j, (l.foldl
      (fun (acc : List Nat × Nat × Nat) j =>
        if draws acc.2.2 then (acc.1.set j 1, acc.2.1 + 1, acc.2.2 + 1)
        else (acc.1, acc.2.1, acc.2.2 + 1)) (isc, cc, pos)).1.getD j 0 =
      if j < isc.length ∧ ∃ idx, idx < l.length ∧ (l.getD idx 0 = j ∧ draws (pos + idx) = true)
      then 1 else isc.getD j 0) ∧
    ((l.foldl
      (fun (acc : List Nat × Nat × Nat) j =>
        if draws acc.2.2 then (acc.1.set j 1, acc.2.1 + 1, acc.2.2 + 1)
        else (acc.1, acc.2.1, acc.2.2 + 1)) (isc, cc, pos)).2.1 = 0 ↔
      cc = 0 ∧ ∀ idx, idx < l.length → draws (pos + idx) = false) := by
  induction l generalizing isc cc pos with
  | nil => simp
  | cons x xs ih =>
    have harith : ∀ i, pos + (i + 1) = pos + 1 + i := fun i => by omega
    have hdr : ∀ i, draws (pos + (i + 1)) = draws (pos + 1 + i) := fun i => by rw [harith]
    have hE : ∀ j, (∃ idx, idx < (x :: xs).length ∧
          ((x :: xs).getD idx 0 = j ∧ draws (pos + idx) = true)) ↔
        ((x = j ∧ draws pos = true) ∨
          ∃ idx, idx < xs.length ∧ (xs.getD idx 0 = j ∧ draws (pos + 1 + idx) = true)) := by
      intro j
      rw [List.length_cons, exists_lt_succ_iff]
      simp only [List.getD_cons_zero, List.getD_cons_succ, Nat.add_zero, hdr]
    have hA : (∀ idx, idx < (x :: xs).length → draws (pos + idx) = false) ↔
        (draws pos = false ∧ ∀ idx, idx < xs.length → draws (pos + 1 + idx) = false) := by
      rw [List.length_cons, forall_lt_succ_iff]
      simp only [Nat.add_zero, hdr]
    simp only [List.foldl_cons, hE, hA]
    simp only [List.length_cons]
    by_cases hd : draws pos = true
    · simp only [hd, if_true]
      obtain ⟨h1, h2, h3, h4⟩ := ih (isc.set x 1) (cc + 1) (pos + 1)
      simp only [List.length_set] at h1 h3
      refine ⟨h1, by rw [h2]; omega, ?_, ?_⟩
      · intro j
        rw [h3 j, getD_set_eq]
        by_cases hj : j < isc.length <;> by_cases hx : x = j <;>
          by_cases hex : ∃ idx, idx < xs.length ∧ (xs.getD idx 0 = j ∧ draws (pos + 1 + idx) = true)
        all_goals simp [hj, hx, hex]
      · rw [h4]; simp
    · have hd2 : draws pos = false := by simpa using hd
      simp only [hd2, Bool.false_eq_true, if_false]
      obtain ⟨h1, h2, h3, h4⟩ := ih isc cc (pos + 1)
      refine ⟨h1, by rw [h2]; omega, ?_, ?_⟩
      · intro j
        rw [h3 j]
        simp
      · rw [h4]; simp

theorem step1_length (draws : Nat → Bool) (n : Nat) (centers : List Nat) (pos : Nat) :
    (step1 draws n centers pos).length = n := by
  unfold step1 sampleLoop
  have h := (sampleLoop_fold draws centers (List.replicate n 0) 0 pos).1
  simp only [List.length_replicate] at h
  dsimp only
  split
  · rw [List.length_set]; exact h
  · exact h

theorem sampleLoop_pos (draws : Nat → Bool) (n : Nat) (centers : List Nat) (pos : Nat) :
    (sampleLoop draws n centers pos).2.2 = pos + centers.length :=
  (sampleLoop_fold draws centers (List.replicate n 0) 0 pos).2.1

theorem step1_getD (draws : Nat → Bool) (n : Nat) (centers : List Nat) (pos j : Nat) :
    (step1 draws n centers pos).getD j 0 =
      if j < n ∧ ((∃ idx, idx < centers.length ∧
            (centers.getD idx 0 = j ∧ draws (pos + idx) = true)) ∨
          ((∀ idx, idx < centers.length → draws (pos + idx) = false) ∧ centers.getD 0 0 = j))
      then 1 else 0 := by
  unfold step1 sampleLoop
  obtain ⟨h1, _, h3, h4⟩ := sampleLoop_fold draws centers (List.replicate n 0) 0 pos
  simp only [List.length_replicate] at h1 h3
  simp only [true_and] at h4
  dsimp only
  by_cases hcc : (centers.foldl
      (fun (acc : List Nat × Nat × Nat) j =>
        if draws acc.2.2 then (acc.1.set j 1, acc.2.1 + 1, acc.2.2 + 1)
        else (acc.1, acc.2.1, acc.2.2 + 1)) (List.replicate n 0, 0, pos)).2.1 = 0
  · have hall := h4.1 hcc
    simp only [hcc, if_true]
    rw [getD_set_eq, h1, h3 j]
    have hne : ¬ ∃ idx, idx < centers.length ∧
        (centers.getD idx 0 = j ∧ draws (pos + idx) = true) := by
      rintro ⟨idx, hi, _, hd⟩
      rw [hall idx hi] at hd
      exact Bool.false_ne_true hd
    have hz : (List.replicate n 0).getD j 0 = 0 := by
      rw [getD_replicate_eq]; split <;> rfl
    have hinner : (if j < n ∧ ∃ idx, idx < centers.length ∧
            (centers.getD idx 0 = j ∧ draws (pos + idx) = true) then 1
          else (List.replicate n 0).getD j 0) = 0 := by
      rw [if_neg (fun h => hne h.2), hz]
    rw [hinner]
    by_cases hC : j < n ∧ ((∃ idx, idx < centers.length ∧
            (centers.getD idx 0 = j ∧ draws (pos + idx) = true)) ∨
          ((∀ idx, idx < centers.length → draws (pos + idx) = false) ∧ centers.getD 0 0 = j))
    · rw [if_pos hC]
      rcases hC with ⟨hj, hE | ⟨_, hc⟩⟩
      · exact absurd hE hne
      · rw [if_pos ⟨hc, by rw [hc]; exact hj⟩]
    · rw [if_neg hC, if_neg]
      rintro ⟨a1, a2⟩
      exact hC ⟨a1 ▸ a2, Or.inr ⟨hall, a1⟩⟩
  · simp only [hcc, if_false]
    rw [h3 j]
    have hnall : ¬ ∀ idx, idx < centers.length → draws (pos + idx) = false :=
      fun h => hcc (h4.2 h)
    have hz : (List.replicate n 0).getD j 0 = 0 := by
      rw [getD_replicate_eq]; split <;> rfl
    rw [hz]
    by_cases hE : j < n ∧ ∃ idx, idx < centers.length ∧
            (centers.getD idx 0 = j ∧ draws (pos + idx) = true)
    · rw [if_pos hE, if_pos ⟨hE.1, Or.inl hE.2⟩]
    · rw [if_neg hE, if_neg]
      rintro ⟨a1, a2 | a3⟩
      · exact hE ⟨a1, a2⟩
      · exact hnall a3.1

theorem step1_bit (draws : Nat → Bool) (n : Nat) (centers : List Nat) (pos j : Nat) :
    (step1 draws n centers pos).getD j 0 = 0 ∨ (step1 draws n centers pos).getD j 0 = 1 := by
  rw [step1_getD]
  split
  · exact Or.inr rfl
  · exact Or.inl rfl

/-- Every vertex marked by step 1 belongs to the active-center list (when it is not empty). -/
theorem step1_mem (draws : Nat → Bool) (n : Nat) (centers : List Nat) (pos j : Nat)
    (hne : centers ≠ []) (h : (step1 draws n centers pos).getD j 0 ≠ 0) :
    j < n ∧ j ∈ centers := by
  rw [step1_getD] at h
  by_cases hc : j < n ∧ ((∃ idx, idx < centers.length ∧
            (centers.getD idx 0 = j ∧ draws (pos + idx) = true)) ∨
          ((∀ idx, idx < centers.length → draws (pos + idx) = false) ∧ centers.getD 0 0 = j))
  · refine ⟨hc.1, ?_⟩
    rcases hc.2 with ⟨idx, hi, hj, _⟩ | ⟨_, hj⟩
    · rw [← hj, List.getD_eq_getElem _ _ hi]
      exact List.getElem_mem _
    · have hpos : 0 < centers.length := List.length_pos.mpr hne
      rw [← hj, List.getD_eq_getElem _ _ hpos]
      exact List.getElem_mem _
  · rw [if_neg hc] at h
    exact absurd rfl h

/-- Step 1 marks at least one vertex of a non-empty active-center list of vertices `< n`. -/
theorem step1_exists (draws : Nat → Bool) (n : Nat) (centers : List Nat) (pos : Nat)
    (hne : centers ≠ []) (hlt : ∀ c ∈ centers, c < n) :
    ∃ c, c ∈ centers ∧ (step1 draws n centers pos).getD c 0 = 1 := by
  have hpos : 0 < centers.length := List.length_pos.mpr hne
  by_cases hall : ∀ idx, idx < centers.length → draws (pos + idx) = false
  · refine ⟨centers.getD 0 0, ?_, ?_⟩
    · rw [List.getD_eq_getElem _ _ hpos]; exact List.getElem_mem _
    · rw [step1_getD, if_pos]
      refine ⟨hlt _ ?_, Or.inr ⟨hall, rfl⟩⟩
      rw [List.getD_eq_getElem _ _ hpos]; exact List.getElem_mem _
  · simp only [not_forall] at hall
    obtain ⟨idx, hi, hd⟩ := hall
    have hd2 : draws (pos + idx) = true := by simpa using hd
    have hm : centers.getD idx 0 ∈ centers := by
      rw [List.getD_eq_getElem _ _ hi]; exact List.getElem_mem _
    refine ⟨centers.getD idx 0, hm, ?_⟩
    rw [step1_getD, if_pos]
    exact ⟨hlt _ hm, Or.inl ⟨idx, hi, rfl, hd2⟩⟩

theorem mem_refresh (n : Nat) (is_center : List Nat) (j : Nat) :
    j ∈ refresh n is_center ↔ j < n ∧ is_center.getD j 0 ≠ 0 := by
  unfold refresh
  simp [List.mem_filter]

/-! ## Reading and writing records -/

theorem inB_lt_length {adj : Adj} {j k : Nat} (h : InB adj j k) : j < adj.length := by
  unfold InB at h
  by_contra hj
  rw [getD_of_le _ _ _ (Nat.le_of_not_lt hj)] at h
  simp at h

theorem getE_of_not_inB {adj : Adj} {j k : Nat} (h : ¬ InB adj j k) : getE adj j k = default := by
  unfold InB at h
  unfold getE
  exact getD_of_le _ _ _ (Nat.le_of_not_lt h)

theorem getD_setS (adj : Adj) (j k s j1 : Nat) :
    ((setS adj j k s).getD j1 []).length = (adj.getD j1 []).length := by
  unfold setS
  rw [getD_set_eq]
  split
  · rename_i h
    rw [List.length_set, h.1]
  · rfl

theorem length_setS (adj : Adj) (j k s : Nat) : (setS adj j k s).length = adj.length := by
  unfold setS
  rw [List.length_set]

theorem inB_setS (adj : Adj) (j k s j1 k1 : Nat) : InB (setS adj j k s) j1 k1 ↔ InB adj j1 k1 := by
  unfold InB
  rw [getD_setS]

theorem getE_setS (adj : Adj) (j k s j1 k1 : Nat) :
    getE (setS adj j k s) j1 k1 =
      if j1 = j ∧ k1 = k ∧ InB adj j k then { getE adj j k with s := s } else getE adj j1 k1 := by
  by_cases hb : InB adj j k
  · have hj := inB_lt_length hb
    unfold InB at hb
    unfold getE setS
    rw [getD_set_eq]
    by_cases h1 : j = j1
    · subst h1
      rw [if_pos ⟨rfl, hj⟩, getD_set_eq]
      by_cases h2 : k = k1
      · subst h2
        rw [if_pos ⟨rfl, hb⟩, if_pos ⟨rfl, rfl, hb⟩]
        rfl
      · rw [if_neg (fun h => h2 h.1), if_neg (fun h => h2 h.2.1.symm)]
    · rw [if_neg (fun h => h1 h.1), if_neg (fun h => h1 h.1.symm)]
  · rw [if_neg (fun h => hb h.2.2)]
    unfold getE setS
    rw [getD_set_eq]
    by_cases h1 : j = j1 ∧ j < adj.length
    · rw [if_pos h1, ← h1.1]
      unfold InB at hb
      rw [List.set_eq_of_length_le (Nat.le_of_not_lt hb)]
    · rw [if_neg h1]

theorem getE_setS_v (adj : Adj) (j k s j1 k1 : Nat) :
    (getE (setS adj j k s) j1 k1).v = (getE adj j1 k1).v := by
  rw [getE_setS]
  split
  · rename_i h
    rw [h.1, h.2.1]
  · rfl

theorem getE_setS_w (adj : Adj) (j k s j1 k1 : Nat) :
    (getE (setS adj j k s) j1 k1).w = (getE adj j1 k1).w := by
  rw [getE_setS]
  split
  · rename_i h
    rw [h.1, h.2.1]
  · rfl

theorem getE_setS_oi (adj : Adj) (j k s j1 k1 : Nat) :
    (getE (setS adj j k s) j1 k1).oi = (getE adj j1 k1).oi := by
  rw [getE_setS]
  split
  · rename_i h
    rw [h.1, h.2.1]
  · rfl

theorem getE_setS_s (adj : Adj) (j k s j1 k1 : Nat) :
    (getE (setS adj j k s) j1 k1).s =
      if j1 = j ∧ k1 = k ∧ InB adj j k then s else (getE adj j1 k1).s := by
  rw [getE_setS]
  split <;> rfl

/-! ## Stores with the same skeleton -/

theorem sameSkel_refl (a : Adj) : SameSkel a a :=
  ⟨rfl, fun _ => rfl, fun _ _ => ⟨rfl, rfl, rfl⟩⟩

theorem sameSkel_trans {a b c : Adj} (h1 : SameSkel a b) (h2 : SameSkel b c) : SameSkel a c :=
  ⟨h1.1.trans h2.1, fun j => (h1.2.1 j).trans (h2.2.1 j),
    fun j k => ⟨(h1.2.2 j k).1.trans (h2.2.2 j k).1, (h1.2.2 j k).2.1.trans (h2.2.2 j k).2.1,
      (h1.2.2 j k).2.2.trans (h2.2.2 j k).2.2⟩⟩

theorem sameSkel_symm {a b : Adj} (h : SameSkel a b) : SameSkel b a :=
  ⟨h.1.symm, fun j => (h.2.1 j).symm,
    fun j k => ⟨(h.2.2 j k).1.symm, (h.2.2 j k).2.1.symm, (h.2.2 j k).2.2.symm⟩⟩

theorem sameSkel_setS (adj : Adj) (j k s : Nat) : SameSkel (setS adj j k s) adj :=
  ⟨length_setS adj j k s, fun j1 => getD_setS adj j k s j1,
    fun j1 k1 => ⟨getE_setS_v adj j k s j1 k1, getE_setS_w adj j k s j1 k1,
      getE_setS_oi adj j k s j1 k1⟩⟩

theorem sameSkel_inB {a b : Adj} (h : SameSkel a b) (j k : Nat) : InB a j k ↔ InB b j k := by
  unfold InB
  rw [h.2.1 j]

theorem sameSkel_mir {a b : Adj} (h : SameSkel a b) (p : Nat × Nat) : mir a p = mir b p := by
  unfold mir
  rw [(h.2.2 p.1 p.2).1, (h.2.2 p.1 p.2).2.2]

/-! ## Mirror records -/

theorem mirror_inB {adj : Adj} (hM : Mirror adj) {p : Nat × Nat} (hp : InB adj p.1 p.2) :
    InB adj (mir adj p).1 (mir adj p).2 :=
  (hM p.1 p.2 hp).2.1

theorem mirror_mir_mir {adj : Adj} (hM : Mirror adj) {p : Nat × Nat} (hp : InB adj p.1 p.2) :
    mir adj (mir adj p) = p := by
  have h := (hM p.1 p.2 hp).2.2
  unfold mir
  simp only
  rw [h]

theorem mirror_mir_ne {adj : Adj} (hM : Mirror adj) {p : Nat × Nat} (hp : InB adj p.1 p.2) :
    mir adj p ≠ p := by
  intro h
  have h1 := (hM p.1 p.2 hp).1
  apply h1
  have h2 := congrArg Prod.fst h
  exact h2

theorem mirror_mir_s {adj : Adj} (hM : Mirror adj) {p : Nat × Nat} (hp : InB adj p.1 p.2) :
    (getE adj (mir adj p).1 (mir adj p).2).s = (getE adj p.1 p.2).s := by
  have h := (hM p.1 p.2 hp).2.2
  unfold mir
  simp only
  rw [h]

theorem mirror_eq_mir_iff {adj : Adj} (hM : Mirror adj) {p q : Nat × Nat}
    (hp : InB adj p.1 p.2) (hq : InB adj q.1 q.2) : q = mir adj p ↔ mir adj q = p := by
  constructor
  · intro h
    rw [h, mirror_mir_mir hM hp]
  · intro h
    rw [← h, mirror_mir_mir hM hq]

/-- A store with the skeleton of a mirror-consistent store and statuses equal on mirror
records is mirror-consistent. -/
theorem mirror_of_sameSkel {a b : Adj} (hM : Mirror a) (hS : SameSkel b a)
    (hs : ∀ p : Nat × Nat, InB a p.1 p.2 →
      (getE b (mir a p).1 (mir a p).2).s = (getE b p.1 p.2).s) : Mirror b := by
  intro u i hb
  have ha : InB a u i := (sameSkel_inB hS u i).mp hb
  obtain ⟨h1, h2, h3⟩ := hM u i ha
  have hv := (hS.2.2 u i).1
  have hw := (hS.2.2 u i).2.1
  have ho := (hS.2.2 u i).2.2
  rw [hv, ho]
  refine ⟨h1, (sameSkel_inB hS _ _).mpr h2, ?_⟩
  have hm := hS.2.2 (getE a u i).v (getE a u i).oi
  have hs1 := hs (u, i) ha
  unfold mir at hs1
  simp only at hs1
  have e1 : (getE b (getE a u i).v (getE a u i).oi).v = u := by rw [hm.1, h3]
  have e2 : (getE b (getE a u i).v (getE a u i).oi).w = (getE b u i).w := by
    rw [hm.2.1, h3, hw]
  have e3 : (getE b (getE a u i).v (getE a u i).oi).oi = i := by rw [hm.2.2, h3]
  cases hx : getE b (getE a u i).v (getE a u i).oi with
  | mk v1 w1 s1 oi1 =>
    rw [hx] at e1 e2 e3 hs1
    simp only at e1 e2 e3 hs1
    rw [e1, e2, e3, hs1]

/-! ## The writes of the `to_add` and `to_rem` loops -/

theorem addWrite_sameSkel (adj : Adj) (p : Nat × Nat) : SameSkel (addWrite adj p) adj := by
  unfold addWrite
  exact sameSkel_trans (sameSkel_setS _ _ _ _) (sameSkel_setS _ _ _ _)

theorem remWrite_sameSkel (adj : Adj) (p : Nat × Nat) : SameSkel (remWrite adj p) adj := by
  unfold remWrite
  dsimp only
  split
  · exact sameSkel_refl adj
  · exact sameSkel_trans (sameSkel_setS _ _ _ _) (sameSkel_setS _ _ _ _)

theorem addWrite_s {adj : Adj} (hM : Mirror adj) {p : Nat × Nat} (hp : InB adj p.1 p.2)
    (q : Nat × Nat) :
    (getE (addWrite adj p) q.1 q.2).s =
      if q = p ∨ q = mir adj p then 2 else (getE adj q.1 q.2).s := by
  have hm := mirror_inB hM hp
  unfold addWrite
  dsimp only
  rw [getE_setS_s, getE_setS_s]
  have hm2 : InB (setS adj p.1 p.2 2) (getE adj p.1 p.2).v (getE adj p.1 p.2).oi :=
    (inB_setS _ _ _ _ _ _).mpr hm
  by_cases h1 : q = mir adj p
  · have h1a : q.1 = (getE adj p.1 p.2).v := congrArg Prod.fst h1
    have h1b : q.2 = (getE adj p.1 p.2).oi := congrArg Prod.snd h1
    rw [if_pos ⟨h1a, h1b, hm2⟩, if_pos (Or.inr h1)]
  · have h1c : ¬ (q.1 = (getE adj p.1 p.2).v ∧ q.2 = (getE adj p.1 p.2).oi ∧
        InB (setS adj p.1 p.2 2) (getE adj p.1 p.2).v (getE adj p.1 p.2).oi) := by
      rintro ⟨a, b, _⟩
      exact h1 (Prod.ext a b)
    rw [if_neg h1c]
    by_cases h2 : q = p
    · rw [if_pos ⟨congrArg Prod.fst h2, congrArg Prod.snd h2, hp⟩, if_pos (Or.inl h2)]
    · rw [if_neg, if_neg]
      · rintro (a | a)
        · exact h2 a
        · exact h1 a
      · rintro ⟨a, b, _⟩
        exact h2 (Prod.ext a b)

theorem remWrite_s {adj : Adj} (hM : Mirror adj) {p : Nat × Nat} (hp : InB adj p.1 p.2)
    (q : Nat × Nat) :
    (getE (remWrite adj p) q.1 q.2).s =
      if (getE adj p.1 p.2).s ≠ 2 ∧ (q = p ∨ q = mir adj p) then 0
      else (getE adj q.1 q.2).s := by
  have hm := mirror_inB hM hp
  unfold remWrite
  dsimp only
  by_cases hs : (getE adj p.1 p.2).s = 2
  · rw [if_pos hs, if_neg (fun h => h.1 hs)]
  · rw [if_neg hs, getE_setS_s, getE_setS_s]
    have hm2 : InB (setS adj p.1 p.2 0) (getE adj p.1 p.2).v (getE adj p.1 p.2).oi :=
      (inB_setS _ _ _ _ _ _).mpr hm
    by_cases h1 : q = mir adj p
    · have h1a : q.1 = (getE adj p.1 p.2).v := congrArg Prod.fst h1
      have h1b : q.2 = (getE adj p.1 p.2).oi := congrArg Prod.snd h1
      rw [if_pos ⟨h1a, h1b, hm2⟩, if_pos ⟨hs, Or.inr h1⟩]
    · have h1c : ¬ (q.1 = (getE adj p.1 p.2).v ∧ q.2 = (getE adj p.1 p.2).oi ∧
          InB (setS adj p.1 p.2 0) (getE adj p.1 p.2).v (getE adj p.1 p.2).oi) := by
        rintro ⟨a, b, _⟩
        exact h1 (Prod.ext a b)
      rw [if_neg h1c]
      by_cases h2 : q = p
      · rw [if_pos ⟨congrArg Prod.fst h2, congrArg Prod.snd h2, hp⟩, if_pos ⟨hs, Or.inl h2⟩]
      · rw [if_neg, if_neg]
        · rintro ⟨_, a | a⟩
          · exact h2 a
          · exact h1 a
        · rintro ⟨a, b, _⟩
          exact h2 (Prod.ext a b)

theorem mir_cond_iff {adj : Adj} (hM : Mirror adj) {p q : Nat × Nat}
    (hp : InB adj p.1 p.2) (hq : InB adj q.1 q.2) :
    (mir adj q = p ∨ mir adj q = mir adj p) ↔ (q = p ∨ q = mir adj p) := by
  have e1 : (mir adj q = p) ↔ (q = mir adj p) := (mirror_eq_mir_iff hM hp hq).symm
  have e2 : (mir adj q = mir adj p) ↔ (q = p) := by
    constructor
    · intro h
      have := congrArg (mir adj) h
      rwa [mirror_mir_mir hM hq, mirror_mir_mir hM hp] at this
    · intro h
      rw [h]
  rw [e1, e2]
  exact or_comm

theorem addWrite_mirror {adj : Adj} (hM : Mirror adj) {p : Nat × Nat} (hp : InB adj p.1 p.2) :
    Mirror (addWrite adj p) := by
  apply mirror_of_sameSkel hM (addWrite_sameSkel adj p)
  intro q hq
  have hL := addWrite_s hM hp (mir adj q)
  have hR := addWrite_s hM hp q
  have hc := mir_cond_iff hM hp hq
  rw [hL, hR]
  by_cases c : q = p ∨ q = mir adj p
  · rw [if_pos c, if_pos (hc.mpr c)]
  · rw [if_neg c, if_neg (fun h => c (hc.mp h)), mirror_mir_s hM hq]

theorem remWrite_mirror {adj : Adj} (hM : Mirror adj) {p : Nat × Nat} (hp : InB adj p.1 p.2) :
    Mirror (remWrite adj p) := by
  apply mirror_of_sameSkel hM (remWrite_sameSkel adj p)
  intro q hq
  have hL := remWrite_s hM hp (mir adj q)
  have hR := remWrite_s hM hp q
  have hc := mir_cond_iff hM hp hq
  rw [hL, hR]
  by_cases c : (getE adj p.1 p.2).s ≠ 2 ∧ (q = p ∨ q = mir adj p)
  · rw [if_pos c, if_pos ⟨c.1, hc.mpr c.2⟩]
  · rw [if_neg c, if_neg (fun h => c ⟨h.1, hc.mp h.2⟩), mirror_mir_s hM hq]

/-! ## The loops applying `to_add` and `to_rem` -/

theorem addFold_spec (A : List (Nat × Nat)) (adj : Adj) (hM : Mirror adj)
    (hA : ∀ p ∈ A, InB adj p.1 p.2) :
    SameSkel (A.foldl addWrite adj) adj ∧ Mirror (A.foldl addWrite adj) ∧
    ∀ q : Nat × Nat, InB adj q.1 q.2 →
      (getE (A.foldl addWrite adj) q.1 q.2).s =
        if q ∈ A ∨ mir adj q ∈ A then 2 else (getE adj q.1 q.2).s := by
  induction A generalizing adj with
  | nil =>
    refine ⟨sameSkel_refl adj, hM, ?_⟩
    intro q _
    simp
  | cons p A ih =>
    have hp : InB adj p.1 p.2 := hA p (by simp)
    have hS1 := addWrite_sameSkel adj p
    have hM1 := addWrite_mirror hM hp
    have hA1 : ∀ x ∈ A, InB (addWrite adj p) x.1 x.2 := fun x hx =>
      (sameSkel_inB hS1 _ _).mpr (hA x (by simp [hx]))
    obtain ⟨i1, i2, i3⟩ := ih (addWrite adj p) hM1 hA1
    simp only [List.foldl_cons]
    refine ⟨sameSkel_trans i1 hS1, i2, ?_⟩
    intro q hq
    rw [i3 q ((sameSkel_inB hS1 _ _).mpr hq), sameSkel_mir hS1, addWrite_s hM hp]
    have e1 : (mir adj q = p) ↔ (q = mir adj p) := (mirror_eq_mir_iff hM hp hq).symm
    by_cases c1 : q ∈ A ∨ mir adj q ∈ A
    · rw [if_pos c1, if_pos]
      rcases c1 with a | a
      · exact Or.inl (List.mem_cons_of_mem _ a)
      · exact Or.inr (List.mem_cons_of_mem _ a)
    · rw [if_neg c1]
      by_cases c2 : q = p ∨ q = mir adj p
      · rw [if_pos c2, if_pos]
        rcases c2 with a | a
        · exact Or.inl (by rw [a]; exact List.mem_cons_self _ _)
        · exact Or.inr (by rw [e1.mpr a]; exact List.mem_cons_self _ _)
      · rw [if_neg c2, if_neg]
        rintro (a | a)
        · rcases List.mem_cons.mp a with b | b
          · exact c2 (Or.inl b)
          · exact c1 (Or.inl b)
        · rcases List.mem_cons.mp a with b | b
          · exact c2 (Or.inr (e1.mp b))
          · exact c1 (Or.inr b)

theorem remFold_spec (R : List (Nat × Nat)) (adj : Adj) (hM : Mirror adj)
    (hR : ∀ p ∈ R, InB adj p.1 p.2) :
    SameSkel (R.foldl remWrite adj) adj ∧ Mirror (R.foldl remWrite adj) ∧
    ∀ q : Nat × Nat, InB adj q.1 q.2 →
      (getE (R.foldl remWrite adj) q.1 q.2).s =
        if (getE adj q.1 q.2).s = 2 then 2
        else if q ∈ R ∨ mir adj q ∈ R then 0 else (getE adj q.1 q.2).s := by
  induction R generalizing adj with
  | nil =>
    refine ⟨sameSkel_refl adj, hM, ?_⟩
    intro q _
    simp only [List.foldl_nil, List.not_mem_nil, or_self, if_false]
    split
    · assumption
    · rfl
  | cons p R ih =>
    have hp : InB adj p.1 p.2 := hR p (by simp)
    have hS1 := remWrite_sameSkel adj p
    have hM1 := remWrite_mirror hM hp
    have hR1 : ∀ x ∈ R, InB (remWrite adj p) x.1 x.2 := fun x hx =>
      (sameSkel_inB hS1 _ _).mpr (hR x (by simp [hx]))
    obtain ⟨i1, i2, i3⟩ := ih (remWrite adj p) hM1 hR1
    simp only [List.foldl_cons]
    refine ⟨sameSkel_trans i1 hS1, i2, ?_⟩
    intro q hq
    have hstep := remWrite_s hM hp q
    rw [i3 q ((sameSkel_inB hS1 _ _).mpr hq), sameSkel_mir hS1]
    have e1 : (mir adj q = p) ↔ (q = mir adj p) := (mirror_eq_mir_iff hM hp hq).symm
    have hsq : (q = p ∨ q = mir adj p) → (getE adj q.1 q.2).s = (getE adj p.1 p.2).s := by
      rintro (a | a)
      · rw [a]
      · rw [a, mirror_mir_s hM hp]
    by_cases c2 : q = p ∨ q = mir adj p
    · have hmem : q ∈ p :: R ∨ mir adj q ∈ p :: R := by
        rcases c2 with a | a
        · exact Or.inl (by rw [a]; exact List.mem_cons_self _ _)
        · exact Or.inr (by rw [e1.mpr a]; exact List.mem_cons_self _ _)
      by_cases c0 : (getE adj p.1 p.2).s = 2
      · rw [if_neg (fun h => h.1 c0)] at hstep
        have hq2 : (getE adj q.1 q.2).s = 2 := (hsq c2).trans c0
        rw [hstep, if_pos hq2, if_pos hq2]
      · have c0q : ¬ (getE adj q.1 q.2).s = 2 := fun h => c0 ((hsq c2).symm.trans h)
        rw [if_pos ⟨c0, c2⟩] at hstep
        rw [hstep, if_neg c0q, if_pos hmem]
        simp
    · rw [if_neg (fun h => c2 h.2)] at hstep
      rw [hstep]
      have hmem : (q ∈ p :: R ∨ mir adj q ∈ p :: R) ↔ (q ∈ R ∨ mir adj q ∈ R) := by
        constructor
        · rintro (a | a)
          · rcases List.mem_cons.mp a with b | b
            · exact absurd (Or.inl b) c2
            · exact Or.inl b
          · rcases List.mem_cons.mp a with b | b
            · exact absurd (Or.inr (e1.mp b)) c2
            · exact Or.inr b
        · rintro (a | a)
          · exact Or.inl (List.mem_cons_of_mem _ a)
          · exact Or.inr (List.mem_cons_of_mem _ a)
      simp only [hmem]

/-- Effect of lines 216-228 (and 306-318) on a mirror-consistent store: a record is in the
spanner afterwards iff it was before or it or its mirror is in `to_add`; otherwise it is
removed iff it or its mirror is in `to_rem`. -/
theorem applyLists_spec (adj : Adj) (A R : List (Nat × Nat)) (hM : Mirror adj)
    (hA : ∀ p ∈ A, InB adj p.1 p.2) (hR : ∀ p ∈ R, InB adj p.1 p.2) :
    SameSkel (applyLists adj A R) adj ∧ Mirror (applyLists adj A R) ∧
    ∀ q : Nat × Nat, InB adj q.1 q.2 →
      (getE (applyLists adj A R) q.1 q.2).s =
        if (getE adj q.1 q.2).s = 2 ∨ q ∈ A ∨ mir adj q ∈ A then 2
        else if q ∈ R ∨ mir adj q ∈ R then 0 else (getE adj q.1 q.2).s := by
  obtain ⟨a1, a2, a3⟩ := addFold_spec A adj hM hA
  have hR1 : ∀ p ∈ R, InB (A.foldl addWrite adj) p.1 p.2 := fun p hp =>
    (sameSkel_inB a1 _ _).mpr (hR p hp)
  obtain ⟨r1, r2, r3⟩ := remFold_spec R (A.foldl addWrite adj) a2 hR1
  unfold applyLists
  refine ⟨sameSkel_trans r1 a1, r2, ?_⟩
  intro q hq
  rw [r3 q ((sameSkel_inB a1 _ _).mpr hq), sameSkel_mir a1]
  have h3 := a3 q hq
  by_cases c1 : q ∈ A ∨ mir adj q ∈ A
  · rw [if_pos c1] at h3
    rw [h3, if_pos (Or.inr c1)]
    simp
  · rw [if_neg c1] at h3
    rw [h3]
    by_cases c2 : (getE adj q.1 q.2).s = 2
    · rw [if_pos c2, if_pos (Or.inl c2)]
    · have c3 : ¬ ((getE adj q.1 q.2).s = 2 ∨ q ∈ A ∨ mir adj q ∈ A) := by
        rintro (a | a)
        · exact c2 a
        · exact c1 a
      rw [if_neg c2, if_neg c3]

/-! ## Graph construction -/

theorem getD_append_single {α : Type} (l : List α) (e d : α) (k : Nat) :
    (l ++ [e]).getD k d = if k < l.length then l.getD k d else if k = l.length then e else d := by
  by_cases h : k < l.length
  · rw [if_pos h, List.getD_append _ _ _ _ h]
  · rw [if_neg h, List.getD_append_right _ _ _ _ (Nat.le_of_not_lt h)]
    by_cases h2 : k = l.length
    · rw [if_pos h2, h2]; simp
    · rw [if_neg h2]
      apply getD_of_le
      simp only [List.length_singleton]
      omega

theorem length_addEdge (adj : Adj) (e : InEdge) : (addEdge adj e).length = adj.length := by
  unfold addEdge
  simp only [List.length_set]

theorem getD_addEdge (adj : Adj) (e : InEdge) (hu : e.1 < adj.length) (hv : e.2.1 < adj.length)
    (huv : e.1 ≠ e.2.1) (j : Nat) :
    (addEdge adj e).getD j [] =
      if j = e.1 then
        adj.getD e.1 [] ++ [{ v := e.2.1, w := e.2.2, s := 1, oi := (adj.getD e.2.1 []).length }]
      else if j = e.2.1 then
        adj.getD e.2.1 [] ++ [{ v := e.1, w := e.2.2, s := 1, oi := (adj.getD e.1 []).length }]
      else adj.getD j [] := by
  unfold addEdge
  dsimp only
  rw [getD_set_eq, List.length_set]
  by_cases h1 : j = e.1
  · rw [if_pos ⟨h1.symm, hu⟩, if_pos h1, getD_set_ne _ _ _ (Ne.symm huv)]
  · rw [if_neg (fun h => h1 h.1.symm), if_neg h1, getD_set_eq]
    by_cases h2 : j = e.2.1
    · rw [if_pos ⟨h2.symm, hv⟩, if_pos h2]
    · rw [if_neg (fun h => h2 h.1.symm), if_neg h2]

theorem inB_addEdge (adj : Adj) (e : InEdge) (hu : e.1 < adj.length) (hv : e.2.1 < adj.length)
    (huv : e.1 ≠ e.2.1) (j k : Nat) :
    InB (addEdge adj e) j k ↔
      InB adj j k ∨ (j = e.1 ∧ k = (adj.getD e.1 []).length) ∨
        (j = e.2.1 ∧ k = (adj.getD e.2.1 []).length) := by
  unfold InB
  rw [getD_addEdge adj e hu hv huv]
  by_cases h1 : j = e.1
  · rw [if_pos h1, List.length_append, List.length_singleton, h1]
    constructor
    · intro h
      by_cases h3 : k < (adj.getD e.1 []).length
      · exact Or.inl h3
      · exact Or.inr (Or.inl ⟨rfl, by omega⟩)
    · rintro (h | ⟨_, h⟩ | ⟨h, _⟩)
      · omega
      · omega
      · exact absurd h huv
  · rw [if_neg h1]
    by_cases h2 : j = e.2.1
    · rw [if_pos h2, List.length_append, List.length_singleton, h2]
      constructor
      · intro h
        by_cases h3 : k < (adj.getD e.2.1 []).length
        · exact Or.inl h3
        · exact Or.inr (Or.inr ⟨rfl, by omega⟩)
      · rintro (h | ⟨h, _⟩ | ⟨_, h⟩)
        · omega
        · exact absurd h.symm huv
        · omega
    · rw [if_neg h2]
      constructor
      · exact fun h => Or.inl h
      · rintro (h | ⟨h, _⟩ | ⟨h, _⟩)
        · exact h
        · exact absurd h h1
        · exact absurd h h2

theorem getE_addEdge_old (adj : Adj) (e : InEdge) (hu : e.1 < adj.length)
    (hv : e.2.1 < adj.length) (huv : e.1 ≠ e.2.1) (j k : Nat) (h : InB adj j k) :
    getE (addEdge adj e) j k = getE adj j k := by
  unfold InB at h
  unfold getE
  rw [getD_addEdge adj e hu hv huv]
  by_cases h1 : j = e.1
  · rw [if_pos h1, getD_append_single, h1]
    rw [h1] at h
    rw [if_pos h]
  · rw [if_neg h1]
    by_cases h2 : j = e.2.1
    · rw [if_pos h2, getD_append_single, h2]
      rw [h2] at h
      rw [if_pos h]
    · rw [if_neg h2]

theorem getE_addEdge_u (adj : Adj) (e : InEdge) (hu : e.1 < adj.length)
    (hv : e.2.1 < adj.length) (huv : e.1 ≠ e.2.1) :
    getE (addEdge adj e) e.1 (adj.getD e.1 []).length =
      { v := e.2.1, w := e.2.2, s := 1, oi := (adj.getD e.2.1 []).length } := by
  unfold getE
  rw [getD_addEdge adj e hu hv huv, if_pos rfl, getD_append_single, if_neg (lt_irrefl _),
    if_pos rfl]

theorem getE_addEdge_v (adj : Adj) (e : InEdge) (hu : e.1 < adj.length)
    (hv : e.2.1 < adj.length) (huv : e.1 ≠ e.2.1) :
    getE (addEdge adj e) e.2.1 (adj.getD e.2.1 []).length =
      { v := e.1, w := e.2.2, s := 1, oi := (adj.getD e.1 []).length } := by
  unfold getE
  rw [getD_addEdge adj e hu hv huv, if_neg (Ne.symm huv), if_pos rfl, getD_append_single,
    if_neg (lt_irrefl _), if_pos rfl]

theorem addEdge_mirror (adj : Adj) (e : InEdge) (hu : e.1 < adj.length)
    (hv : e.2.1 < adj.length) (huv : e.1 ≠ e.2.1) (hM : Mirror adj) :
    Mirror (addEdge adj e) := by
  intro j k hb
  have hnew_u : InB (addEdge adj e) e.1 (adj.getD e.1 []).length :=
    (inB_addEdge adj e hu hv huv _ _).mpr (Or.inr (Or.inl ⟨rfl, rfl⟩))
  have hnew_v : InB (addEdge adj e) e.2.1 (adj.getD e.2.1 []).length :=
    (inB_addEdge adj e hu hv huv _ _).mpr (Or.inr (Or.inr ⟨rfl, rfl⟩))
  rcases (inB_addEdge adj e hu hv huv j k).mp hb with h | ⟨hj, hk⟩ | ⟨hj, hk⟩
  · obtain ⟨m1, m2, m3⟩ := hM j k h
    rw [getE_addEdge_old adj e hu hv huv j k h]
    refine ⟨m1, (inB_addEdge adj e hu hv huv _ _).mpr (Or.inl m2), ?_⟩
    rw [getE_addEdge_old adj e hu hv huv _ _ m2]
    exact m3
  · subst hj hk
    rw [getE_addEdge_u adj e hu hv huv]
    dsimp only
    refine ⟨Ne.symm huv, hnew_v, ?_⟩
    rw [getE_addEdge_v adj e hu hv huv]
  · subst hj hk
    rw [getE_addEdge_v adj e hu hv huv]
    dsimp only
    refine ⟨huv, hnew_u, ?_⟩
    rw [getE_addEdge_u adj e hu hv huv]

theorem addEdge_allCand (adj : Adj) (e : InEdge) (hu : e.1 < adj.length)
    (hv : e.2.1 < adj.length) (huv : e.1 ≠ e.2.1) (hC : AllCand adj) :
    AllCand (addEdge adj e) := by
  intro j k hb
  rcases (inB_addEdge adj e hu hv huv j k).mp hb with h | ⟨hj, hk⟩ | ⟨hj, hk⟩
  · rw [getE_addEdge_old adj e hu hv huv j k h]
    exact hC j k h
  · subst hj hk
    rw [getE_addEdge_u adj e hu hv huv]
  · subst hj hk
    rw [getE_addEdge_v adj e hu hv huv]

/-- The store after the input loop, for input lines with endpoints in range and no self-loop. -/
theorem build_spec (n : Nat) (edges : List InEdge)
    (hv : ∀ e ∈ edges, e.1 < n ∧ e.2.1 < n ∧ e.1 ≠ e.2.1) :
    (build n edges).length = n ∧ Mirror (build n edges) ∧ AllCand (build n edges) := by
  unfold build
  have h0 : (List.replicate n ([] : List edge)).length = n ∧
      Mirror (List.replicate n ([] : List edge)) ∧
      AllCand (List.replicate n ([] : List edge)) := by
    refine ⟨List.length_replicate _ _, ?_, ?_⟩
    · intro u i h
      unfold InB at h
      rw [getD_replicate_eq] at h
      split at h <;> simp at h
    · intro u i h
      unfold InB at h
      rw [getD_replicate_eq] at h
      split at h <;> simp at h
  revert h0
  generalize List.replicate n ([] : List edge) = a0
  intro h0
  apply foldl_inv (fun a => a.length = n ∧ Mirror a ∧ AllCand a) addEdge edges a0 h0
  intro a e he ⟨h1, h2, h3⟩
  obtain ⟨e1, e2, e3⟩ := hv e he
  rw [← h1] at e1 e2
  exact ⟨by rw [length_addEdge, h1], addEdge_mirror a e e1 e2 e3 h2,
    addEdge_allCand a e e1 e2 e3 h3⟩

/-! ## Generic facts on accumulating loops -/

theorem foldl_proj {S T γ : Type} (π : S → T) (f : S → γ → S) (f1 : T → γ → T)
    (h : ∀ acc x, π (f acc x) = f1 (π acc) x) (l : List γ) (init : S) :
    π (l.foldl f init) = l.foldl f1 (π init) := by
  induction l generalizing init with
  | nil => rfl
  | cons x xs ih =>
    simp only [List.foldl_cons]
    rw [ih, h]

theorem mem_foldl_app {α : Type} (f : List α → Nat → List α) (h : Nat → List α)
    (hf : ∀ acc k, f acc k = acc ++ h k) (m : Nat) (init : List α) (x : α) :
    x ∈ (List.range m).foldl f init ↔ x ∈ init ∨ ∃ k, k < m ∧ x ∈ h k := by
  induction m with
  | zero => simp
  | succ m ih =>
    rw [List.range_succ, List.foldl_append]
    simp only [List.foldl_cons, List.foldl_nil]
    rw [hf, List.mem_append, ih]
    constructor
    · rintro ((a | ⟨k, hk, a⟩) | a)
      · exact Or.inl a
      · exact Or.inr ⟨k, by omega, a⟩
      · exact Or.inr ⟨m, by omega, a⟩
    · rintro (a | ⟨k, hk, a⟩)
      · exact Or.inl (Or.inl a)
      · by_cases hkm : k = m
        · subst hkm
          exact Or.inr a
        · exact Or.inl (Or.inr ⟨k, by omega, a⟩)

/-! ## Step 2: the nearest surviving cluster -/

theorem nearestLoop_spec (adj : Adj) (cluster is_center : List Nat) (j : Nat) :
    ((nearestLoop adj cluster is_center j).2 = none →
      ∀ k, InB adj j k → Eligible adj cluster is_center j k → INF ≤ (getE adj j k).w) ∧
    (∀ x, (nearestLoop adj cluster is_center j).2 = some x →
      InB adj j x ∧ Eligible adj cluster is_center j x ∧ (getE adj j x).w < INF ∧
        ∀ k, InB adj j k → Eligible adj cluster is_center j k →
          (getE adj j x).w ≤ (getE adj j k).w) := by
  unfold nearestLoop
  have key := foldl_range_inv
    (fun m (acc : Int × Option Nat) =>
      acc.1 ≤ INF ∧
      (acc.2 = none → acc.1 = INF ∧
        ∀ k, k < m → Eligible adj cluster is_center j k → INF ≤ (getE adj j k).w) ∧
      (∀ x, acc.2 = some x →
        x < m ∧ Eligible adj cluster is_center j x ∧ (getE adj j x).w = acc.1 ∧
          (getE adj j x).w < INF ∧
          ∀ k, k < m → Eligible adj cluster is_center j k →
            (getE adj j x).w ≤ (getE adj j k).w))
    (fun (acc : Int × Option Nat) k =>
      let e := getE adj j k
      if e.s = 0 then acc
      else if is_center.getD (cluster.getD e.v 0) 0 = 0 then acc
      else if e.w < acc.1 then (e.w, some k) else acc)
    (adj.getD j []).length (INF, none)
    (by
      refine ⟨le_refl _, fun _ => ⟨rfl, fun k hk => absurd hk (Nat.not_lt_zero k)⟩, ?_⟩
      intro x hx
      exact absurd hx (by simp))
    (by
      intro m acc hm ⟨h0, h1, h2⟩
      dsimp only
      have hEl : ∀ k, k < m + 1 → Eligible adj cluster is_center j k →
          k < m ∨ (k = m ∧ Eligible adj cluster is_center j m) := by
        intro k hk he
        by_cases hkm : k = m
        · subst hkm; exact Or.inr ⟨rfl, he⟩
        · exact Or.inl (by omega)
      by_cases c1 : (getE adj j m).s = 0
      · rw [if_pos c1]
        refine ⟨h0, ?_, ?_⟩
        · intro hn
          refine ⟨(h1 hn).1, fun k hk he => ?_⟩
          rcases hEl k hk he with a | ⟨_, b⟩
          · exact (h1 hn).2 k a he
          · exact absurd c1 b.1
        · intro x hx
          obtain ⟨a1, a2, a3, a4, a5⟩ := h2 x hx
          refine ⟨by omega, a2, a3, a4, fun k hk he => ?_⟩
          rcases hEl k hk he with a | ⟨_, b⟩
          · exact a5 k a he
          · exact absurd c1 b.1
      · rw [if_neg c1]
        by_cases c2 : is_center.getD (cluster.getD (getE adj j m).v 0) 0 = 0
        · rw [if_pos c2]
          refine ⟨h0, ?_, ?_⟩
          · intro hn
            refine ⟨(h1 hn).1, fun k hk he => ?_⟩
            rcases hEl k hk he with a | ⟨_, b⟩
            · exact (h1 hn).2 k a he
            · exact absurd c2 b.2
          · intro x hx
            obtain ⟨a1, a2, a3, a4, a5⟩ := h2 x hx
            refine ⟨by omega, a2, a3, a4, fun k hk he => ?_⟩
            rcases hEl k hk he with a | ⟨_, b⟩
            · exact a5 k a he
            · exact absurd c2 b.2
        · rw [if_neg c2]
          by_cases c3 : (getE adj j m).w < acc.1
          · rw [if_pos c3]
            refine ⟨le_of_lt (lt_of_lt_of_le c3 h0), fun hn => absurd hn (by simp), ?_⟩
            intro x hx
            have hxm : m = x := by simpa using hx
            subst hxm
            refine ⟨by omega, ⟨c1, c2⟩, rfl, lt_of_lt_of_le c3 h0, fun k hk he => ?_⟩
            rcases hEl k hk he with a | ⟨b, _⟩
            · cases hacc : acc.2 with
              | none =>
                have := (h1 hacc).2 k a he
                have := (h1 hacc).1
                omega
              | some y =>
                obtain ⟨_, _, a3, _, a5⟩ := h2 y hacc
                have := a5 k a he
                omega
            · rw [b]
          · rw [if_neg c3]
            refine ⟨h0, ?_, ?_⟩
            · intro hn
              refine ⟨(h1 hn).1, fun k hk he => ?_⟩
              rcases hEl k hk he with a | ⟨b, _⟩
              · exact (h1 hn).2 k a he
              · rw [b]
                have := (h1 hn).1
                omega
            · intro x hx
              obtain ⟨a1, a2, a3, a4, a5⟩ := h2 x hx
              refine ⟨by omega, a2, a3, a4, fun k hk he => ?_⟩
              rcases hEl k hk he with a | ⟨b, _⟩
              · exact a5 k a he
              · rw [b]
                omega)
  obtain ⟨_, k1, k2⟩ := key
  refine ⟨fun hn k hk he => (k1 hn).2 k hk he, fun x hx => ?_⟩
  obtain ⟨a1, a2, _, a4, a5⟩ := k2 x hx
  exact ⟨a1, a2, a4, fun k hk he => a5 k hk he⟩

theorem step2_getD (n : Nat) (adj : Adj) (cluster ivd is_center : List Nat) (j : Nat) :
    (step2 n adj cluster ivd is_center).getD j none =
      if j < n ∧ ivd.getD j 0 ≠ 0 ∧ is_center.getD (cluster.getD j 0) 0 = 0
      then (nearestLoop adj cluster is_center j).2 else none := by
  unfold step2
  have key := foldl_range_inv
    (fun m (acc : List (Option Nat)) =>
      acc.length = n ∧ ∀ j, acc.getD j none =
        if j < m ∧ ivd.getD j 0 ≠ 0 ∧ is_center.getD (cluster.getD j 0) 0 = 0
        then (nearestLoop adj cluster is_center j).2 else none)
    (fun (min_idx : List (Option Nat)) j =>
      if ivd.getD j 0 = 0 then min_idx
      else if is_center.getD (cluster.getD j 0) 0 ≠ 0 then min_idx
      else min_idx.set j (nearestLoop adj cluster is_center j).2)
    n (List.replicate n none)
    (by
      refine ⟨List.length_replicate _ _, fun j => ?_⟩
      have hz : (List.replicate n (none : Option Nat)).getD j none = none := by
        rw [getD_replicate_eq]
        split <;> rfl
      rw [hz, if_neg (fun h => Nat.not_lt_zero j h.1)])
    (by
      intro m acc hm ⟨h1, h2⟩
      dsimp only
      by_cases c1 : ivd.getD m 0 = 0
      · rw [if_pos c1]
        refine ⟨h1, fun j => ?_⟩
        rw [h2 j]
        by_cases hjm : j = m
        · subst hjm
          rw [if_neg (fun h => Nat.lt_irrefl _ h.1), if_neg (fun h => h.2.1 c1)]
        · have : j < m + 1 ↔ j < m := by omega
          simp only [this]
      · rw [if_neg c1]
        by_cases c2 : is_center.getD (cluster.getD m 0) 0 ≠ 0
        · rw [if_pos c2]
          refine ⟨h1, fun j => ?_⟩
          rw [h2 j]
          by_cases hjm : j = m
          · subst hjm
            rw [if_neg (fun h => Nat.lt_irrefl _ h.1), if_neg (fun h => c2 h.2.2)]
          · have : j < m + 1 ↔ j < m := by omega
            simp only [this]
        · rw [if_neg c2]
          refine ⟨by rw [List.length_set]; exact h1, fun j => ?_⟩
          rw [getD_set_eq, h2 j, h1]
          by_cases hjm : m = j
          · subst hjm
            rw [if_pos ⟨rfl, hm⟩, if_pos ⟨Nat.lt_succ_self _, c1, not_not.mp c2⟩]
          · rw [if_neg (fun h => hjm h.1)]
            have : j < m + 1 ↔ j < m := by omega
            simp only [this])
  exact key.2 j

/-! ## The vector `center_idx` -/

theorem centerIdx_fold (l : List Nat) (init : List (Option Nat)) (c0 : Nat) :
    (l.foldl (fun (acc : List (Option Nat) × Nat) j => (acc.1.set j (some acc.2), acc.2 + 1))
      (init, c0)).1.length = init.length ∧
    (l.foldl (fun (acc : List (Option Nat) × Nat) j => (acc.1.set j (some acc.2), acc.2 + 1))
      (init, c0)).2 = c0 + l.length ∧
    (∀ j ci, (l.foldl (fun (acc : List (Option Nat) × Nat) j =>
        (acc.1.set j (some acc.2), acc.2 + 1)) (init, c0)).1.getD j none = some ci →
      init.getD j none = some ci ∨
        (j < init.length ∧ c0 ≤ ci ∧ ci < c0 + l.length ∧ l.getD (ci - c0) 0 = j)) ∧
    (∀ j, j ∈ l → j < init.length → ∃ ci, (l.foldl (fun (acc : List (Option Nat) × Nat) j =>
        (acc.1.set j (some acc.2), acc.2 + 1)) (init, c0)).1.getD j none = some ci) ∧
    (∀ j, j ∉ l → (l.foldl (fun (acc : List (Option Nat) × Nat) j =>
        (acc.1.set j (some acc.2), acc.2 + 1)) (init, c0)).1.getD j none = init.getD j none) := by
  induction l generalizing init c0 with
  | nil =>
    refine ⟨rfl, rfl, fun j ci h => Or.inl h, fun j hj => absurd hj (List.not_mem_nil j),
      fun j _ => rfl⟩
  | cons x xs ih =>
    simp only [List.foldl_cons]
    obtain ⟨h1, h2, h3, h4, h5⟩ := ih (init.set x (some c0)) (c0 + 1)
    rw [List.length_set] at h1 h3 h4
    refine ⟨h1, by rw [h2, List.length_cons]; omega, ?_, ?_, ?_⟩
    · intro j ci hj
      rcases h3 j ci hj with a | ⟨a1, a2, a3, a4⟩
      · rw [getD_set_eq] at a
        by_cases c : x = j ∧ x < init.length
        · rw [if_pos c] at a
          have hci : c0 = ci := by simpa using a
          refine Or.inr ⟨c.1 ▸ c.2, by omega, by rw [List.length_cons]; omega, ?_⟩
          rw [← hci, Nat.sub_self]
          exact c.1
        · rw [if_neg c] at a
          exact Or.inl a
      · refine Or.inr ⟨a1, by omega, by rw [List.length_cons]; omega, ?_⟩
        have e : ci - c0 = (ci - (c0 + 1)) + 1 := by omega
        rw [e, List.getD_cons_succ]
        exact a4
    · intro j hj hlt
      by_cases hjx : j ∈ xs
      · exact h4 j hjx hlt
      · rw [h5 j hjx]
        have hx : j = x := by
          rcases List.mem_cons.mp hj with a | a
          · exact a
          · exact absurd a hjx
        subst hx
        exact ⟨c0, getD_set_self _ _ _ _ hlt⟩
    · intro j hj
      have hjx : j ∉ xs := fun h => hj (List.mem_cons_of_mem _ h)
      have hne : x ≠ j := fun h => hj (by rw [h]; exact List.mem_cons_self _ _)
      rw [h5 j hjx, getD_set_ne _ _ _ hne]

theorem centerIdx_snd (n : Nat) (centers : List Nat) :
    (centerIdx n centers).2 = centers.length := by
  unfold centerIdx
  rw [(centerIdx_fold centers (List.replicate n none) 0).2.1]
  omega

/-- An entry `center_idx[j] = ci` says that `j` is the center number `ci` of the list. -/
theorem centerIdx_some (n : Nat) (centers : List Nat) (j ci : Nat)
    (h : (centerIdx n centers).1.getD j none = some ci) :
    ci < (centerIdx n centers).2 ∧ centers.getD ci 0 = j ∧ j < n := by
  rw [centerIdx_snd]
  unfold centerIdx at h
  rcases (centerIdx_fold centers (List.replicate n none) 0).2.2.1 j ci h with a | ⟨a1, a2, a3, a4⟩
  · rw [getD_replicate_eq] at a
    split at a <;> simp at a
  · rw [List.length_replicate] at a1
    exact ⟨by omega, by simpa using a4, a1⟩

theorem centerIdx_mem (n : Nat) (centers : List Nat) (j : Nat) (hj : j ∈ centers) (hn : j < n) :
    ∃ ci, (centerIdx n centers).1.getD j none = some ci := by
  unfold centerIdx
  exact (centerIdx_fold centers (List.replicate n none) 0).2.2.2.1 j hj
    (by rw [List.length_replicate]; exact hn)

/-- Two vertices with the same center index are equal. -/
theorem centerIdx_inj (n : Nat) (centers : List Nat) (a b ci : Nat)
    (ha : (centerIdx n centers).1.getD a none = some ci)
    (hb : (centerIdx n centers).1.getD b none = some ci) : a = b := by
  rw [← (centerIdx_some n centers a ci ha).2.1, ← (centerIdx_some n centers b ci hb).2.1]

/-! ## The vector `min_ed` -/

theorem length_minEdUpd (adj : Adj) (j : Nat) (min_ed : List (Option Nat)) (ci k : Nat) :
    (minEdUpd adj j min_ed ci k).length = min_ed.length := by
  unfold minEdUpd
  split
  · rw [List.length_set]
  · split
    · rw [List.length_set]
    · rfl

theorem minEdUpd_getD (adj : Adj) (j : Nat) (min_ed : List (Option Nat)) (ci k c : Nat) :
    (minEdUpd adj j min_ed ci k).getD c none =
      if c = ci ∧ ci < min_ed.length then
        (match min_ed.getD ci none with
          | none => some k
          | some m => if (getE adj j k).w < (getE adj j m).w then some k else some m)
      else min_ed.getD c none := by
  unfold minEdUpd
  by_cases hc : c = ci ∧ ci < min_ed.length
  · rw [if_pos hc]
    obtain ⟨hc1, hc2⟩ := hc
    subst hc1
    cases hm : min_ed.getD c none with
    | none => simp only; rw [getD_set_self _ _ _ _ hc2]
    | some m =>
      simp only
      split
      · rw [getD_set_self _ _ _ _ hc2]
      · exact hm
  · rw [if_neg hc]
    cases hm : min_ed.getD ci none with
    | none =>
      simp only
      rw [getD_set_eq, if_neg]
      rintro ⟨a, b⟩
      exact hc ⟨a.symm, b⟩
    | some m =>
      simp only
      split
      · rw [getD_set_eq, if_neg]
        rintro ⟨a, b⟩
        exact hc ⟨a.symm, b⟩
      · rfl

theorem minEdPre_succ (adj : Adj) (cluster : List Nat) (center_idx : List (Option Nat))
    (cidx j m : Nat) :
    minEdPre adj cluster center_idx cidx j (m + 1) =
      if (getE adj j m).s ≠ 1 then minEdPre adj cluster center_idx cidx j m
      else
        match center_idx.getD (cluster.getD (getE adj j m).v 0) none with
        | none => minEdPre adj cluster center_idx cidx j m
        | some ci => minEdUpd adj j (minEdPre adj cluster center_idx cidx j m) ci m := by
  unfold minEdPre
  rw [List.range_succ, List.foldl_append]
  rfl

theorem minEdPre_spec (adj : Adj) (cluster : List Nat) (center_idx : List (Option Nat))
    (cidx j m : Nat) :
    (minEdPre adj cluster center_idx cidx j m).length = cidx ∧
    (∀ ci x, (minEdPre adj cluster center_idx cidx j m).getD ci none = some x →
      x < m ∧ ci < cidx ∧ (getE adj j x).s = 1 ∧
      center_idx.getD (cluster.getD (getE adj j x).v 0) none = some ci ∧
      ∀ k, k < m → (getE adj j k).s = 1 →
        center_idx.getD (cluster.getD (getE adj j k).v 0) none = some ci →
        (getE adj j x).w ≤ (getE adj j k).w) ∧
    (∀ ci k, k < m → ci < cidx → (getE adj j k).s = 1 →
      center_idx.getD (cluster.getD (getE adj j k).v 0) none = some ci →
      ∃ x, (minEdPre adj cluster center_idx cidx j m).getD ci none = some x) := by
  induction m with
  | zero =>
    refine ⟨by unfold minEdPre; simp, ?_, fun ci k hk => absurd hk (Nat.not_lt_zero k)⟩
    intro ci x h
    unfold minEdPre at h
    simp only [List.range_zero, List.foldl_nil] at h
    rw [getD_replicate_eq] at h
    split at h <;> simp at h
  | succ m ih =>
    obtain ⟨h1, h2, h3⟩ := ih
    rw [minEdPre_succ]
    by_cases c1 : (getE adj j m).s ≠ 1
    · rw [if_pos c1]
      refine ⟨h1, ?_, ?_⟩
      · intro ci x hx
        obtain ⟨a1, a2, a3, a4, a5⟩ := h2 ci x hx
        refine ⟨by omega, a2, a3, a4, fun k hk hs hc => ?_⟩
        by_cases hkm : k = m
        · subst hkm; exact absurd hs c1
        · exact a5 k (by omega) hs hc
      · intro ci k hk hci hs hc
        by_cases hkm : k = m
        · subst hkm; exact absurd hs c1
        · exact h3 ci k (by omega) hci hs hc
    · rw [if_neg c1]
      have c1 : (getE adj j m).s = 1 := not_not.mp c1
      cases hcm : center_idx.getD (cluster.getD (getE adj j m).v 0) none with
      | none =>
        simp only
        refine ⟨h1, ?_, ?_⟩
        · intro ci x hx
          obtain ⟨a1, a2, a3, a4, a5⟩ := h2 ci x hx
          refine ⟨by omega, a2, a3, a4, fun k hk hs hc => ?_⟩
          by_cases hkm : k = m
          · subst hkm; rw [hcm] at hc; simp at hc
          · exact a5 k (by omega) hs hc
        · intro ci k hk hci hs hc
          by_cases hkm : k = m
          · subst hkm; rw [hcm] at hc; simp at hc
          · exact h3 ci k (by omega) hci hs hc
      | some cm =>
        simp only
        refine ⟨by rw [length_minEdUpd]; exact h1, ?_, ?_⟩
        · intro ci x hx
          rw [minEdUpd_getD, h1] at hx
          by_cases hc : ci = cm ∧ cm < cidx
          · rw [if_pos hc] at hx
            obtain ⟨hc1, hc2⟩ := hc
            subst hc1
            cases hold : (minEdPre adj cluster center_idx cidx j m).getD ci none with
            | none =>
              rw [hold] at hx
              have hxm : m = x := by simpa using hx
              subst hxm
              refine ⟨by omega, hc2, c1, hcm, fun k hk hs hc => ?_⟩
              by_cases hkm : k = m
              · rw [hkm]
              · obtain ⟨y, hy⟩ := h3 ci k (by omega) hc2 hs hc
                rw [hold] at hy
                simp at hy
            | some y =>
              rw [hold] at hx
              obtain ⟨a1, a2, a3, a4, a5⟩ := h2 ci y hold
              simp only at hx
              by_cases hw : (getE adj j m).w < (getE adj j y).w
              · rw [if_pos hw] at hx
                have hxm : m = x := by simpa using hx
                subst hxm
                refine ⟨by omega, hc2, c1, hcm, fun k hk hs hc => ?_⟩
                by_cases hkm : k = m
                · rw [hkm]
                · have := a5 k (by omega) hs hc
                  omega
              · rw [if_neg hw] at hx
                have hxy : y = x := by simpa using hx
                subst hxy
                refine ⟨by omega, a2, a3, a4, fun k hk hs hc => ?_⟩
                by_cases hkm : k = m
                · rw [hkm]; omega
                · exact a5 k (by omega) hs hc
          · rw [if_neg hc] at hx
            obtain ⟨a1, a2, a3, a4, a5⟩ := h2 ci x hx
            refine ⟨by omega, a2, a3, a4, fun k hk hs hc2 => ?_⟩
            by_cases hkm : k = m
            · subst hkm
              rw [hcm] at hc2
              have : cm = ci := by simpa using hc2
              exact absurd ⟨this.symm, this ▸ a2⟩ hc
            · exact a5 k (by omega) hs hc2
        · intro ci k hk hci hs hc
          rw [minEdUpd_getD, h1]
          by_cases hcc : ci = cm ∧ cm < cidx
          · rw [if_pos hcc]
            cases hold : (minEdPre adj cluster center_idx cidx j m).getD cm none with
            | none => exact ⟨m, rfl⟩
            | some y =>
              simp only
              split
              · exact ⟨m, rfl⟩
              · exact ⟨y, rfl⟩
          · rw [if_neg hcc]
            by_cases hkm : k = m
            · subst hkm
              rw [hcm] at hc
              have : cm = ci := by simpa using hc
              exact absurd ⟨this.symm, this ▸ hci⟩ hcc
            · exact h3 ci k (by omega) hci hs hc

/-- The entry `min_ed[ci]` at the end of a scan is a cheapest Candidate edge into cluster `ci`. -/
theorem minEdOf_some (adj : Adj) (cluster : List Nat) (center_idx : List (Option Nat))
    (cidx j ci x : Nat)
    (h : (minEdOf adj cluster center_idx cidx j).getD ci none = some x) :
    ci < cidx ∧ CandInto adj cluster center_idx j x ci ∧
      ∀ k, CandInto adj cluster center_idx j k ci → (getE adj j x).w ≤ (getE adj j k).w := by
  obtain ⟨a1, a2, a3, a4, a5⟩ := (minEdPre_spec adj cluster center_idx cidx j _).2.1 ci x h
  exact ⟨a2, ⟨a1, a3, a4⟩, fun k hk => a5 k hk.1 hk.2.1 hk.2.2⟩

/-- Every cluster reached by a Candidate edge has an entry in `min_ed`. -/
theorem minEdOf_exists (adj : Adj) (cluster : List Nat) (center_idx : List (Option Nat))
    (cidx j ci k : Nat) (hci : ci < cidx) (h : CandInto adj cluster center_idx j k ci) :
    ∃ x, (minEdOf adj cluster center_idx cidx j).getD ci none = some x :=
  (minEdPre_spec adj cluster center_idx cidx j _).2.2 ci k h.1 hci h.2.1 h.2.2

/-! ## The scans of step 3 and of phase 2 -/

theorem orphanScan_snd (adj : Adj) (cluster : List Nat) (center_idx : List (Option Nat))
    (cidx j : Nat) (to_rem : List (Nat × Nat)) :
    (orphanScan adj cluster center_idx cidx j to_rem).2 =
      minEdOf adj cluster center_idx cidx j := by
  unfold orphanScan minEdOf minEdPre
  apply foldl_proj Prod.snd _
    (fun (min_ed : List (Option Nat)) k =>
      let e := getE adj j k
      if e.s ≠ 1 then min_ed
      else
        match center_idx.getD (cluster.getD e.v 0) none with
        | none => min_ed
        | some ci => minEdUpd adj j min_ed ci k)
  intro acc k
  dsimp only
  by_cases c : (getE adj j k).s ≠ 1
  · simp only [if_pos c]
  · simp only [if_neg c]
    cases hc : center_idx.getD (cluster.getD (getE adj j k).v 0) none <;> rfl

theorem orphanScan_fst (adj : Adj) (cluster : List Nat) (center_idx : List (Option Nat))
    (cidx j : Nat) (to_rem : List (Nat × Nat)) (x : Nat × Nat) :
    x ∈ (orphanScan adj cluster center_idx cidx j to_rem).1 ↔
      x ∈ to_rem ∨ (x.1 = j ∧ InB adj j x.2 ∧ (getE adj j x.2).s = 1) := by
  unfold orphanScan
  rw [foldl_proj Prod.fst _
    (fun (acc : List (Nat × Nat)) k => if (getE adj j k).s ≠ 1 then acc else acc ++ [(j, k)])]
  · rw [mem_foldl_app _ (fun k => if (getE adj j k).s ≠ 1 then [] else [(j, k)])]
    · constructor
      · rintro (a | ⟨k, hk, a⟩)
        · exact Or.inl a
        · by_cases c : (getE adj j k).s ≠ 1
          · rw [if_pos c] at a; simp at a
          · rw [if_neg c] at a
            have hx : x = (j, k) := by simpa using a
            subst hx
            exact Or.inr ⟨rfl, hk, not_not.mp c⟩
      · rintro (a | ⟨a1, a2, a3⟩)
        · exact Or.inl a
        · refine Or.inr ⟨x.2, a2, ?_⟩
          rw [if_neg (not_not.mpr a3)]
          simp only [List.mem_singleton]
          exact Prod.ext a1 rfl
    · intro acc k
      dsimp only
      split <;> simp
  · intro acc k
    dsimp only
    by_cases c : (getE adj j k).s ≠ 1
    · simp only [if_pos c]
    · simp only [if_neg c]
      cases hc : center_idx.getD (cluster.getD (getE adj j k).v 0) none <;> rfl

theorem finalScan_snd (adj : Adj) (cluster : List Nat) (center_idx : List (Option Nat))
    (cidx j : Nat) (to_rem : List (Nat × Nat)) :
    (finalScan adj cluster center_idx cidx j to_rem).2 =
      minEdOf adj cluster center_idx cidx j := by
  unfold finalScan minEdOf minEdPre
  apply foldl_proj Prod.snd _
    (fun (min_ed : List (Option Nat)) k =>
      let e := getE adj j k
      if e.s ≠ 1 then min_ed
      else
        match center_idx.getD (cluster.getD e.v 0) none with
        | none => min_ed
        | some ci => minEdUpd adj j min_ed ci k)
  intro acc k
  dsimp only
  by_cases c : (getE adj j k).s ≠ 1
  · simp only [if_pos c]
  · simp only [if_neg c]
    cases hc : center_idx.getD (cluster.getD (getE adj j k).v 0) none <;> rfl

theorem finalScan_fst (adj : Adj) (cluster : List Nat) (center_idx : List (Option Nat))
    (cidx j : Nat) (to_rem : List (Nat × Nat)) (x : Nat × Nat) :
    x ∈ (finalScan adj cluster center_idx cidx j to_rem).1 ↔
      x ∈ to_rem ∨ (x.1 = j ∧ ∃ ci, CandInto adj cluster center_idx j x.2 ci) := by
  unfold finalScan
  rw [foldl_proj Prod.fst _
    (fun (acc : List (Nat × Nat)) k =>
      if (getE adj j k).s ≠ 1 then acc
      else
        match center_idx.getD (cluster.getD (getE adj j k).v 0) none with
        | none => acc
        | some _ => acc ++ [(j, k)])]
  · rw [mem_foldl_app _ (fun k =>
      if (getE adj j k).s ≠ 1 then []
      else
        match center_idx.getD (cluster.getD (getE adj j k).v 0) none with
        | none => []
        | some _ => [(j, k)])]
    · constructor
      · rintro (a | ⟨k, hk, a⟩)
        · exact Or.inl a
        · by_cases c : (getE adj j k).s ≠ 1
          · rw [if_pos c] at a; simp at a
          · rw [if_neg c] at a
            cases hc : center_idx.getD (cluster.getD (getE adj j k).v 0) none with
            | none => rw [hc] at a; simp at a
            | some ci =>
              rw [hc] at a
              have hx : x = (j, k) := by simpa using a
              subst hx
              exact Or.inr ⟨rfl, ci, hk, not_not.mp c, hc⟩
      · rintro (a | ⟨a1, ci, a2, a3, a4⟩)
        · exact Or.inl a
        · refine Or.inr ⟨x.2, a2, ?_⟩
          rw [if_neg (not_not.mpr a3), a4]
          simp only [List.mem_singleton]
          exact Prod.ext a1 rfl
    · intro acc k
      dsimp only
      by_cases c : (getE adj j k).s ≠ 1
      · simp only [if_pos c, List.append_nil]
      · simp only [if_neg c]
        cases hc : center_idx.getD (cluster.getD (getE adj j k).v 0) none <;> simp
  · intro acc k
    dsimp only
    by_cases c : (getE adj j k).s ≠ 1
    · simp only [if_pos c]
    · simp only [if_neg c]
      cases hc : center_idx.getD (cluster.getD (getE adj j k).v 0) none <;> rfl

theorem mem_pushMinEd (j : Nat) (min_ed : List (Option Nat)) (cidx : Nat)
    (to_add : List (Nat × Nat)) (x : Nat × Nat) :
    x ∈ pushMinEd j min_ed cidx to_add ↔
      x ∈ to_add ∨ (x.1 = j ∧ ∃ ci, ci < cidx ∧ min_ed.getD ci none = some x.2) := by
  unfold pushMinEd
  rw [mem_foldl_app _ (fun k =>
    match min_ed.getD k none with
    | none => []
    | some m => [(j, m)])]
  · constructor
    · rintro (a | ⟨k, hk, a⟩)
      · exact Or.inl a
      · cases hc : min_ed.getD k none with
        | none => rw [hc] at a; simp at a
        | some m =>
          rw [hc] at a
          have hx : x = (j, m) := by simpa using a
          subst hx
          exact Or.inr ⟨rfl, k, hk, hc⟩
    · rintro (a | ⟨a1, ci, a2, a3⟩)
      · exact Or.inl a
      · refine Or.inr ⟨ci, a2, ?_⟩
        rw [a3]
        simp only [List.mem_singleton]
        exact Prod.ext a1 rfl
  · intro acc k
    dsimp only
    cases hc : min_ed.getD k none <;> simp

theorem mem_pushCheaper (adj : Adj) (j : Nat) (min_ed : List (Option Nat)) (cidx : Nat)
    (cw : Int) (to_add : List (Nat × Nat)) (x : Nat × Nat) :
    x ∈ pushCheaper adj j min_ed cidx cw to_add ↔
      x ∈ to_add ∨ (x.1 = j ∧ (getE adj j x.2).w < cw ∧
        ∃ ci, ci < cidx ∧ min_ed.getD ci none = some x.2) := by
  unfold pushCheaper
  rw [mem_foldl_app _ (fun k =>
    match min_ed.getD k none with
    | none => []
    | some m => if (getE adj j m).w ≥ cw then [] else [(j, m)])]
  · constructor
    · rintro (a | ⟨k, hk, a⟩)
      · exact Or.inl a
      · cases hc : min_ed.getD k none with
        | none => rw [hc] at a; simp at a
        | some m =>
          rw [hc] at a
          simp only at a
          by_cases hw : (getE adj j m).w ≥ cw
          · rw [if_pos hw] at a; simp at a
          · rw [if_neg hw] at a
            have hx : x = (j, m) := by simpa using a
            subst hx
            exact Or.inr ⟨rfl, lt_of_not_ge hw, k, hk, hc⟩
    · rintro (a | ⟨a1, a2, ci, a3, a4⟩)
      · exact Or.inl a
      · refine Or.inr ⟨ci, a3, ?_⟩
        rw [a4]
        simp only
        rw [if_neg (not_le.mpr a2)]
        simp only [List.mem_singleton]
        exact Prod.ext a1 rfl
  · intro acc k
    dsimp only
    cases hc : min_ed.getD k none with
    | none => simp
    | some m =>
      simp only
      by_cases hw : (getE adj j m).w ≥ cw
      · simp only [if_pos hw, List.append_nil]
      · simp only [if_neg hw]

/-! ## The scans of the found case -/

theorem foundScan_minEd (adj : Adj) (cluster : List Nat) (center_idx : List (Option Nat))
    (cidx j mi ncj : Nat) (to_rem : List (Nat × Nat)) :
    (foundScan adj cluster center_idx cidx j mi ncj to_rem).2.1 =
      minEdOf adj cluster center_idx cidx j := by
  unfold foundScan minEdOf minEdPre
  apply foldl_proj (fun (a : List (Nat × Nat) × List (Option Nat) × List Nat) => a.2.1) _
    (fun (min_ed : List (Option Nat)) k =>
      let e := getE adj j k
      if e.s ≠ 1 then min_ed
      else
        match center_idx.getD (cluster.getD e.v 0) none with
        | none => min_ed
        | some ci => minEdUpd adj j min_ed ci k)
  intro acc k
  dsimp only
  by_cases c : (getE adj j k).s ≠ 1
  · simp only [if_pos c]
  · simp only [if_neg c]
    cases hc : center_idx.getD (cluster.getD (getE adj j k).v 0) none <;> rfl

theorem foundScan_fst (adj : Adj) (cluster : List Nat) (center_idx : List (Option Nat))
    (cidx j mi ncj : Nat) (to_rem : List (Nat × Nat)) (x : Nat × Nat) :
    x ∈ (foundScan adj cluster center_idx cidx j mi ncj to_rem).1 ↔
      x ∈ to_rem ∨ (x.1 = j ∧ InB adj j x.2 ∧ (getE adj j x.2).s = 1 ∧
        cluster.getD (getE adj j x.2).v 0 = ncj) := by
  unfold foundScan
  rw [foldl_proj Prod.fst _
    (fun (acc : List (Nat × Nat)) k =>
      if (getE adj j k).s ≠ 1 then acc
      else if cluster.getD (getE adj j k).v 0 = ncj then acc ++ [(j, k)] else acc)]
  · rw [mem_foldl_app _ (fun k =>
      if (getE adj j k).s ≠ 1 then []
      else if cluster.getD (getE adj j k).v 0 = ncj then [(j, k)] else [])]
    · constructor
      · rintro (a | ⟨k, hk, a⟩)
        · exact Or.inl a
        · by_cases c : (getE adj j k).s ≠ 1
          · rw [if_pos c] at a; simp at a
          · rw [if_neg c] at a
            by_cases c2 : cluster.getD (getE adj j k).v 0 = ncj
            · rw [if_pos c2] at a
              have hx : x = (j, k) := by simpa using a
              subst hx
              exact Or.inr ⟨rfl, hk, not_not.mp c, c2⟩
            · rw [if_neg c2] at a; simp at a
      · rintro (a | ⟨a1, a2, a3, a4⟩)
        · exact Or.inl a
        · refine Or.inr ⟨x.2, a2, ?_⟩
          rw [if_neg (not_not.mpr a3), if_pos a4]
          simp only [List.mem_singleton]
          exact Prod.ext a1 rfl
    · intro acc k
      dsimp only
      by_cases c : (getE adj j k).s ≠ 1
      · simp only [if_pos c, List.append_nil]
      · simp only [if_neg c]
        by_cases c2 : cluster.getD (getE adj j k).v 0 = ncj
        · simp only [if_pos c2]
        · simp only [if_neg c2, List.append_nil]
  · intro acc k
    dsimp only
    by_cases c : (getE adj j k).s ≠ 1
    · simp only [if_pos c]
    · simp only [if_neg c]
      cases hc : center_idx.getD (cluster.getD (getE adj j k).v 0) none <;> rfl

theorem foundScan_tr (adj : Adj) (cluster : List Nat) (center_idx : List (Option Nat))
    (cidx j mi ncj : Nat) (to_rem : List (Nat × Nat)) (ci : Nat) :
    (foundScan adj cluster center_idx cidx j mi ncj to_rem).2.2.getD ci 0 ≠ 0 ↔
      ci < cidx ∧ ∃ k, CandInto adj cluster center_idx j k ci ∧
        (getE adj j k).w < (getE adj j mi).w ∧ some ci ≠ center_idx.getD ncj none := by
  unfold foundScan
  rw [foldl_proj (fun (a : List (Nat × Nat) × List (Option Nat) × List Nat) => a.2.2) _
    (fun (tr : List Nat) k =>
      if (getE adj j k).s ≠ 1 then tr
      else
        match center_idx.getD (cluster.getD (getE adj j k).v 0) none with
        | none => tr
        | some c =>
          if (getE adj j k).w < (getE adj j mi).w ∧ some c ≠ center_idx.getD ncj none
          then tr.set c 1 else tr)]
  · have key := foldl_range_inv
      (fun m (tr : List Nat) =>
        tr.length = cidx ∧ ∀ ci, tr.getD ci 0 ≠ 0 ↔
          ci < cidx ∧ ∃ k, k < m ∧ (getE adj j k).s = 1 ∧
            center_idx.getD (cluster.getD (getE adj j k).v 0) none = some ci ∧
            (getE adj j k).w < (getE adj j mi).w ∧ some ci ≠ center_idx.getD ncj none)
      (fun (tr : List Nat) k =>
        if (getE adj j k).s ≠ 1 then tr
        else
          match center_idx.getD (cluster.getD (getE adj j k).v 0) none with
          | none => tr
          | some c =>
            if (getE adj j k).w < (getE adj j mi).w ∧ some c ≠ center_idx.getD ncj none
            then tr.set c 1 else tr)
      (adj.getD j []).length (List.replicate cidx 0)
      (by
        refine ⟨List.length_replicate _ _, fun ci => ?_⟩
        have hz : (List.replicate cidx 0).getD ci 0 = 0 := by
          rw [getD_replicate_eq]; split <;> rfl
        rw [hz]
        constructor
        · intro h; exact absurd rfl h
        · rintro ⟨_, k, hk, _⟩
          exact absurd hk (Nat.not_lt_zero k))
      (by
        intro m tr hm ⟨h1, h2⟩
        dsimp only
        have hex : ∀ ci, (∃ k, k < m + 1 ∧ (getE adj j k).s = 1 ∧
            center_idx.getD (cluster.getD (getE adj j k).v 0) none = some ci ∧
            (getE adj j k).w < (getE adj j mi).w ∧ some ci ≠ center_idx.getD ncj none) ↔
            ((∃ k, k < m ∧ (getE adj j k).s = 1 ∧
            center_idx.getD (cluster.getD (getE adj j k).v 0) none = some ci ∧
            (getE adj j k).w < (getE adj j mi).w ∧ some ci ≠ center_idx.getD ncj none) ∨
            ((getE adj j m).s = 1 ∧
            center_idx.getD (cluster.getD (getE adj j m).v 0) none = some ci ∧
            (getE adj j m).w < (getE adj j mi).w ∧ some ci ≠ center_idx.getD ncj none)) := by
          intro ci
          constructor
          · rintro ⟨k, hk, a⟩
            by_cases hkm : k = m
            · subst hkm; exact Or.inr a
            · exact Or.inl ⟨k, by omega, a⟩
          · rintro (⟨k, hk, a⟩ | a)
            · exact ⟨k, by omega, a⟩
            · exact ⟨m, by omega, a⟩
        by_cases c : (getE adj j m).s ≠ 1
        · simp only [if_pos c]
          refine ⟨h1, fun ci => ?_⟩
          rw [h2 ci, hex ci]
          constructor
          · rintro ⟨a, b⟩; exact ⟨a, Or.inl b⟩
          · rintro ⟨a, b | b⟩
            · exact ⟨a, b⟩
            · exact absurd b.1 c
        · simp only [if_neg c]
          cases hc : center_idx.getD (cluster.getD (getE adj j m).v 0) none with
          | none =>
            simp only
            refine ⟨h1, fun ci => ?_⟩
            rw [h2 ci, hex ci]
            constructor
            · rintro ⟨a, b⟩; exact ⟨a, Or.inl b⟩
            · rintro ⟨a, b | b⟩
              · exact ⟨a, b⟩
              · rw [hc] at b; simp at b
          | some cm =>
            simp only
            by_cases hw : (getE adj j m).w < (getE adj j mi).w ∧
                some cm ≠ center_idx.getD ncj none
            · rw [if_pos hw]
              refine ⟨by rw [List.length_set]; exact h1, fun ci => ?_⟩
              rw [getD_set_eq, hex ci, h1]
              by_cases hcc : cm = ci ∧ cm < cidx
              · rw [if_pos hcc]
                obtain ⟨e1, e2⟩ := hcc
                subst e1
                constructor
                · intro _
                  exact ⟨e2, Or.inr ⟨not_not.mp c, hc, hw.1, hw.2⟩⟩
                · intro _; simp
              · rw [if_neg hcc, h2 ci]
                constructor
                · rintro ⟨a, b⟩; exact ⟨a, Or.inl b⟩
                · rintro ⟨a, b | b⟩
                  · exact ⟨a, b⟩
                  · have b2 := b.2.1
                    rw [hc] at b2
                    have : cm = ci := Option.some.inj b2
                    exact absurd ⟨this, this ▸ a⟩ hcc
            · rw [if_neg hw]
              refine ⟨h1, fun ci => ?_⟩
              rw [h2 ci, hex ci]
              constructor
              · rintro ⟨a, b⟩; exact ⟨a, Or.inl b⟩
              · rintro ⟨a, b | b⟩
                · exact ⟨a, b⟩
                · have b2 := b.2.1
                  rw [hc] at b2
                  have : cm = ci := Option.some.inj b2
                  subst this
                  exact absurd ⟨b.2.2.1, b.2.2.2⟩ hw)
    dsimp only
    rw [key.2 ci]
    constructor
    · rintro ⟨a, k, hk, b1, b2, b3⟩
      exact ⟨a, k, ⟨hk, b1, b2⟩, b3⟩
    · rintro ⟨a, k, ⟨hk, b1, b2⟩, b3⟩
      exact ⟨a, k, hk, b1, b2, b3⟩
  · intro acc k
    dsimp only
    by_cases c : (getE adj j k).s ≠ 1
    · simp only [if_pos c]
    · simp only [if_neg c]
      cases hc : center_idx.getD (cluster.getD (getE adj j k).v 0) none <;> rfl

theorem mem_trScan (adj : Adj) (cluster : List Nat) (center_idx : List (Option Nat)) (j : Nat)
    (tr : List Nat) (to_rem : List (Nat × Nat)) (x : Nat × Nat) :
    x ∈ trScan adj cluster center_idx j tr to_rem ↔
      x ∈ to_rem ∨ (x.1 = j ∧ ∃ ci, CandInto adj cluster center_idx j x.2 ci ∧
        tr.getD ci 0 ≠ 0) := by
  unfold trScan
  rw [mem_foldl_app _ (fun k =>
    if (getE adj j k).s ≠ 1 then []
    else
      match center_idx.getD (cluster.getD (getE adj j k).v 0) none with
      | none => []
      | some ci => if tr.getD ci 0 ≠ 0 then [(j, k)] else [])]
  · constructor
    · rintro (a | ⟨k, hk, a⟩)
      · exact Or.inl a
      · by_cases c : (getE adj j k).s ≠ 1
        · rw [if_pos c] at a; simp at a
        · rw [if_neg c] at a
          cases hc : center_idx.getD (cluster.getD (getE adj j k).v 0) none with
          | none => rw [hc] at a; simp at a
          | some ci =>
            rw [hc] at a
            simp only at a
            by_cases ht : tr.getD ci 0 ≠ 0
            · rw [if_pos ht] at a
              have hx : x = (j, k) := by simpa using a
              subst hx
              exact Or.inr ⟨rfl, ci, ⟨hk, not_not.mp c, hc⟩, ht⟩
            · rw [if_neg ht] at a; simp at a
    · rintro (a | ⟨a1, ci, ⟨a2, a3, a4⟩, a5⟩)
      · exact Or.inl a
      · refine Or.inr ⟨x.2, a2, ?_⟩
        rw [if_neg (not_not.mpr a3), a4]
        simp only
        rw [if_pos a5]
        simp only [List.mem_singleton]
        exact Prod.ext a1 rfl
  · intro acc k
    dsimp only
    by_cases c : (getE adj j k).s ≠ 1
    · simp only [if_pos c, List.append_nil]
    · simp only [if_neg c]
      cases hc : center_idx.getD (cluster.getD (getE adj j k).v 0) none with
      | none => simp
      | some ci =>
        simp only
        by_cases ht : tr.getD ci 0 ≠ 0
        · simp only [if_pos ht]
        · simp only [if_neg ht, List.append_nil]

/-! ## The two loops of step 3 -/

theorem lt_succ_and_iff (m a : Nat) (Q : Prop) :
    (a < m + 1 ∧ Q) ↔ ((a < m ∧ Q) ∨ (a = m ∧ Q)) := by
  constructor
  · rintro ⟨h, q⟩
    by_cases ha : a = m
    · exact Or.inr ⟨ha, q⟩
    · exact Or.inl ⟨by omega, q⟩
  · rintro (⟨h, q⟩ | ⟨h, q⟩)
    · exact ⟨by omega, q⟩
    · exact ⟨by omega, q⟩

theorem lt_succ_and_iff_of_not (m a : Nat) (Q : Prop) (h : a = m → ¬ Q) :
    (a < m + 1 ∧ Q) ↔ (a < m ∧ Q) := by
  rw [lt_succ_and_iff]
  constructor
  · rintro (a | ⟨a, b⟩)
    · exact a
    · exact absurd b (h a)
  · exact fun a => Or.inl a

theorem orphanLoop_spec (n : Nat) (adj : Adj) (cluster ivd is_center : List Nat)
    (min_idx center_idx : List (Option Nat)) (cidx : Nat) :
    (∀ x : Nat × Nat,
      x ∈ (orphanLoop n adj cluster ivd is_center min_idx center_idx cidx).1 ↔
        x.1 < n ∧ (IsOrphan cluster ivd is_center min_idx x.1 ∧ ∃ ci, ci < cidx ∧
          (minEdOf adj cluster center_idx cidx x.1).getD ci none = some x.2)) ∧
    (∀ x : Nat × Nat,
      x ∈ (orphanLoop n adj cluster ivd is_center min_idx center_idx cidx).2.1 ↔
        x.1 < n ∧ (IsOrphan cluster ivd is_center min_idx x.1 ∧ InB adj x.1 x.2 ∧
          (getE adj x.1 x.2).s = 1)) ∧
    (orphanLoop n adj cluster ivd is_center min_idx center_idx cidx).2.2.length = ivd.length ∧
    (∀ j, (orphanLoop n adj cluster ivd is_center min_idx center_idx cidx).2.2.getD j 0 =
      if j < n ∧ IsOrphan cluster ivd is_center min_idx j then 0 else ivd.getD j 0) := by
  unfold orphanLoop
  apply foldl_range_inv
    (fun m (acc : List (Nat × Nat) × List (Nat × Nat) × List Nat) =>
      (∀ x : Nat × Nat, x ∈ acc.1 ↔
        x.1 < m ∧ (IsOrphan cluster ivd is_center min_idx x.1 ∧ ∃ ci, ci < cidx ∧
          (minEdOf adj cluster center_idx cidx x.1).getD ci none = some x.2)) ∧
      (∀ x : Nat × Nat, x ∈ acc.2.1 ↔
        x.1 < m ∧ (IsOrphan cluster ivd is_center min_idx x.1 ∧ InB adj x.1 x.2 ∧
          (getE adj x.1 x.2).s = 1)) ∧
      acc.2.2.length = ivd.length ∧
      (∀ j, acc.2.2.getD j 0 =
        if j < m ∧ IsOrphan cluster ivd is_center min_idx j then 0 else ivd.getD j 0))
  · refine ⟨fun x => ?_, fun x => ?_, rfl, fun j => ?_⟩
    · simp
    · simp
    · rw [if_neg (fun h => Nat.not_lt_zero j h.1)]
  · intro m acc hm ⟨h1, h2, h3, h4⟩
    dsimp only
    have hcur : acc.2.2.getD m 0 = ivd.getD m 0 := by
      rw [h4 m, if_neg (fun h => Nat.lt_irrefl m h.1)]
    rw [hcur]
    have hskip : ¬ IsOrphan cluster ivd is_center min_idx m →
        ((∀ x : Nat × Nat, x ∈ acc.1 ↔
          x.1 < m + 1 ∧ (IsOrphan cluster ivd is_center min_idx x.1 ∧ ∃ ci, ci < cidx ∧
            (minEdOf adj cluster center_idx cidx x.1).getD ci none = some x.2)) ∧
        (∀ x : Nat × Nat, x ∈ acc.2.1 ↔
          x.1 < m + 1 ∧ (IsOrphan cluster ivd is_center min_idx x.1 ∧ InB adj x.1 x.2 ∧
            (getE adj x.1 x.2).s = 1)) ∧
        acc.2.2.length = ivd.length ∧
        (∀ j, acc.2.2.getD j 0 =
          if j < m + 1 ∧ IsOrphan cluster ivd is_center min_idx j then 0
          else ivd.getD j 0)) := by
      intro hno
      refine ⟨fun x => ?_, fun x => ?_, h3, fun j => ?_⟩
      · rw [h1 x, lt_succ_and_iff_of_not]
        intro hx hq
        exact hno (hx ▸ hq.1)
      · rw [h2 x, lt_succ_and_iff_of_not]
        intro hx hq
        exact hno (hx ▸ hq.1)
      · rw [h4 j]
        have : (j < m + 1 ∧ IsOrphan cluster ivd is_center min_idx j) ↔
            (j < m ∧ IsOrphan cluster ivd is_center min_idx j) := by
          apply lt_succ_and_iff_of_not
          intro hx hq
          exact hno (hx ▸ hq)
        simp only [this]
    by_cases c1 : ivd.getD m 0 = 0
    · rw [if_pos c1]
      exact hskip (fun h => h.1 c1)
    · rw [if_neg c1]
      by_cases c2 : is_center.getD (cluster.getD m 0) 0 ≠ 0
      · rw [if_pos c2]
        exact hskip (fun h => c2 h.2.1)
      · rw [if_neg c2]
        cases hmi : min_idx.getD m none with
        | some mi =>
          simp only
          apply hskip
          intro h
          rw [h.2.2] at hmi
          simp at hmi
        | none =>
          simp only
          have hor : IsOrphan cluster ivd is_center min_idx m := ⟨c1, not_not.mp c2, hmi⟩
          have hlen : m < ivd.length := by
            by_contra hc
            exact c1 (getD_of_le _ _ _ (Nat.le_of_not_lt hc))
          refine ⟨fun x => ?_, fun x => ?_, ?_, fun j => ?_⟩
          · rw [mem_pushMinEd, orphanScan_snd, h1 x, lt_succ_and_iff]
            constructor
            · rintro (a | ⟨a, b⟩)
              · exact Or.inl a
              · exact Or.inr ⟨a, a ▸ hor, a ▸ b⟩
            · rintro (a | ⟨a, _, b⟩)
              · exact Or.inl a
              · exact Or.inr ⟨a, a ▸ b⟩
          · rw [orphanScan_fst, h2 x, lt_succ_and_iff]
            constructor
            · rintro (a | ⟨a, b⟩)
              · exact Or.inl a
              · exact Or.inr ⟨a, a ▸ hor, a ▸ b⟩
            · rintro (a | ⟨a, _, b⟩)
              · exact Or.inl a
              · exact Or.inr ⟨a, a ▸ b⟩
          · rw [List.length_set, h3]
          · rw [getD_set_eq, h3, h4 j]
            by_cases hjm : m = j
            · subst hjm
              rw [if_pos ⟨rfl, hlen⟩, if_pos ⟨Nat.lt_succ_self _, hor⟩]
            · rw [if_neg (fun h => hjm h.1)]
              have : (j < m + 1 ∧ IsOrphan cluster ivd is_center min_idx j) ↔
                  (j < m ∧ IsOrphan cluster ivd is_center min_idx j) := by
                apply lt_succ_and_iff_of_not
                intro hx _
                exact absurd hx.symm hjm
              simp only [this]

theorem foundLoop_spec (n : Nat) (adj : Adj) (cluster ivd is_center : List Nat)
    (min_idx center_idx : List (Option Nat)) (cidx : Nat) (A0 R0 : List (Nat × Nat)) :
    (∀ x : Nat × Nat,
      x ∈ (foundLoop n adj cluster ivd is_center min_idx center_idx cidx A0 R0).1 ↔
        x ∈ A0 ∨ (x.1 < n ∧ ∃ mi, IsFound cluster ivd is_center min_idx x.1 mi ∧
          (x.2 = mi ∨ ((getE adj x.1 x.2).w < (getE adj x.1 mi).w ∧ ∃ ci, ci < cidx ∧
            (minEdOf adj cluster center_idx cidx x.1).getD ci none = some x.2)))) ∧
    (∀ x : Nat × Nat,
      x ∈ (foundLoop n adj cluster ivd is_center min_idx center_idx cidx A0 R0).2.1 ↔
        x ∈ R0 ∨ (x.1 < n ∧ ∃ mi, IsFound cluster ivd is_center min_idx x.1 mi ∧
          ((InB adj x.1 x.2 ∧ (getE adj x.1 x.2).s = 1 ∧
              cluster.getD (getE adj x.1 x.2).v 0 = cluster.getD (getE adj x.1 mi).v 0) ∨
            ∃ ci, CandInto adj cluster center_idx x.1 x.2 ci ∧ ci < cidx ∧
              ∃ k, CandInto adj cluster center_idx x.1 k ci ∧
                (getE adj x.1 k).w < (getE adj x.1 mi).w ∧
                some ci ≠ center_idx.getD (cluster.getD (getE adj x.1 mi).v 0) none))) ∧
    (∀ x : Nat × Nat,
      x ∈ (foundLoop n adj cluster ivd is_center min_idx center_idx cidx A0 R0).2.2 ↔
        x.1 < n ∧ ∃ mi, IsFound cluster ivd is_center min_idx x.1 mi ∧
          x.2 = cluster.getD (getE adj x.1 mi).v 0) := by
  unfold foundLoop
  apply foldl_range_inv
    (fun m (acc : List (Nat × Nat) × List (Nat × Nat) × List (Nat × Nat)) =>
      (∀ x : Nat × Nat, x ∈ acc.1 ↔
        x ∈ A0 ∨ (x.1 < m ∧ ∃ mi, IsFound cluster ivd is_center min_idx x.1 mi ∧
          (x.2 = mi ∨ ((getE adj x.1 x.2).w < (getE adj x.1 mi).w ∧ ∃ ci, ci < cidx ∧
            (minEdOf adj cluster center_idx cidx x.1).getD ci none = some x.2)))) ∧
      (∀ x : Nat × Nat, x ∈ acc.2.1 ↔
        x ∈ R0 ∨ (x.1 < m ∧ ∃ mi, IsFound cluster ivd is_center min_idx x.1 mi ∧
          ((InB adj x.1 x.2 ∧ (getE adj x.1 x.2).s = 1 ∧
              cluster.getD (getE adj x.1 x.2).v 0 = cluster.getD (getE adj x.1 mi).v 0) ∨
            ∃ ci, CandInto adj cluster center_idx x.1 x.2 ci ∧ ci < cidx ∧
              ∃ k, CandInto adj cluster center_idx x.1 k ci ∧
                (getE adj x.1 k).w < (getE adj x.1 mi).w ∧
                some ci ≠ center_idx.getD (cluster.getD (getE adj x.1 mi).v 0) none))) ∧
      (∀ x : Nat × Nat, x ∈ acc.2.2 ↔
        x.1 < m ∧ ∃ mi, IsFound cluster ivd is_center min_idx x.1 mi ∧
          x.2 = cluster.getD (getE adj x.1 mi).v 0))
  · refine ⟨fun x => ?_, fun x => ?_, fun x => ?_⟩
    · simp
    · simp
    · simp
  · intro m acc hm ⟨h1, h2, h3⟩
    dsimp only
    have hskip : (∀ mi, ¬ IsFound cluster ivd is_center min_idx m mi) →
      ((∀ x : Nat × Nat, x ∈ acc.1 ↔
        x ∈ A0 ∨ (x.1 < m + 1 ∧ ∃ mi, IsFound cluster ivd is_center min_idx x.1 mi ∧
          (x.2 = mi ∨ ((getE adj x.1 x.2).w < (getE adj x.1 mi).w ∧ ∃ ci, ci < cidx ∧
            (minEdOf adj cluster center_idx cidx x.1).getD ci none = some x.2)))) ∧
      (∀ x : Nat × Nat, x ∈ acc.2.1 ↔
        x ∈ R0 ∨ (x.1 < m + 1 ∧ ∃ mi, IsFound cluster ivd is_center min_idx x.1 mi ∧
          ((InB adj x.1 x.2 ∧ (getE adj x.1 x.2).s = 1 ∧
              cluster.getD (getE adj x.1 x.2).v 0 = cluster.getD (getE adj x.1 mi).v 0) ∨
            ∃ ci, CandInto adj cluster center_idx x.1 x.2 ci ∧ ci < cidx ∧
              ∃ k, CandInto adj cluster center_idx x.1 k ci ∧
                (getE adj x.1 k).w < (getE adj x.1 mi).w ∧
                some ci ≠ center_idx.getD (cluster.getD (getE adj x.1 mi).v 0) none))) ∧
      (∀ x : Nat × Nat, x ∈ acc.2.2 ↔
        x.1 < m + 1 ∧ ∃ mi, IsFound cluster ivd is_center min_idx x.1 mi ∧
          x.2 = cluster.getD (getE adj x.1 mi).v 0)) := by
      intro hno
      refine ⟨fun x => ?_, fun x => ?_, fun x => ?_⟩
      · rw [h1 x, lt_succ_and_iff_of_not]
        rintro hx ⟨mi, hq, _⟩
        exact hno mi (hx ▸ hq)
      · rw [h2 x, lt_succ_and_iff_of_not]
        rintro hx ⟨mi, hq, _⟩
        exact hno mi (hx ▸ hq)
      · rw [h3 x, lt_succ_and_iff_of_not]
        rintro hx ⟨mi, hq, _⟩
        exact hno mi (hx ▸ hq)
    by_cases c1 : ivd.getD m 0 = 0
    · rw [if_pos c1]
      exact hskip (fun mi h => h.1 c1)
    · rw [if_neg c1]
      by_cases c2 : is_center.getD (cluster.getD m 0) 0 ≠ 0
      · rw [if_pos c2]
        exact hskip (fun mi h => c2 h.2.1)
      · rw [if_neg c2]
        cases hmi : min_idx.getD m none with
        | none =>
          simp only
          apply hskip
          intro mi h
          rw [h.2.2] at hmi
          simp at hmi
        | some mi =>
          simp only
          have hf : IsFound cluster ivd is_center min_idx m mi := ⟨c1, not_not.mp c2, hmi⟩
          have huniq : ∀ mi2, IsFound cluster ivd is_center min_idx m mi2 → mi2 = mi := by
            intro mi2 h
            have := h.2.2
            rw [hmi] at this
            exact (Option.some.inj this).symm
          refine ⟨fun x => ?_, fun x => ?_, fun x => ?_⟩
          · rw [List.mem_append, mem_pushCheaper, foundScan_minEd, h1 x, lt_succ_and_iff]
            simp only [List.mem_singleton]
            constructor
            · rintro ((a | ⟨a1, a2, a3⟩) | a)
              · rcases a with a | a
                · exact Or.inl a
                · exact Or.inr (Or.inl a)
              · refine Or.inr (Or.inr ⟨a1, mi, a1 ▸ hf, Or.inr ⟨?_, ?_⟩⟩)
                · rw [a1]; exact a2
                · rw [a1]; exact a3
              · refine Or.inr (Or.inr ⟨?_, mi, ?_, Or.inl ?_⟩)
                · rw [a]
                · rw [a]; exact hf
                · rw [a]
            · rintro (a | a | ⟨a1, mi2, a2, a3⟩)
              · exact Or.inl (Or.inl (Or.inl a))
              · exact Or.inl (Or.inl (Or.inr a))
              · have hmi2 : mi2 = mi := huniq mi2 (a1 ▸ a2)
                subst hmi2
                rcases a3 with b | ⟨b1, b2⟩
                · exact Or.inr (Prod.ext a1 b)
                · refine Or.inl (Or.inr ⟨a1, ?_, ?_⟩)
                  · rw [← a1]; exact b1
                  · rw [← a1]; exact b2
          · rw [mem_trScan, foundScan_fst, h2 x, lt_succ_and_iff]
            constructor
            · rintro ((a | ⟨a1, a2⟩) | ⟨a1, ci, a2, a3⟩)
              · rcases a with a | a
                · exact Or.inl a
                · exact Or.inr (Or.inl a)
              · refine Or.inr (Or.inr ⟨a1, mi, a1 ▸ hf, Or.inl ?_⟩)
                rw [a1]; exact a2
              · obtain ⟨t1, k, t2, t3, t4⟩ := (foundScan_tr _ _ _ _ _ _ _ _ _).mp a3
                refine Or.inr (Or.inr ⟨a1, mi, a1 ▸ hf, Or.inr ⟨ci, ?_, t1, k, ?_, ?_, ?_⟩⟩)
                · rw [a1]; exact a2
                · rw [a1]; exact t2
                · rw [a1]; exact t3
                · rw [a1]; exact t4
            · rintro (a | a | ⟨a1, mi2, a2, a3⟩)
              · exact Or.inl (Or.inl (Or.inl a))
              · exact Or.inl (Or.inl (Or.inr a))
              · have hmi2 : mi2 = mi := huniq mi2 (a1 ▸ a2)
                subst hmi2
                rcases a3 with b | ⟨ci, b1, b2, k, b3, b4, b5⟩
                · refine Or.inl (Or.inr ⟨a1, ?_⟩)
                  rw [← a1]; exact b
                · refine Or.inr ⟨a1, ci, ?_, ?_⟩
                  · rw [← a1]; exact b1
                  · apply (foundScan_tr _ _ _ _ _ _ _ _ _).mpr
                    refine ⟨b2, k, ?_, ?_, ?_⟩
                    · rw [← a1]; exact b3
                    · rw [← a1]; exact b4
                    · rw [← a1]; exact b5
          · rw [List.mem_append, h3 x, lt_succ_and_iff]
            simp only [List.mem_singleton]
            constructor
            · rintro (a | a)
              · exact Or.inl a
              · refine Or.inr ⟨?_, mi, ?_, ?_⟩
                · rw [a]
                · rw [a]; exact hf
                · rw [a]
            · rintro (a | ⟨a1, mi2, a2, a3⟩)
              · exact Or.inl a
              · have hmi2 : mi2 = mi := huniq mi2 (a1 ▸ a2)
                subst hmi2
                exact Or.inr (Prod.ext a1 (by rw [a3, a1]))

theorem finalLoop_spec (n : Nat) (adj : Adj) (cluster ivd : List Nat)
    (center_idx : List (Option Nat)) (cidx : Nat) :
    (∀ x : Nat × Nat, x ∈ (finalLoop n adj cluster ivd center_idx cidx).1 ↔
      x.1 < n ∧ (ivd.getD x.1 0 ≠ 0 ∧ ∃ ci, ci < cidx ∧
        (minEdOf adj cluster center_idx cidx x.1).getD ci none = some x.2)) ∧
    (∀ x : Nat × Nat, x ∈ (finalLoop n adj cluster ivd center_idx cidx).2 ↔
      x.1 < n ∧ (ivd.getD x.1 0 ≠ 0 ∧ ∃ ci, CandInto adj cluster center_idx x.1 x.2 ci)) := by
  unfold finalLoop
  apply foldl_range_inv
    (fun m (acc : List (Nat × Nat) × List (Nat × Nat)) =>
      (∀ x : Nat × Nat, x ∈ acc.1 ↔
        x.1 < m ∧ (ivd.getD x.1 0 ≠ 0 ∧ ∃ ci, ci < cidx ∧
          (minEdOf adj cluster center_idx cidx x.1).getD ci none = some x.2)) ∧
      (∀ x : Nat × Nat, x ∈ acc.2 ↔
        x.1 < m ∧ (ivd.getD x.1 0 ≠ 0 ∧ ∃ ci, CandInto adj cluster center_idx x.1 x.2 ci)))
  · refine ⟨fun x => ?_, fun x => ?_⟩
    · simp
    · simp
  · intro m acc hm ⟨h1, h2⟩
    dsimp only
    by_cases c1 : ivd.getD m 0 = 0
    · rw [if_pos c1]
      refine ⟨fun x => ?_, fun x => ?_⟩
      · rw [h1 x, lt_succ_and_iff_of_not]
        rintro hx ⟨hq, _⟩
        exact hq (hx ▸ c1)
      · rw [h2 x, lt_succ_and_iff_of_not]
        rintro hx ⟨hq, _⟩
        exact hq (hx ▸ c1)
    · rw [if_neg c1]
      refine ⟨fun x => ?_, fun x => ?_⟩
      · rw [mem_pushMinEd, finalScan_snd, h1 x, lt_succ_and_iff]
        constructor
        · rintro (a | ⟨a, b⟩)
          · exact Or.inl a
          · exact Or.inr ⟨a, a ▸ c1, a ▸ b⟩
        · rintro (a | ⟨a, _, b⟩)
          · exact Or.inl a
          · exact Or.inr ⟨a, a ▸ b⟩
      · rw [finalScan_fst, h2 x, lt_succ_and_iff]
        constructor
        · rintro (a | ⟨a, b⟩)
          · exact Or.inl a
          · exact Or.inr ⟨a, a ▸ c1, a ▸ b⟩
        · rintro (a | ⟨a, _, b⟩)
          · exact Or.inl a
          · exact Or.inr ⟨a, a ▸ b⟩

/-! ## Cluster reassignment -/

theorem length_applyChange (cluster : List Nat) (cc : List (Nat × Nat)) :
    (applyChange cluster cc).length = cluster.length := by
  unfold applyChange
  apply foldl_inv (fun c => c.length = cluster.length) _ cc cluster rfl
  intro b a _ hb
  rw [List.length_set]
  exact hb

theorem applyChange_not_mem (cluster : List Nat) (cc : List (Nat × Nat)) (j : Nat)
    (h : ∀ p ∈ cc, p.1 ≠ j) : (applyChange cluster cc).getD j 0 = cluster.getD j 0 := by
  unfold applyChange
  apply foldl_inv (fun c => c.getD j 0 = cluster.getD j 0) _ cc cluster rfl
  intro b a ha hb
  rw [getD_set_ne _ _ _ (h a ha)]
  exact hb

theorem applyChange_mem (cc : List (Nat × Nat)) (cluster : List Nat) (j c : Nat)
    (hj : j < cluster.length) (hex : ∃ p ∈ cc, p.1 = j) (hall : ∀ p ∈ cc, p.1 = j → p.2 = c) :
    (applyChange cluster cc).getD j 0 = c := by
  induction cc generalizing cluster with
  | nil =>
    obtain ⟨p, hp, _⟩ := hex
    exact absurd hp (List.not_mem_nil p)
  | cons p cc ih =>
    have hstep : applyChange cluster (p :: cc) = applyChange (cluster.set p.1 p.2) cc := rfl
    rw [hstep]
    by_cases htail : ∃ q ∈ cc, q.1 = j
    · apply ih
      · rw [List.length_set]; exact hj
      · exact htail
      · intro q hq
        exact hall q (List.mem_cons_of_mem _ hq)
    · have hp : p.1 = j := by
        obtain ⟨q, hq, hqj⟩ := hex
        rcases List.mem_cons.mp hq with a | a
        · rw [← a]; exact hqj
        · exact absurd ⟨q, a, hqj⟩ htail
      rw [applyChange_not_mem]
      · rw [← hp, getD_set_self _ _ _ _ (hp ▸ hj)]
        exact hall p (List.mem_cons_self _ _) hp
      · intro q hq hqj
        exact htail ⟨q, hq, hqj⟩

/-! ## Step 4: intra-cluster cleanup -/

theorem cleanRecord_default (cluster : List Nat) (j : Nat) :
    cleanRecord cluster j default = default := by
  unfold cleanRecord
  split
  · rfl
  · split <;> rfl

theorem step4_getD (n : Nat) (adj : Adj) (cluster is_center : List Nat) (j : Nat) :
    (step4 n adj cluster is_center).getD j [] =
      if j < n ∧ is_center.getD (cluster.getD j 0) 0 ≠ 0
      then (adj.getD j []).map (cleanRecord cluster j) else adj.getD j [] := by
  unfold step4
  have key := foldl_range_inv
    (fun m (a : Adj) => a.length = adj.length ∧ ∀ j, a.getD j [] =
      if j < m ∧ is_center.getD (cluster.getD j 0) 0 ≠ 0
      then (adj.getD j []).map (cleanRecord cluster j) else adj.getD j [])
    (fun (a : Adj) j =>
      if is_center.getD (cluster.getD j 0) 0 = 0 then a
      else a.set j ((a.getD j []).map (cleanRecord cluster j)))
    n adj
    (by
      refine ⟨rfl, fun j => ?_⟩
      rw [if_neg (fun h => Nat.not_lt_zero j h.1)])
    (by
      intro m a hm ⟨h1, h2⟩
      dsimp only
      by_cases c : is_center.getD (cluster.getD m 0) 0 = 0
      · rw [if_pos c]
        refine ⟨h1, fun j => ?_⟩
        rw [h2 j]
        have : (j < m + 1 ∧ is_center.getD (cluster.getD j 0) 0 ≠ 0) ↔
            (j < m ∧ is_center.getD (cluster.getD j 0) 0 ≠ 0) := by
          apply lt_succ_and_iff_of_not
          intro hx hq
          exact hq (hx ▸ c)
        simp only [this]
      · rw [if_neg c]
        refine ⟨by rw [List.length_set]; exact h1, fun j => ?_⟩
        have hcur : a.getD m [] = adj.getD m [] := by
          rw [h2 m, if_neg (fun h => Nat.lt_irrefl m h.1)]
        rw [getD_set_eq, hcur, h1]
        by_cases hjm : m = j
        · subst hjm
          have hc2 : m < m + 1 ∧ is_center.getD (cluster.getD m 0) 0 ≠ 0 :=
            ⟨Nat.lt_succ_self _, c⟩
          rw [if_pos hc2]
          by_cases hl : m < adj.length
          · rw [if_pos ⟨rfl, hl⟩]
          · rw [if_neg (fun h => hl h.2), hcur,
              getD_of_le _ _ _ (Nat.le_of_not_lt hl)]
            rfl
        · rw [if_neg (fun h => hjm h.1), h2 j]
          have : (j < m + 1 ∧ is_center.getD (cluster.getD j 0) 0 ≠ 0) ↔
              (j < m ∧ is_center.getD (cluster.getD j 0) 0 ≠ 0) := by
            apply lt_succ_and_iff_of_not
            intro hx _
            exact absurd hx.symm hjm
          simp only [this])
  exact key.2 j

theorem length_step4 (n : Nat) (adj : Adj) (cluster is_center : List Nat) :
    (step4 n adj cluster is_center).length = adj.length := by
  unfold step4
  apply foldl_inv (fun a => a.length = adj.length) _ _ adj rfl
  intro b a _ hb
  dsimp only
  split
  · exact hb
  · rw [List.length_set]; exact hb

theorem getE_step4 (n : Nat) (adj : Adj) (cluster is_center : List Nat) (j k : Nat) :
    getE (step4 n adj cluster is_center) j k =
      if j < n ∧ is_center.getD (cluster.getD j 0) 0 ≠ 0
      then cleanRecord cluster j (getE adj j k) else getE adj j k := by
  unfold getE
  rw [step4_getD]
  split
  · by_cases hk : k < (adj.getD j []).length
    · rw [List.getD_eq_getElem _ _ (by rw [List.length_map]; exact hk),
        List.getD_eq_getElem _ _ hk, List.getElem_map]
    · rw [getD_of_le _ _ _ (by rw [List.length_map]; exact Nat.le_of_not_lt hk),
        getD_of_le _ _ _ (Nat.le_of_not_lt hk), cleanRecord_default]
  · rfl

theorem cleanRecord_fields (cluster : List Nat) (j : Nat) (e : edge) :
    (cleanRecord cluster j e).v = e.v ∧ (cleanRecord cluster j e).w = e.w ∧
      (cleanRecord cluster j e).oi = e.oi := by
  unfold cleanRecord
  split
  · exact ⟨rfl, rfl, rfl⟩
  · split
    · exact ⟨rfl, rfl, rfl⟩
    · exact ⟨rfl, rfl, rfl⟩

theorem cleanRecord_s (cluster : List Nat) (j : Nat) (e : edge) :
    (cleanRecord cluster j e).s =
      if cluster.getD e.v 0 = cluster.getD j 0 ∧ e.s < 2 then 0 else e.s := by
  unfold cleanRecord
  by_cases c1 : cluster.getD e.v 0 ≠ cluster.getD j 0
  · rw [if_pos c1, if_neg (fun h => c1 h.1)]
  · rw [if_neg c1]
    by_cases c2 : e.s < 2
    · rw [if_pos c2, if_pos ⟨not_not.mp c1, c2⟩]
    · rw [if_neg c2, if_neg (fun h => c2 h.2)]

theorem step4_sameSkel (n : Nat) (adj : Adj) (cluster is_center : List Nat) :
    SameSkel (step4 n adj cluster is_center) adj := by
  refine ⟨length_step4 n adj cluster is_center, fun j => ?_, fun j k => ?_⟩
  · rw [step4_getD]
    split
    · rw [List.length_map]
    · rfl
  · rw [getE_step4]
    split
    · exact cleanRecord_fields cluster j (getE adj j k)
    · exact ⟨rfl, rfl, rfl⟩

theorem step4_s (n : Nat) (adj : Adj) (cluster is_center : List Nat) (j k : Nat) :
    (getE (step4 n adj cluster is_center) j k).s =
      if (j < n ∧ is_center.getD (cluster.getD j 0) 0 ≠ 0) ∧
          cluster.getD (getE adj j k).v 0 = cluster.getD j 0 ∧ (getE adj j k).s < 2
      then 0 else (getE adj j k).s := by
  rw [getE_step4]
  by_cases c : j < n ∧ is_center.getD (cluster.getD j 0) 0 ≠ 0
  · rw [if_pos c, cleanRecord_s]
    by_cases c2 : cluster.getD (getE adj j k).v 0 = cluster.getD j 0 ∧ (getE adj j k).s < 2
    · rw [if_pos c2, if_pos ⟨c, c2⟩]
    · rw [if_neg c2, if_neg (fun h => c2 h.2)]
  · rw [if_neg c, if_neg (fun h => c h.1)]

/-! ## Connectivity through spanner records -/

theorem spConn_trans {adj : Adj} {a b c : Nat} (h1 : SpConn adj a b) (h2 : SpConn adj b c) :
    SpConn adj a c := by
  induction h1 with
  | refl u => exact h2
  | step hb hs _ ih => exact SpConn.step hb hs (ih h2)

theorem spConn_edge {adj : Adj} {u k : Nat} (hb : InB adj u k) (hs : (getE adj u k).s = 2) :
    SpConn adj u (getE adj u k).v :=
  SpConn.step hb hs (SpConn.refl _)

theorem spConn_symm {adj : Adj} (hM : Mirror adj) {a b : Nat} (h : SpConn adj a b) :
    SpConn adj b a := by
  induction h with
  | refl u => exact SpConn.refl u
  | @step u k w hb hs _ ih =>
    obtain ⟨_, m2, m3⟩ := hM u k hb
    have hs2 : (getE adj (getE adj u k).v (getE adj u k).oi).s = 2 := by rw [m3]; exact hs
    have hv : (getE adj (getE adj u k).v (getE adj u k).oi).v = u := by rw [m3]
    have hback : SpConn adj (getE adj u k).v u := by
      have := spConn_edge m2 hs2
      rw [hv] at this
      exact this
    exact spConn_trans ih hback

/-- Spanner connectivity survives every change of the store that keeps the skeleton and the
records of status 2. -/
theorem spConn_mono {a b : Adj} (hS : SameSkel b a)
    (hs : ∀ j k, InB a j k → (getE a j k).s = 2 → (getE b j k).s = 2) {u w : Nat}
    (h : SpConn a u w) : SpConn b u w := by
  induction h with
  | refl u => exact SpConn.refl u
  | @step u k w hb hs2 _ ih =>
    have h1 : InB b u k := (sameSkel_inB hS u k).mpr hb
    have h2 := hs u k hb hs2
    have h3 : (getE b u k).v = (getE a u k).v := (hS.2.2 u k).1
    have := SpConn.step h1 h2 (h3 ▸ ih)
    exact this

/-! ## Description of one round -/

theorem round_eq (draws : Nat → Bool) (n : Nat) (st : State) :
    round draws n st =
      { adj := step4 n (applyLists st.adj (rFound draws n st).1 (rFound draws n st).2.1)
          (applyChange st.cluster (rFound draws n st).2.2) (rIsc draws n st)
        cluster := applyChange st.cluster (rFound draws n st).2.2
        ivd := (rOrphan draws n st).2.2
        centers := refresh n (rIsc draws n st)
        pos := st.pos + st.centers.length } := by
  unfold round rFound rOrphan rMin rIsc
  simp only [sampleLoop_pos]

theorem round_ivd (draws : Nat → Bool) (n : Nat) (st : State) (j : Nat) :
    (round draws n st).ivd.getD j 0 =
      if j < n ∧ Orph draws n st j then 0 else st.ivd.getD j 0 := by
  rw [round_eq]
  exact (orphanLoop_spec n st.adj st.cluster st.ivd (rIsc draws n st) (rMin draws n st)
    (centerIdx n st.centers).1 (centerIdx n st.centers).2).2.2.2 j

theorem round_ivd_length (draws : Nat → Bool) (n : Nat) (st : State) :
    (round draws n st).ivd.length = st.ivd.length := by
  rw [round_eq]
  exact (orphanLoop_spec n st.adj st.cluster st.ivd (rIsc draws n st) (rMin draws n st)
    (centerIdx n st.centers).1 (centerIdx n st.centers).2).2.2.1

theorem isFound_orphan_ivd (draws : Nat → Bool) (n : Nat) (st : State) (j mi : Nat) :
    IsFound st.cluster (rOrphan draws n st).2.2 (rIsc draws n st) (rMin draws n st) j mi ↔
      Fnd draws n st j mi := by
  have h : (rOrphan draws n st).2.2.getD j 0 =
      if j < n ∧ Orph draws n st j then 0 else st.ivd.getD j 0 :=
    (orphanLoop_spec n st.adj st.cluster st.ivd (rIsc draws n st) (rMin draws n st)
      (centerIdx n st.centers).1 (centerIdx n st.centers).2).2.2.2 j
  unfold Fnd IsFound
  constructor
  · rintro ⟨a, b, c⟩
    refine ⟨?_, b, c⟩
    rw [h] at a
    by_cases hc : j < n ∧ Orph draws n st j
    · rw [if_pos hc] at a; exact absurd rfl a
    · rw [if_neg hc] at a; exact a
  · rintro ⟨a, b, c⟩
    refine ⟨?_, b, c⟩
    rw [h, if_neg]
    · exact a
    · rintro ⟨_, ho⟩
      have := ho.2.2
      rw [c] at this
      simp at this

theorem mem_round_add (draws : Nat → Bool) (n : Nat) (st : State) (x : Nat × Nat) :
    x ∈ (rFound draws n st).1 ↔
      x.1 < n ∧ ((Orph draws n st x.1 ∧ ∃ ci, MinEd n st x.1 ci x.2) ∨
        ∃ mi, Fnd draws n st x.1 mi ∧ (x.2 = mi ∨
          ((getE st.adj x.1 x.2).w < (getE st.adj x.1 mi).w ∧ ∃ ci, MinEd n st x.1 ci x.2))) := by
  unfold rFound
  rw [(foundLoop_spec _ _ _ _ _ _ _ _ _ _).1 x]
  simp only [isFound_orphan_ivd]
  have ho : x ∈ (rOrphan draws n st).1 ↔ _ :=
    (orphanLoop_spec n st.adj st.cluster st.ivd (rIsc draws n st) (rMin draws n st)
      (centerIdx n st.centers).1 (centerIdx n st.centers).2).1 x
  rw [ho]
  unfold Orph MinEd
  constructor
  · rintro (⟨a, b⟩ | ⟨a, b⟩)
    · exact ⟨a, Or.inl b⟩
    · exact ⟨a, Or.inr b⟩
  · rintro ⟨a, b | b⟩
    · exact Or.inl ⟨a, b⟩
    · exact Or.inr ⟨a, b⟩

theorem mem_round_rem (draws : Nat → Bool) (n : Nat) (st : State) (x : Nat × Nat) :
    x ∈ (rFound draws n st).2.1 ↔
      x.1 < n ∧ ((Orph draws n st x.1 ∧ InB st.adj x.1 x.2 ∧ (getE st.adj x.1 x.2).s = 1) ∨
        ∃ mi, Fnd draws n st x.1 mi ∧
          ((InB st.adj x.1 x.2 ∧ (getE st.adj x.1 x.2).s = 1 ∧
              st.cluster.getD (getE st.adj x.1 x.2).v 0 =
                st.cluster.getD (getE st.adj x.1 mi).v 0) ∨
            ∃ ci, Cand n st x.1 x.2 ci ∧ ci < (centerIdx n st.centers).2 ∧
              ∃ k, Cand n st x.1 k ci ∧ (getE st.adj x.1 k).w < (getE st.adj x.1 mi).w ∧
                some ci ≠ (centerIdx n st.centers).1.getD
                  (st.cluster.getD (getE st.adj x.1 mi).v 0) none)) := by
  unfold rFound
  rw [(foundLoop_spec _ _ _ _ _ _ _ _ _ _).2.1 x]
  simp only [isFound_orphan_ivd]
  have ho : x ∈ (rOrphan draws n st).2.1 ↔ _ :=
    (orphanLoop_spec n st.adj st.cluster st.ivd (rIsc draws n st) (rMin draws n st)
      (centerIdx n st.centers).1 (centerIdx n st.centers).2).2.1 x
  rw [ho]
  unfold Orph Cand
  constructor
  · rintro (⟨a, b⟩ | ⟨a, b⟩)
    · exact ⟨a, Or.inl b⟩
    · exact ⟨a, Or.inr b⟩
  · rintro ⟨a, b | b⟩
    · exact Or.inl ⟨a, b⟩
    · exact Or.inr ⟨a, b⟩

theorem mem_round_change (draws : Nat → Bool) (n : Nat) (st : State) (x : Nat × Nat) :
    x ∈ (rFound draws n st).2.2 ↔
      x.1 < n ∧ ∃ mi, Fnd draws n st x.1 mi ∧
        x.2 = st.cluster.getD (getE st.adj x.1 mi).v 0 := by
  unfold rFound
  rw [(foundLoop_spec _ _ _ _ _ _ _ _ _ _).2.2 x]
  simp only [isFound_orphan_ivd]

theorem fnd_unique {draws : Nat → Bool} {n : Nat} {st : State} {j a b : Nat}
    (ha : Fnd draws n st j a) (hb : Fnd draws n st j b) : a = b := by
  have h1 := ha.2.2
  have h2 := hb.2.2
  rw [h1] at h2
  exact Option.some.inj h2

theorem fnd_not_orph {draws : Nat → Bool} {n : Nat} {st : State} {j a : Nat}
    (ha : Fnd draws n st j a) : ¬ Orph draws n st j := by
  intro ho
  have h1 := ha.2.2
  rw [ho.2.2] at h1
  simp at h1

/-- The cluster of `j` after the round: the cluster of the far endpoint of the found edge. -/
theorem round_cluster_found (draws : Nat → Bool) (n : Nat) (st : State) (j mi : Nat)
    (hj : j < n) (hl : st.cluster.length = n) (hf : Fnd draws n st j mi) :
    (round draws n st).cluster.getD j 0 = st.cluster.getD (getE st.adj j mi).v 0 := by
  rw [round_eq]
  apply applyChange_mem
  · rw [hl]; exact hj
  · exact ⟨(j, st.cluster.getD (getE st.adj j mi).v 0),
      (mem_round_change draws n st _).mpr ⟨hj, mi, hf, rfl⟩, rfl⟩
  · intro p hp hpj
    obtain ⟨_, mi2, h2, h3⟩ := (mem_round_change draws n st p).mp hp
    rw [hpj] at h2 h3
    rw [h3, fnd_unique h2 hf]

theorem round_cluster_other (draws : Nat → Bool) (n : Nat) (st : State) (j : Nat)
    (hf : ∀ mi, ¬ Fnd draws n st j mi) :
    (round draws n st).cluster.getD j 0 = st.cluster.getD j 0 := by
  rw [round_eq]
  apply applyChange_not_mem
  intro p hp hpj
  obtain ⟨_, mi2, h2, _⟩ := (mem_round_change draws n st p).mp hp
  rw [hpj] at h2
  exact hf mi2 h2

theorem round_cluster_length (draws : Nat → Bool) (n : Nat) (st : State) :
    (round draws n st).cluster.length = st.cluster.length := by
  rw [round_eq]
  exact length_applyChange _ _

theorem mem_round_centers (draws : Nat → Bool) (n : Nat) (st : State) (c : Nat) :
    c ∈ (round draws n st).centers ↔ c < n ∧ (rIsc draws n st).getD c 0 ≠ 0 := by
  rw [round_eq]
  exact mem_refresh n _ c

/-- What step 2 found for a vertex in the found branch. -/
theorem fnd_spec {draws : Nat → Bool} {n : Nat} {st : State} {j mi : Nat} (hj : j < n)
    (hf : Fnd draws n st j mi) :
    InB st.adj j mi ∧ Eligible st.adj st.cluster (rIsc draws n st) j mi ∧
      ∀ k, InB st.adj j k → Eligible st.adj st.cluster (rIsc draws n st) j k →
        (getE st.adj j mi).w ≤ (getE st.adj j k).w := by
  have h := hf.2.2
  unfold rMin at h
  rw [step2_getD, if_pos ⟨hj, hf.1, hf.2.1⟩] at h
  obtain ⟨a, b, _, d⟩ := (nearestLoop_spec st.adj st.cluster (rIsc draws n st) j).2 mi h
  exact ⟨a, b, d⟩

/-! ## The store after one round -/

theorem inv_v_lt {n : Nat} {st : State} (hI : Inv n st) {j k : Nat} (hb : InB st.adj j k) :
    (getE st.adj j k).v < n := by
  have h := (hI.mirror j k hb).2.1
  have := inB_lt_length h
  rw [hI.len_adj] at this
  exact this

theorem inv_lt {n : Nat} {st : State} (hI : Inv n st) {j k : Nat} (hb : InB st.adj j k) :
    j < n := by
  have := inB_lt_length hb
  rw [hI.len_adj] at this
  exact this

theorem minEd_cand {n : Nat} {st : State} {j ci x : Nat} (h : MinEd n st j ci x) :
    Cand n st j x ci ∧ ∀ k, Cand n st j k ci → (getE st.adj j x).w ≤ (getE st.adj j k).w :=
  (minEdOf_some _ _ _ _ _ _ _ h.2).2

theorem cand_minEd {n : Nat} {st : State} {j ci k : Nat} (hci : ci < (centerIdx n st.centers).2)
    (h : Cand n st j k ci) : ∃ x, MinEd n st j ci x := by
  obtain ⟨x, hx⟩ := minEdOf_exists _ _ _ _ _ _ _ hci h
  exact ⟨x, hci, hx⟩

theorem round_add_inB (draws : Nat → Bool) {n : Nat} {st : State} :
    ∀ x ∈ (rFound draws n st).1, InB st.adj x.1 x.2 := by
  intro x hx
  obtain ⟨hn, h | ⟨mi, hf, h⟩⟩ := (mem_round_add draws n st x).mp hx
  · obtain ⟨_, ci, hm⟩ := h
    exact (minEd_cand hm).1.1
  · rcases h with h | ⟨_, ci, hm⟩
    · rw [h]
      exact (fnd_spec hn hf).1
    · exact (minEd_cand hm).1.1

theorem round_rem_inB (draws : Nat → Bool) {n : Nat} {st : State} :
    ∀ x ∈ (rFound draws n st).2.1, InB st.adj x.1 x.2 := by
  intro x hx
  obtain ⟨hn, h | ⟨mi, hf, h⟩⟩ := (mem_round_rem draws n st x).mp hx
  · exact h.2.1
  · rcases h with h | ⟨ci, hc, _⟩
    · exact h.1
    · exact hc.1

theorem round_mid_spec (draws : Nat → Bool) {n : Nat} {st : State} (hI : Inv n st) :
    SameSkel (applyLists st.adj (rFound draws n st).1 (rFound draws n st).2.1) st.adj ∧
    Mirror (applyLists st.adj (rFound draws n st).1 (rFound draws n st).2.1) ∧
    ∀ q : Nat × Nat, InB st.adj q.1 q.2 →
      (getE (applyLists st.adj (rFound draws n st).1 (rFound draws n st).2.1) q.1 q.2).s =
        midS draws n st q :=
  applyLists_spec st.adj _ _ hI.mirror (round_add_inB draws) (round_rem_inB draws)

theorem round_sameSkel (draws : Nat → Bool) {n : Nat} {st : State} (hI : Inv n st) :
    SameSkel (round draws n st).adj st.adj := by
  rw [round_eq]
  exact sameSkel_trans (step4_sameSkel _ _ _ _) (round_mid_spec draws hI).1

/-- The status of a record after the round. -/
theorem round_s (draws : Nat → Bool) {n : Nat} {st : State} (hI : Inv n st) (q : Nat × Nat)
    (hb : InB st.adj q.1 q.2) :
    (getE (round draws n st).adj q.1 q.2).s =
      if (round draws n st).cluster.getD (getE st.adj q.1 q.2).v 0 =
            (round draws n st).cluster.getD q.1 0 ∧
          (rIsc draws n st).getD ((round draws n st).cluster.getD q.1 0) 0 ≠ 0 ∧
          midS draws n st q < 2
      then 0 else midS draws n st q := by
  obtain ⟨m1, _, m3⟩ := round_mid_spec draws hI
  have hn := inv_lt hI hb
  have hcl : (round draws n st).cluster = applyChange st.cluster (rFound draws n st).2.2 := by
    rw [round_eq]
  have hadj : (round draws n st).adj =
      step4 n (applyLists st.adj (rFound draws n st).1 (rFound draws n st).2.1)
        (applyChange st.cluster (rFound draws n st).2.2) (rIsc draws n st) := by
    rw [round_eq]
  rw [hadj, step4_s, m3 q hb, (m1.2.2 q.1 q.2).1, hcl]
  by_cases c : (applyChange st.cluster (rFound draws n st).2.2).getD (getE st.adj q.1 q.2).v 0 =
            (applyChange st.cluster (rFound draws n st).2.2).getD q.1 0 ∧
          (rIsc draws n st).getD ((applyChange st.cluster (rFound draws n st).2.2).getD q.1 0) 0
            ≠ 0 ∧
          midS draws n st q < 2
  · rw [if_pos c, if_pos ⟨⟨hn, c.2.1⟩, c.1, c.2.2⟩]
  · rw [if_neg c, if_neg]
    rintro ⟨⟨_, a⟩, b, d⟩
    exact c ⟨b, a, d⟩

theorem midS_mir (draws : Nat → Bool) {n : Nat} {st : State} (hI : Inv n st) (q : Nat × Nat)
    (hb : InB st.adj q.1 q.2) : midS draws n st (mir st.adj q) = midS draws n st q := by
  obtain ⟨m1, m2, m3⟩ := round_mid_spec draws hI
  have hmb := mirror_inB hI.mirror hb
  rw [← m3 q hb, ← m3 _ hmb]
  have h := mirror_mir_s m2 ((sameSkel_inB m1 _ _).mpr hb)
  rw [sameSkel_mir m1] at h
  exact h

theorem midS_cases (draws : Nat → Bool) (n : Nat) (st : State) (q : Nat × Nat) :
    midS draws n st q = 2 ∨ midS draws n st q = 0 ∨
      (midS draws n st q = (getE st.adj q.1 q.2).s ∧ (getE st.adj q.1 q.2).s ≠ 2 ∧
        q ∉ (rFound draws n st).1 ∧ mir st.adj q ∉ (rFound draws n st).1 ∧
        q ∉ (rFound draws n st).2.1 ∧ mir st.adj q ∉ (rFound draws n st).2.1) := by
  unfold midS
  by_cases c1 : (getE st.adj q.1 q.2).s = 2 ∨ q ∈ (rFound draws n st).1 ∨
      mir st.adj q ∈ (rFound draws n st).1
  · rw [if_pos c1]; exact Or.inl rfl
  · rw [if_neg c1]
    by_cases c2 : q ∈ (rFound draws n st).2.1 ∨ mir st.adj q ∈ (rFound draws n st).2.1
    · rw [if_pos c2]; exact Or.inr (Or.inl rfl)
    · rw [if_neg c2]
      refine Or.inr (Or.inr ⟨rfl, ?_, ?_, ?_, ?_, ?_⟩)
      · exact fun h => c1 (Or.inl h)
      · exact fun h => c1 (Or.inr (Or.inl h))
      · exact fun h => c1 (Or.inr (Or.inr h))
      · exact fun h => c2 (Or.inl h)
      · exact fun h => c2 (Or.inr h)

theorem midS_of_two (draws : Nat → Bool) (n : Nat) (st : State) (q : Nat × Nat)
    (h : (getE st.adj q.1 q.2).s = 2) : midS draws n st q = 2 := by
  unfold midS
  rw [if_pos (Or.inl h)]

theorem midS_of_add (draws : Nat → Bool) (n : Nat) (st : State) (q : Nat × Nat)
    (h : q ∈ (rFound draws n st).1) : midS draws n st q = 2 := by
  unfold midS
  rw [if_pos (Or.inr (Or.inl h))]

/-- A record in the spanner before the round is in the spanner after it. -/
theorem round_s_two (draws : Nat → Bool) {n : Nat} {st : State} (hI : Inv n st) (q : Nat × Nat)
    (hb : InB st.adj q.1 q.2) (h : midS draws n st q = 2) :
    (getE (round draws n st).adj q.1 q.2).s = 2 := by
  rw [round_s draws hI q hb, if_neg, h]
  rintro ⟨_, _, c⟩
  rw [h] at c
  exact absurd c (by decide)

theorem round_mirror (draws : Nat → Bool) {n : Nat} {st : State} (hI : Inv n st) :
    Mirror (round draws n st).adj := by
  apply mirror_of_sameSkel hI.mirror (round_sameSkel draws hI)
  intro q hb
  have hmb := mirror_inB hI.mirror hb
  obtain ⟨_, _, k3⟩ := hI.mirror q.1 q.2 hb
  have hv : (getE st.adj (mir st.adj q).1 (mir st.adj q).2).v = q.1 := by
    unfold mir
    dsimp only
    rw [k3]
  rw [round_s draws hI _ hmb, round_s draws hI q hb, midS_mir draws hI q hb, hv]
  have h1 : (mir st.adj q).1 = (getE st.adj q.1 q.2).v := rfl
  rw [h1]
  have hiff : ((round draws n st).cluster.getD q.1 0 =
        (round draws n st).cluster.getD (getE st.adj q.1 q.2).v 0 ∧
      (rIsc draws n st).getD ((round draws n st).cluster.getD (getE st.adj q.1 q.2).v 0) 0 ≠ 0 ∧
      midS draws n st q < 2) ↔
      ((round draws n st).cluster.getD (getE st.adj q.1 q.2).v 0 =
        (round draws n st).cluster.getD q.1 0 ∧
      (rIsc draws n st).getD ((round draws n st).cluster.getD q.1 0) 0 ≠ 0 ∧
      midS draws n st q < 2) := by
    constructor
    · rintro ⟨a, b, c⟩
      exact ⟨a.symm, a ▸ b, c⟩
    · rintro ⟨a, b, c⟩
      exact ⟨a.symm, a ▸ b, c⟩
  simp only [hiff]

theorem round_status_le (draws : Nat → Bool) {n : Nat} {st : State} (hI : Inv n st)
    (j k : Nat) (hb : InB (round draws n st).adj j k) :
    (getE (round draws n st).adj j k).s ≤ 2 := by
  have hb0 : InB st.adj j k := (sameSkel_inB (round_sameSkel draws hI) j k).mp hb
  have h := round_s draws hI (j, k) hb0
  dsimp only at h
  rw [h]
  have hle := hI.status_le j k hb0
  split
  · omega
  · rcases midS_cases draws n st (j, k) with a | a | ⟨a, _⟩
    · rw [a]
    · rw [a]; omega
    · rw [a]; exact hle

/-! ## Preservation of the invariant by one round -/

theorem isc_mem (draws : Nat → Bool) {n : Nat} {st : State} (hI : Inv n st) {c : Nat}
    (h : (rIsc draws n st).getD c 0 ≠ 0) : c < n ∧ c ∈ st.centers := by
  by_cases hn : 0 < n
  · exact step1_mem draws n st.centers st.pos c (hI.centers_ne hn) h
  · exfalso
    apply h
    unfold rIsc
    apply getD_of_le
    rw [step1_length]
    omega

theorem not_orph_of_isc (draws : Nat → Bool) {n : Nat} {st : State} {j : Nat}
    (h : (rIsc draws n st).getD (st.cluster.getD j 0) 0 ≠ 0) : ¬ Orph draws n st j :=
  fun ho => h ho.2.1

theorem not_fnd_of_isc (draws : Nat → Bool) {n : Nat} {st : State} {j : Nat}
    (h : (rIsc draws n st).getD (st.cluster.getD j 0) 0 ≠ 0) (mi : Nat) :
    ¬ Fnd draws n st j mi :=
  fun ho => h ho.2.1

/-- A vertex that is active and whose cluster does not survive is orphaned or finds an edge. -/
theorem orph_or_fnd (draws : Nat → Bool) (n : Nat) (st : State) (j : Nat)
    (ha : st.ivd.getD j 0 ≠ 0) (hc : (rIsc draws n st).getD (st.cluster.getD j 0) 0 = 0) :
    Orph draws n st j ∨ ∃ mi, Fnd draws n st j mi := by
  cases hm : (rMin draws n st).getD j none with
  | none => exact Or.inl ⟨ha, hc, hm⟩
  | some mi => exact Or.inr ⟨mi, ha, hc, hm⟩

theorem round_centers_ok (draws : Nat → Bool) {n : Nat} {st : State} (hI : Inv n st) :
    ∀ c ∈ (round draws n st).centers,
      c < n ∧ (round draws n st).ivd.getD c 0 = 1 ∧ (round draws n st).cluster.getD c 0 = c := by
  intro c hc
  obtain ⟨hn, hisc⟩ := (mem_round_centers draws n st c).mp hc
  obtain ⟨_, hmem⟩ := isc_mem draws hI hisc
  obtain ⟨_, h2, h3⟩ := hI.centers_ok c hmem
  have hisc2 : (rIsc draws n st).getD (st.cluster.getD c 0) 0 ≠ 0 := by rw [h3]; exact hisc
  refine ⟨hn, ?_, ?_⟩
  · rw [round_ivd, if_neg (fun h => not_orph_of_isc draws hisc2 h.2)]
    exact h2
  · rw [round_cluster_other draws n st c (not_fnd_of_isc draws hisc2)]
    exact h3

theorem round_centers_ne (draws : Nat → Bool) {n : Nat} {st : State} (hI : Inv n st)
    (hn : 0 < n) : (round draws n st).centers ≠ [] := by
  obtain ⟨c, hc, h1⟩ := step1_exists draws n st.centers st.pos (hI.centers_ne hn)
    (fun c hc => (hI.centers_ok c hc).1)
  have hmem : c ∈ (round draws n st).centers := by
    rw [mem_round_centers]
    refine ⟨(hI.centers_ok c hc).1, ?_⟩
    unfold rIsc
    rw [h1]
    decide
  exact List.ne_nil_of_mem hmem

theorem round_active_cluster (draws : Nat → Bool) {n : Nat} {st : State} (hI : Inv n st) :
    ∀ v, v < n → (round draws n st).ivd.getD v 0 ≠ 0 →
      (round draws n st).cluster.getD v 0 ∈ (round draws n st).centers := by
  intro v hv ha
  rw [round_ivd] at ha
  by_cases ho : v < n ∧ Orph draws n st v
  · rw [if_pos ho] at ha
    exact absurd rfl ha
  · rw [if_neg ho] at ha
    by_cases hc : (rIsc draws n st).getD (st.cluster.getD v 0) 0 = 0
    · rcases orph_or_fnd draws n st v ha hc with h | ⟨mi, hf⟩
      · exact absurd ⟨hv, h⟩ ho
      · rw [round_cluster_found draws n st v mi hv hI.len_cluster hf, mem_round_centers]
        obtain ⟨_, he, _⟩ := fnd_spec hv hf
        exact ⟨(isc_mem draws hI he.2).1, he.2⟩
    · rw [round_cluster_other draws n st v (not_fnd_of_isc draws hc), mem_round_centers]
      exact ⟨(isc_mem draws hI hc).1, hc⟩

theorem round_cand_active (draws : Nat → Bool) {n : Nat} {st : State} (hI : Inv n st) :
    ∀ j k, InB (round draws n st).adj j k → (getE (round draws n st).adj j k).s = 1 →
      (round draws n st).ivd.getD j 0 ≠ 0 := by
  intro j k hb hs
  have hb0 : InB st.adj j k := (sameSkel_inB (round_sameSkel draws hI) j k).mp hb
  have hn := inv_lt hI hb0
  have h := round_s draws hI (j, k) hb0
  dsimp only at h
  rw [h] at hs
  have hmid : midS draws n st (j, k) = 1 := by
    split at hs
    · exact absurd hs (by decide)
    · exact hs
  rcases midS_cases draws n st (j, k) with a | a | ⟨a, _, _, _, a5, _⟩
  · rw [a] at hmid; exact absurd hmid (by decide)
  · rw [a] at hmid; exact absurd hmid (by decide)
  · rw [a] at hmid
    dsimp only at hmid
    have hact := hI.cand_active j k hb0 hmid
    rw [round_ivd, if_neg]
    · exact hact
    · rintro ⟨_, ho⟩
      exact a5 ((mem_round_rem draws n st (j, k)).mpr ⟨hn, Or.inl ⟨ho, hb0, hmid⟩⟩)

theorem round_spConn_mono (draws : Nat → Bool) {n : Nat} {st : State} (hI : Inv n st)
    {u w : Nat} (h : SpConn st.adj u w) : SpConn (round draws n st).adj u w := by
  apply spConn_mono (round_sameSkel draws hI) _ h
  intro j k hb hs
  exact round_s_two draws hI (j, k) hb (midS_of_two draws n st (j, k) hs)

/-- A record put in `to_add` joins its two endpoints in the spanner after the round. -/
theorem round_add_conn (draws : Nat → Bool) {n : Nat} {st : State} (hI : Inv n st)
    {x : Nat × Nat} (hx : x ∈ (rFound draws n st).1) :
    SpConn (round draws n st).adj x.1 (getE st.adj x.1 x.2).v := by
  have hb := round_add_inB draws x hx
  have hs := round_s_two draws hI x hb (midS_of_add draws n st x hx)
  have hS := round_sameSkel draws hI
  have h := spConn_edge ((sameSkel_inB hS _ _).mpr hb) hs
  rw [(hS.2.2 x.1 x.2).1] at h
  exact h

theorem round_conn_center (draws : Nat → Bool) {n : Nat} {st : State} (hI : Inv n st) :
    ∀ v, v < n → SpConn (round draws n st).adj v ((round draws n st).cluster.getD v 0) := by
  intro v hv
  by_cases hf : ∃ mi, Fnd draws n st v mi
  · obtain ⟨mi, hf⟩ := hf
    rw [round_cluster_found draws n st v mi hv hI.len_cluster hf]
    have hadd : (v, mi) ∈ (rFound draws n st).1 :=
      (mem_round_add draws n st (v, mi)).mpr ⟨hv, Or.inr ⟨mi, hf, Or.inl rfl⟩⟩
    have h1 := round_add_conn draws hI hadd
    dsimp only at h1
    have hx : (getE st.adj v mi).v < n := inv_v_lt hI (fnd_spec hv hf).1
    exact spConn_trans h1 (round_spConn_mono draws hI (hI.conn_center _ hx))
  · rw [round_cluster_other draws n st v (fun mi h => hf ⟨mi, h⟩)]
    exact round_spConn_mono draws hI (hI.conn_center v hv)

/-- In a state satisfying the invariant, a Candidate edge leads into a cluster of the
active-center list. -/
theorem cand_of_candidate {n : Nat} {st : State} (hI : Inv n st) {j k : Nat}
    (hb : InB st.adj j k) (hs : (getE st.adj j k).s = 1) :
    ∃ ci, Cand n st j k ci ∧ ci < (centerIdx n st.centers).2 := by
  obtain ⟨_, m2, m3⟩ := hI.mirror j k hb
  have hms : (getE st.adj (getE st.adj j k).v (getE st.adj j k).oi).s = 1 := by
    rw [m3]; exact hs
  have hact := hI.cand_active _ _ m2 hms
  have hvn := inv_v_lt hI hb
  have hc := hI.active_cluster _ hvn hact
  obtain ⟨ci, hci⟩ := centerIdx_mem n st.centers _ hc (hI.centers_ok _ hc).1
  exact ⟨ci, ⟨hb, hs, hci⟩, (centerIdx_some n st.centers _ ci hci).1⟩

/-- The far endpoints of two Candidate edges into the same cluster index are joined in the
spanner. -/
theorem cand_same_conn {n : Nat} {st : State} (hI : Inv n st) {j k x ci : Nat}
    (hk : Cand n st j k ci) (hx : Cand n st j x ci) :
    SpConn st.adj (getE st.adj j x).v (getE st.adj j k).v := by
  have he : st.cluster.getD (getE st.adj j x).v 0 = st.cluster.getD (getE st.adj j k).v 0 :=
    centerIdx_inj n st.centers _ _ ci hx.2.2 hk.2.2
  have h1 := hI.conn_center _ (inv_v_lt hI hx.1)
  have h2 := hI.conn_center _ (inv_v_lt hI hk.1)
  rw [he] at h1
  exact spConn_trans h1 (spConn_symm hI.mirror h2)

/-- A Candidate record put in `to_rem` has its endpoints joined in the spanner after the
round. -/
theorem round_rem_conn (draws : Nat → Bool) {n : Nat} {st : State} (hI : Inv n st)
    {x : Nat × Nat} (hx : x ∈ (rFound draws n st).2.1) (hs : (getE st.adj x.1 x.2).s = 1) :
    SpConn (round draws n st).adj x.1 (getE st.adj x.1 x.2).v := by
  have hb := round_rem_inB draws x hx
  obtain ⟨hn, h | ⟨mi, hf, h⟩⟩ := (mem_round_rem draws n st x).mp hx
  · obtain ⟨ho, _, _⟩ := h
    obtain ⟨ci, hc, hci⟩ := cand_of_candidate hI hb hs
    obtain ⟨y, hy⟩ := cand_minEd hci hc
    have hadd : (x.1, y) ∈ (rFound draws n st).1 :=
      (mem_round_add draws n st (x.1, y)).mpr ⟨hn, Or.inl ⟨ho, ci, hy⟩⟩
    have h1 := round_add_conn draws hI hadd
    dsimp only at h1
    exact spConn_trans h1 (round_spConn_mono draws hI (cand_same_conn hI hc (minEd_cand hy).1))
  · have haddmi : (x.1, mi) ∈ (rFound draws n st).1 :=
      (mem_round_add draws n st (x.1, mi)).mpr ⟨hn, Or.inr ⟨mi, hf, Or.inl rfl⟩⟩
    rcases h with ⟨_, _, hcl⟩ | ⟨ci, hc, hci, k, hk, hw, _⟩
    · have h1 := round_add_conn draws hI haddmi
      dsimp only at h1
      have h2 := hI.conn_center _ (inv_v_lt hI (fnd_spec hn hf).1)
      have h3 := hI.conn_center _ (inv_v_lt hI hb)
      rw [← hcl] at h2
      exact spConn_trans h1
        (round_spConn_mono draws hI (spConn_trans h2 (spConn_symm hI.mirror h3)))
    · obtain ⟨y, hy⟩ := cand_minEd hci hc
      have hwy := (minEd_cand hy).2 k hk
      have hadd : (x.1, y) ∈ (rFound draws n st).1 :=
        (mem_round_add draws n st (x.1, y)).mpr
          ⟨hn, Or.inr ⟨mi, hf, Or.inr ⟨lt_of_le_of_lt hwy hw, ci, hy⟩⟩⟩
      have h1 := round_add_conn draws hI hadd
      dsimp only at h1
      exact spConn_trans h1
        (round_spConn_mono draws hI (cand_same_conn hI hc (minEd_cand hy).1))

theorem round_conn_removed (draws : Nat → Bool) {n : Nat} {st : State} (hI : Inv n st) :
    ∀ j k, InB (round draws n st).adj j k → (getE (round draws n st).adj j k).s = 0 →
      SpConn (round draws n st).adj j (getE (round draws n st).adj j k).v := by
  intro j k hb hs
  have hS := round_sameSkel draws hI
  have hb0 : InB st.adj j k := (sameSkel_inB hS j k).mp hb
  have hn := inv_lt hI hb0
  have hvn := inv_v_lt hI hb0
  rw [(hS.2.2 j k).1]
  have h := round_s draws hI (j, k) hb0
  dsimp only at h
  rw [h] at hs
  have hle := hI.status_le j k hb0
  by_cases hcl : (round draws n st).cluster.getD (getE st.adj j k).v 0 =
      (round draws n st).cluster.getD j 0
  · have h1 := round_conn_center draws hI j hn
    have h2 := round_conn_center draws hI _ hvn
    rw [hcl] at h2
    exact spConn_trans h1 (spConn_symm (round_mirror draws hI) h2)
  · rw [if_neg (fun c => hcl c.1)] at hs
    rcases midS_cases draws n st (j, k) with a | a | ⟨a, _, _, _, _, _⟩
    · rw [a] at hs; exact absurd hs (by decide)
    · have hs0 : (getE st.adj j k).s = 0 ∨ (getE st.adj j k).s = 1 ∨
          (getE st.adj j k).s = 2 := by omega
      rcases hs0 with b | b | b
      · exact round_spConn_mono draws hI (hI.conn_removed j k hb0 b)
      · unfold midS at a
        dsimp only at a
        by_cases c1 : (getE st.adj j k).s = 2 ∨ (j, k) ∈ (rFound draws n st).1 ∨
            mir st.adj (j, k) ∈ (rFound draws n st).1
        · rw [if_pos c1] at a; exact absurd a (by decide)
        · rw [if_neg c1] at a
          by_cases c2 : (j, k) ∈ (rFound draws n st).2.1 ∨
              mir st.adj (j, k) ∈ (rFound draws n st).2.1
          · rcases c2 with c2 | c2
            · exact round_rem_conn draws hI c2 b
            · obtain ⟨_, m2, m3⟩ := hI.mirror j k hb0
              have hms : (getE st.adj (mir st.adj (j, k)).1 (mir st.adj (j, k)).2).s = 1 := by
                unfold mir; dsimp only; rw [m3]; exact b
              have hmv : (getE st.adj (mir st.adj (j, k)).1 (mir st.adj (j, k)).2).v = j := by
                unfold mir; dsimp only; rw [m3]
              have h3 := round_rem_conn draws hI c2 hms
              rw [hmv] at h3
              exact spConn_symm (round_mirror draws hI) h3
          · rw [if_neg c2, b] at a
            exact absurd a (by decide)
      · rw [midS_of_two draws n st (j, k) b] at a
        exact absurd a (by decide)
    · rw [a] at hs
      exact round_spConn_mono draws hI (hI.conn_removed j k hb0 hs)

/-- One round preserves the invariant. -/
theorem round_inv (draws : Nat → Bool) {n : Nat} {st : State} (hI : Inv n st) :
    Inv n (round draws n st) where
  len_adj := by rw [(round_sameSkel draws hI).1]; exact hI.len_adj
  len_cluster := by rw [round_cluster_length]; exact hI.len_cluster
  len_ivd := by rw [round_ivd_length]; exact hI.len_ivd
  mirror := round_mirror draws hI
  status_le := round_status_le draws hI
  centers_ok := round_centers_ok draws hI
  centers_ne := round_centers_ne draws hI
  active_cluster := round_active_cluster draws hI
  cand_active := round_cand_active draws hI
  conn_center := round_conn_center draws hI
  conn_removed := round_conn_removed draws hI

/-! ## The invariant along the run -/

theorem init_inv (n : Nat) (edges : List InEdge)
    (hv : ∀ e ∈ edges, e.1 < n ∧ e.2.1 < n ∧ e.1 ≠ e.2.1) : Inv n (initState n edges) := by
  obtain ⟨b1, b2, b3⟩ := build_spec n edges hv
  have hcl : ∀ v, v < n → (List.range n).getD v 0 = v := fun v h => by
    rw [getD_range_eq, if_pos h]
  have hiv : ∀ v, v < n → (List.replicate n 1).getD v 0 = 1 := fun v h => by
    rw [getD_replicate_eq, if_pos h]
  exact {
    len_adj := b1
    len_cluster := List.length_range n
    len_ivd := List.length_replicate n 1
    mirror := b2
    status_le := fun j k hb => by
      have := b3 j k hb
      show (getE (build n edges) j k).s ≤ 2
      omega
    centers_ok := fun c hc => by
      have hc2 : c < n := List.mem_range.mp hc
      exact ⟨hc2, hiv c hc2, hcl c hc2⟩
    centers_ne := fun hn h => by
      have h1 : (List.range n).length = 0 := by
        show (initState n edges).centers.length = 0
        rw [h]; rfl
      rw [List.length_range] at h1
      omega
    active_cluster := fun v hvn _ => by
      show (List.range n).getD v 0 ∈ List.range n
      rw [hcl v hvn]
      exact List.mem_range.mpr hvn
    cand_active := fun j k hb _ => by
      have hj : j < n := by
        have := inB_lt_length hb
        rw [show (initState n edges).adj.length = n from b1] at this
        exact this
      show (List.replicate n 1).getD j 0 ≠ 0
      rw [hiv j hj]
      decide
    conn_center := fun v hvn => by
      show SpConn (build n edges) v ((List.range n).getD v 0)
      rw [hcl v hvn]
      exact SpConn.refl v
    conn_removed := fun j k hb hs => by
      have := b3 j k hb
      have hs2 : (getE (build n edges) j k).s = 0 := hs
      rw [this] at hs2
      exact absurd hs2 (by decide) }

theorem rounds_inv (draws : Nat → Bool) (n : Nat) (edges : List InEdge)
    (hv : ∀ e ∈ edges, e.1 < n ∧ e.2.1 < n ∧ e.1 ≠ e.2.1) (r : Nat) :
    Inv n (rounds draws n (initState n edges) r) := by
  induction r with
  | zero => exact init_inv n edges hv
  | succ r ih => exact round_inv draws ih

theorem rounds_sameSkel (draws : Nat → Bool) (n : Nat) (edges : List InEdge)
    (hv : ∀ e ∈ edges, e.1 < n ∧ e.2.1 < n ∧ e.1 ≠ e.2.1) (r : Nat) :
    SameSkel (rounds draws n (initState n edges) r).adj (build n edges) := by
  induction r with
  | zero => exact sameSkel_refl _
  | succ r ih => exact sameSkel_trans (round_sameSkel draws (rounds_inv draws n edges hv r)) ih

/-! ## Phase 2 -/

theorem mem_final_add (n : Nat) (st : State) (x : Nat × Nat) :
    x ∈ (finalLoop n st.adj st.cluster st.ivd (centerIdx n st.centers).1
        (centerIdx n st.centers).2).1 ↔
      x.1 < n ∧ st.ivd.getD x.1 0 ≠ 0 ∧ ∃ ci, MinEd n st x.1 ci x.2 :=
  (finalLoop_spec _ _ _ _ _ _).1 x

theorem mem_final_rem (n : Nat) (st : State) (x : Nat × Nat) :
    x ∈ (finalLoop n st.adj st.cluster st.ivd (centerIdx n st.centers).1
        (centerIdx n st.centers).2).2 ↔
      x.1 < n ∧ st.ivd.getD x.1 0 ≠ 0 ∧ ∃ ci, Cand n st x.1 x.2 ci :=
  (finalLoop_spec _ _ _ _ _ _).2 x

theorem phase2_spec {n : Nat} {st : State} (hI : Inv n st) :
    SameSkel (phase2 n st).adj st.adj ∧ Mirror (phase2 n st).adj ∧
    ∀ q : Nat × Nat, InB st.adj q.1 q.2 →
      (getE (phase2 n st).adj q.1 q.2).s =
        if (getE st.adj q.1 q.2).s = 2 ∨
            q ∈ (finalLoop n st.adj st.cluster st.ivd (centerIdx n st.centers).1
              (centerIdx n st.centers).2).1 ∨
            mir st.adj q ∈ (finalLoop n st.adj st.cluster st.ivd (centerIdx n st.centers).1
              (centerIdx n st.centers).2).1 then 2
        else if q ∈ (finalLoop n st.adj st.cluster st.ivd (centerIdx n st.centers).1
              (centerIdx n st.centers).2).2 ∨
            mir st.adj q ∈ (finalLoop n st.adj st.cluster st.ivd (centerIdx n st.centers).1
              (centerIdx n st.centers).2).2 then 0
        else (getE st.adj q.1 q.2).s := by
  apply applyLists_spec st.adj _ _ hI.mirror
  · intro x hx
    obtain ⟨_, _, ci, hm⟩ := (mem_final_add n st x).mp hx
    exact (minEd_cand hm).1.1
  · intro x hx
    obtain ⟨_, _, ci, hm⟩ := (mem_final_rem n st x).mp hx
    exact hm.1

/-- Phase 2 keeps the records that are in the spanner. -/
theorem phase2_s_two {n : Nat} {st : State} (hI : Inv n st) (q : Nat × Nat)
    (hb : InB st.adj q.1 q.2) (h : (getE st.adj q.1 q.2).s = 2) :
    (getE (phase2 n st).adj q.1 q.2).s = 2 := by
  rw [(phase2_spec hI).2.2 q hb, if_pos (Or.inl h)]

theorem phase2_s_add {n : Nat} {st : State} (hI : Inv n st) (q : Nat × Nat)
    (hq : q ∈ (finalLoop n st.adj st.cluster st.ivd (centerIdx n st.centers).1
        (centerIdx n st.centers).2).1) :
    (getE (phase2 n st).adj q.1 q.2).s = 2 := by
  have hb : InB st.adj q.1 q.2 := by
    obtain ⟨_, _, ci, hm⟩ := (mem_final_add n st q).mp hq
    exact (minEd_cand hm).1.1
  rw [(phase2_spec hI).2.2 q hb, if_pos (Or.inr (Or.inl hq))]

/-- A Candidate record is in `to_rem` of phase 2. -/
theorem candidate_mem_final_rem {n : Nat} {st : State} (hI : Inv n st) {j k : Nat}
    (hb : InB st.adj j k) (hs : (getE st.adj j k).s = 1) :
    (j, k) ∈ (finalLoop n st.adj st.cluster st.ivd (centerIdx n st.centers).1
        (centerIdx n st.centers).2).2 := by
  obtain ⟨ci, hc, _⟩ := cand_of_candidate hI hb hs
  exact (mem_final_rem n st (j, k)).mpr ⟨inv_lt hI hb, hI.cand_active j k hb hs, ci, hc⟩

/-- After phase 2 every record is removed or in the spanner. -/
theorem phase2_no_candidate {n : Nat} {st : State} (hI : Inv n st) (j k : Nat)
    (hb : InB st.adj j k) :
    (getE (phase2 n st).adj j k).s = 0 ∨ (getE (phase2 n st).adj j k).s = 2 := by
  have h := (phase2_spec hI).2.2 (j, k) hb
  dsimp only at h
  rw [h]
  have hle := hI.status_le j k hb
  split
  · exact Or.inr rfl
  · split
    · exact Or.inl rfl
    · rename_i c1 c2
      have hs0 : (getE st.adj j k).s = 0 ∨ (getE st.adj j k).s = 1 ∨
          (getE st.adj j k).s = 2 := by omega
      rcases hs0 with b | b | b
      · exact Or.inl b
      · exact absurd (Or.inl (candidate_mem_final_rem hI hb b)) c2
      · exact Or.inr b

theorem phase2_spConn_mono {n : Nat} {st : State} (hI : Inv n st) {u w : Nat}
    (h : SpConn st.adj u w) : SpConn (phase2 n st).adj u w := by
  apply spConn_mono (phase2_spec hI).1 _ h
  intro j k hb hs
  exact phase2_s_two hI (j, k) hb hs

/-- After phase 2 the two endpoints of every record are joined in the spanner. -/
theorem phase2_conn {n : Nat} {st : State} (hI : Inv n st) (j k : Nat) (hb : InB st.adj j k) :
    SpConn (phase2 n st).adj j (getE st.adj j k).v := by
  have hS := (phase2_spec hI).1
  have key : ∀ j k, InB st.adj j k → (getE st.adj j k).s = 1 →
      SpConn (phase2 n st).adj j (getE st.adj j k).v := by
    intro j k hb b
    obtain ⟨ci, hc, hci⟩ := cand_of_candidate hI hb b
    obtain ⟨y, hy⟩ := cand_minEd hci hc
    have hadd : (j, y) ∈ (finalLoop n st.adj st.cluster st.ivd (centerIdx n st.centers).1
        (centerIdx n st.centers).2).1 :=
      (mem_final_add n st (j, y)).mpr ⟨inv_lt hI hb, hI.cand_active j k hb b, ci, hy⟩
    have hyb : InB st.adj j y := (minEd_cand hy).1.1
    have h2 := phase2_s_add hI (j, y) hadd
    have h3 := spConn_edge ((sameSkel_inB hS _ _).mpr hyb) h2
    rw [(hS.2.2 j y).1] at h3
    exact spConn_trans h3 (phase2_spConn_mono hI (cand_same_conn hI hc (minEd_cand hy).1))
  have hle := hI.status_le j k hb
  have hs0 : (getE st.adj j k).s = 0 ∨ (getE st.adj j k).s = 1 ∨
      (getE st.adj j k).s = 2 := by omega
  rcases hs0 with b | b | b
  · exact phase2_spConn_mono hI (hI.conn_removed j k hb b)
  · exact key j k hb b
  · exact phase2_spConn_mono hI (spConn_edge hb b)

/-! ## The emitter -/

theorem fin_row (i : Nat) (l : List edge) (acc : List InEdge) :
    l.foldl (fun (acc1 : List InEdge) e =>
        if e.v < i then acc1 else if e.s < 2 then acc1 else acc1 ++ [(i, e.v, e.w)]) acc =
      acc ++ (l.filter (fun e => decide (¬ e.v < i ∧ ¬ e.s < 2))).map
        (fun e => (i, e.v, e.w)) := by
  induction l generalizing acc with
  | nil => simp
  | cons e es ih =>
    simp only [List.foldl_cons]
    rw [ih]
    by_cases c1 : e.v < i
    · rw [if_pos c1, List.filter_cons_of_neg (by simp [c1])]
    · rw [if_neg c1]
      by_cases c2 : e.s < 2
      · rw [if_pos c2, List.filter_cons_of_neg (by simp [c2])]
      · rw [if_neg c2, List.filter_cons_of_pos (by simp [c1, c2])]
        simp

theorem foldl_flatMap {α : Type} (h : Nat → List α) (n : Nat) :
    (List.range n).foldl (fun acc i => acc ++ h i) [] = (List.range n).flatMap h := by
  induction n with
  | zero => rfl
  | succ n ih =>
    rw [List.range_succ, List.foldl_append, List.flatMap_append, ih]
    simp

theorem fin_eq (n : Nat) (adj : Adj) :
    fin n adj = (List.range n).flatMap (fun i =>
      ((adj.getD i []).filter (fun e => decide (¬ e.v < i ∧ ¬ e.s < 2))).map
        (fun e => (i, e.v, e.w))) := by
  unfold fin
  rw [← foldl_flatMap]
  congr 1
  funext acc i
  exact fin_row i _ acc

theorem mem_iff_getD {α : Type} (l : List α) (d x : α) :
    x ∈ l ↔ ∃ k, k < l.length ∧ l.getD k d = x := by
  constructor
  · intro h
    obtain ⟨k, hk, hx⟩ := List.mem_iff_getElem.mp h
    exact ⟨k, hk, by rw [List.getD_eq_getElem _ _ hk]; exact hx⟩
  · rintro ⟨k, hk, hx⟩
    rw [List.getD_eq_getElem _ _ hk] at hx
    rw [← hx]
    exact List.getElem_mem _

theorem mem_fin (n : Nat) (adj : Adj) (x : InEdge) :
    x ∈ fin n adj ↔ ∃ j k, j < n ∧ InB adj j k ∧ ¬ (getE adj j k).v < j ∧
      ¬ (getE adj j k).s < 2 ∧ x = (j, (getE adj j k).v, (getE adj j k).w) := by
  rw [fin_eq, List.mem_flatMap]
  constructor
  · rintro ⟨j, hj, hx⟩
    rw [List.mem_map] at hx
    obtain ⟨e, he, hxe⟩ := hx
    rw [List.mem_filter] at he
    obtain ⟨hel, hp⟩ := he
    obtain ⟨k, hk, hke⟩ := (mem_iff_getD _ default e).mp hel
    have hp2 : ¬ e.v < j ∧ ¬ e.s < 2 := by simpa using hp
    refine ⟨j, k, List.mem_range.mp hj, hk, ?_, ?_, ?_⟩
    · unfold getE; rw [hke]; exact hp2.1
    · unfold getE; rw [hke]; exact hp2.2
    · unfold getE; rw [hke]; exact hxe.symm
  · rintro ⟨j, k, hj, hb, h1, h2, hx⟩
    refine ⟨j, List.mem_range.mpr hj, ?_⟩
    rw [List.mem_map]
    refine ⟨getE adj j k, ?_, hx.symm⟩
    rw [List.mem_filter]
    refine ⟨(mem_iff_getD _ default _).mpr ⟨k, hb, rfl⟩, ?_⟩
    simp only [decide_eq_true_eq]
    exact ⟨h1, h2⟩

/-! ## From spanner records to walks in the output -/

theorem reachable_refl (es : List InEdge) (i : Nat) : Reachable es i i := ⟨0, Walk.nil i⟩

theorem reachable_trans {es : List InEdge} {i j k : Nat} (h1 : Reachable es i j)
    (h2 : Reachable es j k) : Reachable es i k := by
  obtain ⟨d1, w1⟩ := h1
  obtain ⟨d2, w2⟩ := h2
  exact ⟨d1 + d2, walk_trans w1 w2⟩

/-- A record in the spanner is emitted by the emitter, from one of its two endpoints. -/
theorem fin_of_record {n : Nat} {adj : Adj} (hM : Mirror adj) (hl : adj.length = n) {u k : Nat}
    (hb : InB adj u k) (hs : (getE adj u k).s = 2) :
    (u, (getE adj u k).v, (getE adj u k).w) ∈ fin n adj ∨
      ((getE adj u k).v, u, (getE adj u k).w) ∈ fin n adj := by
  have hu : u < n := by rw [← hl]; exact inB_lt_length hb
  by_cases hc : (getE adj u k).v < u
  · right
    obtain ⟨_, m2, m3⟩ := hM u k hb
    have hvn : (getE adj u k).v < n := by rw [← hl]; exact inB_lt_length m2
    rw [mem_fin]
    refine ⟨(getE adj u k).v, (getE adj u k).oi, hvn, m2, ?_, ?_, ?_⟩
    · rw [m3]; dsimp only; omega
    · rw [m3]; dsimp only; omega
    · rw [m3]
  · left
    rw [mem_fin]
    exact ⟨u, k, hu, hb, hc, by omega, rfl⟩

theorem spConn_reachable {n : Nat} {adj : Adj} (hM : Mirror adj) (hl : adj.length = n)
    {a b : Nat} (h : SpConn adj a b) : Reachable (fin n adj) a b := by
  induction h with
  | refl u => exact reachable_refl _ u
  | @step u k w hb hs _ ih =>
    have h1 : Reachable (fin n adj) u (getE adj u k).v := by
      rcases fin_of_record hM hl hb hs with h | h
      · exact ⟨_, walk_single (Or.inl h)⟩
      · exact ⟨_, walk_single (Or.inr h)⟩
    exact reachable_trans h1 ih

/-! ## Input lines and their records -/

theorem foldl_addEdge_records (n : Nat) (edges : List InEdge) (adj0 : Adj)
    (hl : adj0.length = n) (hv : ∀ e ∈ edges, e.1 < n ∧ e.2.1 < n ∧ e.1 ≠ e.2.1) :
    (edges.foldl addEdge adj0).length = n ∧
    (∀ j k, InB adj0 j k → InB (edges.foldl addEdge adj0) j k ∧
      getE (edges.foldl addEdge adj0) j k = getE adj0 j k) ∧
    (∀ e ∈ edges, ∃ k, InB (edges.foldl addEdge adj0) e.1 k ∧
      (getE (edges.foldl addEdge adj0) e.1 k).v = e.2.1 ∧
      (getE (edges.foldl addEdge adj0) e.1 k).w = e.2.2) := by
  induction edges generalizing adj0 with
  | nil =>
    refine ⟨hl, fun j k h => ⟨h, rfl⟩, fun e he => absurd he (List.not_mem_nil e)⟩
  | cons e es ih =>
    obtain ⟨e1, e2, e3⟩ := hv e (List.mem_cons_self _ _)
    rw [← hl] at e1 e2
    have hl1 : (addEdge adj0 e).length = n := by rw [length_addEdge]; exact hl
    obtain ⟨i1, i2, i3⟩ := ih (addEdge adj0 e) hl1
      (fun x hx => hv x (List.mem_cons_of_mem _ hx))
    simp only [List.foldl_cons]
    refine ⟨i1, ?_, ?_⟩
    · intro j k hb
      have hb1 : InB (addEdge adj0 e) j k := (inB_addEdge adj0 e e1 e2 e3 j k).mpr (Or.inl hb)
      obtain ⟨a, b⟩ := i2 j k hb1
      exact ⟨a, by rw [b, getE_addEdge_old adj0 e e1 e2 e3 j k hb]⟩
    · intro x hx
      rcases List.mem_cons.mp hx with hxe | hxe
      · subst hxe
        have hb1 : InB (addEdge adj0 x) x.1 (adj0.getD x.1 []).length :=
          (inB_addEdge adj0 x e1 e2 e3 _ _).mpr (Or.inr (Or.inl ⟨rfl, rfl⟩))
        obtain ⟨a, b⟩ := i2 _ _ hb1
        refine ⟨_, a, ?_, ?_⟩
        · rw [b, getE_addEdge_u adj0 x e1 e2 e3]
        · rw [b, getE_addEdge_u adj0 x e1 e2 e3]
      · exact i3 x hxe

/-- Every input line has a record at its first endpoint. -/
theorem build_record (n : Nat) (edges : List InEdge)
    (hv : ∀ e ∈ edges, e.1 < n ∧ e.2.1 < n ∧ e.1 ≠ e.2.1) :
    ∀ e ∈ edges, ∃ k, InB (build n edges) e.1 k ∧ (getE (build n edges) e.1 k).v = e.2.1 ∧
      (getE (build n edges) e.1 k).w = e.2.2 :=
  (foldl_addEdge_records n edges (List.replicate n []) (List.length_replicate _ _) hv).2.2

theorem valid_edges {n : Nat} {edges : List InEdge} (hv : ValidInput n edges) :
    ∀ e ∈ edges, e.1 < n ∧ e.2.1 < n ∧ e.1 ≠ e.2.1 :=
  fun e he => ⟨(hv.2 e he).1, (hv.2 e he).2.1, (hv.2 e he).2.2.1⟩

/-- In the final store the endpoints of every input line are joined in the spanner. -/
theorem final_edge_conn (draws : Nat → Bool) (n t : Nat) (edges : List InEdge)
    (hv : ValidInput n edges) :
    ∀ e ∈ edges, SpConn (finalState draws n t edges).adj e.1 e.2.1 := by
  intro e he
  have hve := valid_edges hv
  have hI := rounds_inv draws n edges hve ((t + 1) / 2 - 1)
  have hS := rounds_sameSkel draws n edges hve ((t + 1) / 2 - 1)
  obtain ⟨k, hb, hk, _⟩ := build_record n edges hve e he
  have hb2 := (sameSkel_inB hS e.1 k).mpr hb
  have h := phase2_conn hI e.1 k hb2
  rw [(hS.2.2 e.1 k).1, hk] at h
  exact h

theorem final_mirror (draws : Nat → Bool) (n t : Nat) (edges : List InEdge)
    (hv : ValidInput n edges) :
    Mirror (finalState draws n t edges).adj ∧ (finalState draws n t edges).adj.length = n ∧
      SameSkel (finalState draws n t edges).adj (build n edges) := by
  have hve := valid_edges hv
  have hI := rounds_inv draws n edges hve ((t + 1) / 2 - 1)
  have hS := rounds_sameSkel draws n edges hve ((t + 1) / 2 - 1)
  have hp := phase2_spec hI
  exact ⟨hp.2.1, hp.1.1.trans hI.len_adj, sameSkel_trans hp.1 hS⟩

theorem reachable_spanner (draws : Nat → Bool) (n t : Nat) (edges : List InEdge)
    (hv : ValidInput n edges) (i j : Nat) (h : Reachable edges i j) :
    Reachable (fin n (finalState draws n t edges).adj) i j := by
  obtain ⟨hM, hl, _⟩ := final_mirror draws n t edges hv
  have hconn := final_edge_conn draws n t edges hv
  obtain ⟨d, hw⟩ := h
  induction hw with
  | nil i => exact reachable_refl _ i
  | @cons a b c w d he _ ih =>
    have h1 : SpConn (finalState draws n t edges).adj a b := by
      rcases he with he | he
      · exact hconn _ he
      · exact spConn_symm hM (hconn _ he)
    exact reachable_trans (spConn_reachable hM hl h1) ih

/-- C2 (connectivity preservation): for every valid input whose numbers fit the 32-bit `int`
variables they are read into (`FitsInt`: `n`, `m`, `t + 1` and every weight below `2^31`),
every such `t` and every sequence of sampling outcomes, two vertices joined by a path of the
input graph are joined by a path made of emitted spanner edges. -/
theorem connectivity_preserved (draws : Nat → Bool) (n t : Nat) (edges : List InEdge)
    (hv : ValidInput n edges) (hfit : FitsInt n t edges) (i j : Nat)
    (h : Reachable edges i j) :
    Reachable (spanner draws n t edges).2 i j :=
  reachable_spanner draws n t edges hv i j h

theorem connectivity_preserved_witness :
    ValidInput 4 [(0, 1, 1), (0, 2, 2), (0, 3, 1), (1, 2, 10)] ∧
    FitsInt 4 5 [(0, 1, 1), (0, 2, 2), (0, 3, 1), (1, 2, 10)] ∧
    Reachable [(0, 1, 1), (0, 2, 2), (0, 3, 1), (1, 2, 10)] 0 2 ∧
    Reachable (spanner (drawsOf [false, false, true, true, false, false]) 4 5
      [(0, 1, 1), (0, 2, 2), (0, 3, 1), (1, 2, 10)]).2 0 2 :=
  ⟨by decide, by decide, ⟨2, walk_single (Or.inl (by decide))⟩,
    connectivity_preserved (drawsOf [false, false, true, true, false, false]) 4 5
      [(0, 1, 1), (0, 2, 2), (0, 3, 1), (1, 2, 10)] (by decide) (by decide) 0 2
      ⟨2, walk_single (Or.inl (by decide))⟩⟩

/-! ## Centers -/

theorem round_centers_fix (draws : Nat → Bool) (n : Nat) (st : State)
    (hok : ∀ c ∈ st.centers, c < n ∧ st.ivd.getD c 0 = 1 ∧ st.cluster.getD c 0 = c)
    (hne : 0 < n → st.centers ≠ []) :
    (∀ c ∈ (round draws n st).centers,
      c < n ∧ (round draws n st).ivd.getD c 0 = 1 ∧ (round draws n st).cluster.getD c 0 = c) ∧
    (0 < n → (round draws n st).centers ≠ []) := by
  constructor
  · intro c hc
    obtain ⟨hn, hisc⟩ := (mem_round_centers draws n st c).mp hc
    have hmem : c ∈ st.centers :=
      (step1_mem draws n st.centers st.pos c (hne (by omega)) hisc).2
    obtain ⟨_, h2, h3⟩ := hok c hmem
    have hisc2 : (rIsc draws n st).getD (st.cluster.getD c 0) 0 ≠ 0 := by rw [h3]; exact hisc
    refine ⟨hn, ?_, ?_⟩
    · rw [round_ivd, if_neg (fun h => not_orph_of_isc draws hisc2 h.2)]
      exact h2
    · rw [round_cluster_other draws n st c (not_fnd_of_isc draws hisc2)]
      exact h3
  · intro hn
    obtain ⟨c, hc, h1⟩ := step1_exists draws n st.centers st.pos (hne hn)
      (fun c hc => (hok c hc).1)
    have hmem : c ∈ (round draws n st).centers := by
      rw [mem_round_centers]
      refine ⟨(hok c hc).1, ?_⟩
      unfold rIsc
      rw [h1]
      decide
    exact List.ne_nil_of_mem hmem

theorem rounds_centers_fix (draws : Nat → Bool) (n : Nat) (edges : List InEdge) (r : Nat) :
    (∀ c ∈ (rounds draws n (initState n edges) r).centers,
      c < n ∧ (rounds draws n (initState n edges) r).ivd.getD c 0 = 1 ∧
        (rounds draws n (initState n edges) r).cluster.getD c 0 = c) ∧
    (0 < n → (rounds draws n (initState n edges) r).centers ≠ []) := by
  induction r with
  | zero =>
    constructor
    · intro c hc
      have hc2 : c < n := List.mem_range.mp hc
      refine ⟨hc2, ?_, ?_⟩
      · show (List.replicate n 1).getD c 0 = 1
        rw [getD_replicate_eq, if_pos hc2]
      · show (List.range n).getD c 0 = c
        rw [getD_range_eq, if_pos hc2]
    · intro hn h
      have h0 : List.range n = [] := h
      have h1 : (List.range n).length = 0 := by rw [h0]; rfl
      rw [List.length_range] at h1
      omega
  | succ r ih => exact round_centers_fix draws n _ ih.1 ih.2

/-- C9 (center fixpoint invariant): at the start of phase 1 (`r = 0`), at the end of every
clustering round (`r ≥ 1`) and hence at the start of the final augmentation, every vertex `c`
of the active-center list is active (`ivd[c] = 1`) and satisfies `cluster[c] = c`. -/
theorem center_fixpoint (draws : Nat → Bool) (n : Nat) (edges : List InEdge) (r : Nat) :
    ∀ c ∈ (rounds draws n (initState n edges) r).centers,
      (rounds draws n (initState n edges) r).ivd.getD c 0 = 1 ∧
        (rounds draws n (initState n edges) r).cluster.getD c 0 = c :=
  fun c hc => ((rounds_centers_fix draws n edges r).1 c hc).2

theorem center_fixpoint_witness :
    3 ∈ (rounds (drawsOf [false, false, true, true, false, false]) 4
      (initState 4 [(0, 1, 1), (0, 2, 2), (0, 3, 1), (1, 2, 10)]) 1).centers ∧
    (rounds (drawsOf [false, false, true, true, false, false]) 4
      (initState 4 [(0, 1, 1), (0, 2, 2), (0, 3, 1), (1, 2, 10)]) 1).ivd.getD 3 0 = 1 ∧
    (rounds (drawsOf [false, false, true, true, false, false]) 4
      (initState 4 [(0, 1, 1), (0, 2, 2), (0, 3, 1), (1, 2, 10)]) 1).cluster.getD 3 0 = 3 :=
  ⟨by decide, center_fixpoint (drawsOf [false, false, true, true, false, false]) 4
    [(0, 1, 1), (0, 2, 2), (0, 3, 1), (1, 2, 10)] 1 3 (by decide)⟩

/-! ## Mirror consistency and monotone statuses -/

/-- C5 (mirror consistency): for every valid input, after graph construction, at the end of
every clustering round and after the final augmentation, for every vertex `u` and slot `i`
the record `adj[adj[u][i].v][adj[u][i].oi]` exists, points back to `u` with mirror index `i`,
and carries the weight and the status of `adj[u][i]`. -/
theorem mirror_consistency (draws : Nat → Bool) (n t : Nat) (edges : List InEdge)
    (hv : ValidInput n edges) :
    Mirror (build n edges) ∧
    (∀ r, Mirror (rounds draws n (initState n edges) r).adj) ∧
    Mirror (finalState draws n t edges).adj :=
  ⟨(build_spec n edges (valid_edges hv)).2.1,
    fun r => (rounds_inv draws n edges (valid_edges hv) r).mirror,
    (final_mirror draws n t edges hv).1⟩

theorem mirror_consistency_witness :
    ValidInput 4 [(0, 1, 1), (0, 2, 2), (0, 3, 1), (1, 2, 10)] ∧
    Mirror (build 4 [(0, 1, 1), (0, 2, 2), (0, 3, 1), (1, 2, 10)]) ∧
    (∀ r, Mirror (rounds (drawsOf [false, false, true, true, false, false]) 4
      (initState 4 [(0, 1, 1), (0, 2, 2), (0, 3, 1), (1, 2, 10)]) r).adj) ∧
    Mirror (finalState (drawsOf [false, false, true, true, false, false]) 4 5
      [(0, 1, 1), (0, 2, 2), (0, 3, 1), (1, 2, 10)]).adj :=
  ⟨by decide, mirror_consistency (drawsOf [false, false, true, true, false, false]) 4 5
    [(0, 1, 1), (0, 2, 2), (0, 3, 1), (1, 2, 10)] (by decide)⟩

theorem inB_of_s_two {adj : Adj} {j k : Nat} (h : (getE adj j k).s = 2) : InB adj j k := by
  by_contra hb
  rw [getE_of_not_inB hb] at h
  exact absurd h (by decide)

theorem addWrite_keeps_two {adj : Adj} (hM : Mirror adj) {p : Nat × Nat}
    (hp : InB adj p.1 p.2) (j k : Nat) (h : (getE adj j k).s = 2) :
    (getE (addWrite adj p) j k).s = 2 := by
  have h1 := addWrite_s hM hp (j, k)
  dsimp only at h1
  rw [h1]
  split
  · rfl
  · exact h

theorem remWrite_keeps_two {adj : Adj} (hM : Mirror adj) {p : Nat × Nat}
    (hp : InB adj p.1 p.2) (j k : Nat) (h : (getE adj j k).s = 2) :
    (getE (remWrite adj p) j k).s = 2 := by
  have h1 := remWrite_s hM hp (j, k)
  dsimp only at h1
  rw [h1, if_neg]
  · exact h
  · rintro ⟨hs, hq | hq⟩
    · apply hs
      rw [← hq]
      exact h
    · apply hs
      have h2 := mirror_mir_s hM hp
      rw [← hq] at h2
      dsimp only at h2
      rw [← h2]
      exact h

theorem step4_keeps_two (n : Nat) (adj : Adj) (cluster is_center : List Nat) (j k : Nat)
    (h : (getE adj j k).s = 2) : (getE (step4 n adj cluster is_center) j k).s = 2 := by
  rw [step4_s, if_neg]
  · exact h
  · rintro ⟨_, _, c⟩
    rw [h] at c
    exact absurd c (by decide)

theorem rounds_keep_two (draws : Nat → Bool) (n : Nat) (edges : List InEdge)
    (hv : ValidInput n edges) (r d j k : Nat)
    (h : (getE (rounds draws n (initState n edges) r).adj j k).s = 2) :
    (getE (rounds draws n (initState n edges) (r + d)).adj j k).s = 2 := by
  induction d with
  | zero => exact h
  | succ d ih =>
    have hI := rounds_inv draws n edges (valid_edges hv) (r + d)
    have hb := inB_of_s_two ih
    exact round_s_two draws hI (j, k) hb (midS_of_two draws n _ (j, k) ih)

/-- C6 (monotone status): for every valid input, every `t` and every sequence of sampling
outcomes, a record of status 2 (SpannerEdge) keeps status 2: (a) from the end of a round to
the end of every later round and to the end of the final augmentation; and write by write,
since (b) every store the `to_add` and `to_rem` loops start from is mirror-consistent and
every entry of the lists is a slot of the store, (c) one write of the `to_add` loop or of the
`to_rem` loop to such a store, the mirror write included, keeps every status 2 and the mirror
consistency, and (d) step 4 keeps every status 2. -/
theorem status_monotone (draws : Nat → Bool) (n t : Nat) (edges : List InEdge)
    (hv : ValidInput n edges) :
    (∀ r d j k, (getE (rounds draws n (initState n edges) r).adj j k).s = 2 →
      (getE (rounds draws n (initState n edges) (r + d)).adj j k).s = 2 ∧
      (r ≤ (t + 1) / 2 - 1 → (getE (finalState draws n t edges).adj j k).s = 2)) ∧
    (∀ r, Mirror (rounds draws n (initState n edges) r).adj ∧
      (∀ p ∈ (rFound draws n (rounds draws n (initState n edges) r)).1,
        InB (rounds draws n (initState n edges) r).adj p.1 p.2) ∧
      (∀ p ∈ (rFound draws n (rounds draws n (initState n edges) r)).2.1,
        InB (rounds draws n (initState n edges) r).adj p.1 p.2) ∧
      (∀ p ∈ (finalLoop n (rounds draws n (initState n edges) r).adj
          (rounds draws n (initState n edges) r).cluster
          (rounds draws n (initState n edges) r).ivd
          (centerIdx n (rounds draws n (initState n edges) r).centers).1
          (centerIdx n (rounds draws n (initState n edges) r).centers).2).1,
        InB (rounds draws n (initState n edges) r).adj p.1 p.2) ∧
      (∀ p ∈ (finalLoop n (rounds draws n (initState n edges) r).adj
          (rounds draws n (initState n edges) r).cluster
          (rounds draws n (initState n edges) r).ivd
          (centerIdx n (rounds draws n (initState n edges) r).centers).1
          (centerIdx n (rounds draws n (initState n edges) r).centers).2).2,
        InB (rounds draws n (initState n edges) r).adj p.1 p.2)) ∧
    (∀ (adj : Adj) (p : Nat × Nat), Mirror adj → InB adj p.1 p.2 →
      Mirror (addWrite adj p) ∧ Mirror (remWrite adj p) ∧
      ∀ j k, (getE adj j k).s = 2 →
        (getE (addWrite adj p) j k).s = 2 ∧ (getE (remWrite adj p) j k).s = 2) ∧
    (∀ (adj : Adj) (cluster is_center : List Nat) (j k : Nat), (getE adj j k).s = 2 →
      (getE (step4 n adj cluster is_center) j k).s = 2) := by
  refine ⟨?_, ?_, ?_, ?_⟩
  · intro r d j k h
    refine ⟨rounds_keep_two draws n edges hv r d j k h, fun hr => ?_⟩
    have h2 := rounds_keep_two draws n edges hv r ((t + 1) / 2 - 1 - r) j k h
    have e : r + ((t + 1) / 2 - 1 - r) = (t + 1) / 2 - 1 := by omega
    rw [e] at h2
    have hI := rounds_inv draws n edges (valid_edges hv) ((t + 1) / 2 - 1)
    exact phase2_s_two hI (j, k) (inB_of_s_two h2) h2
  · intro r
    have hI := rounds_inv draws n edges (valid_edges hv) r
    refine ⟨hI.mirror, round_add_inB draws, round_rem_inB draws, ?_, ?_⟩
    · intro x hx
      obtain ⟨_, _, ci, hm⟩ := (mem_final_add n _ x).mp hx
      exact (minEd_cand hm).1.1
    · intro x hx
      obtain ⟨_, _, ci, hm⟩ := (mem_final_rem n _ x).mp hx
      exact hm.1
  · intro adj p hM hp
    exact ⟨addWrite_mirror hM hp, remWrite_mirror hM hp, fun j k h =>
      ⟨addWrite_keeps_two hM hp j k h, remWrite_keeps_two hM hp j k h⟩⟩
  · intro adj cluster is_center j k h
    exact step4_keeps_two n adj cluster is_center j k h

theorem status_monotone_witness :
    ValidInput 4 [(0, 1, 1), (0, 2, 2), (0, 3, 1), (1, 2, 10)] ∧
    (getE (rounds (drawsOf [false, false, true, true, false, false]) 4
      (initState 4 [(0, 1, 1), (0, 2, 2), (0, 3, 1), (1, 2, 10)]) 1).adj 0 0).s = 2 ∧
    (getE (finalState (drawsOf [false, false, true, true, false, false]) 4 5
      [(0, 1, 1), (0, 2, 2), (0, 3, 1), (1, 2, 10)]).adj 0 0).s = 2 :=
  ⟨by decide, by decide,
    ((status_monotone (drawsOf [false, false, true, true, false, false]) 4 5
      [(0, 1, 1), (0, 2, 2), (0, 3, 1), (1, 2, 10)] (by decide)).1 1 0 0 0 (by decide)).2
      (by decide)⟩

/-! ## The emitted lines are input lines -/

theorem sublist_flatMap {α β : Type} (l : List α) (f g : α → List β)
    (h : ∀ i, (f i).Sublist (g i)) : (l.flatMap f).Sublist (l.flatMap g) := by
  induction l with
  | nil => exact List.Sublist.refl _
  | cons x xs ih =>
    simp only [List.flatMap_cons]
    exact List.Sublist.append (h x) ih

theorem fin_sublist_allLines (n : Nat) (adj : Adj) : (fin n adj).Sublist (allLines n adj) := by
  rw [fin_eq]
  unfold allLines
  apply sublist_flatMap
  intro i
  apply List.Sublist.map
  have e : (adj.getD i []).filter (fun e => decide (¬ e.v < i ∧ ¬ e.s < 2)) =
      ((adj.getD i []).filter (fun e => decide (¬ e.v < i))).filter
        (fun e => decide (¬ e.s < 2)) := by
    rw [List.filter_filter]
    congr 1
    funext e
    simp only [Bool.decide_and]
    exact Bool.and_comm _ _
  rw [e]
  exact List.filter_sublist _

theorem row_map_eq {a b : Adj} (hS : SameSkel a b) (i : Nat) :
    (a.getD i []).map (fun e => (e.v, e.w)) = (b.getD i []).map (fun e => (e.v, e.w)) := by
  apply List.ext_getElem
  · rw [List.length_map, List.length_map]
    exact hS.2.1 i
  · intro k h1 h2
    rw [List.length_map] at h1 h2
    rw [List.getElem_map, List.getElem_map]
    have ha : (a.getD i [])[k] = getE a i k := by
      unfold getE; rw [List.getD_eq_getElem _ _ h1]
    have hb : (b.getD i [])[k] = getE b i k := by
      unfold getE; rw [List.getD_eq_getElem _ _ h2]
    rw [ha, hb, (hS.2.2 i k).1, (hS.2.2 i k).2.1]

theorem row_lines_eq (i : Nat) (l : List edge) :
    (l.filter (fun e => decide (¬ e.v < i))).map (fun e => (i, e.v, e.w)) =
      ((l.map (fun e => (e.v, e.w))).filter (fun x => decide (¬ x.1 < i))).map
        (fun x => (i, x.1, x.2)) := by
  rw [List.filter_map, List.map_map]
  rfl

theorem allLines_sameSkel {a b : Adj} (hS : SameSkel a b) (n : Nat) :
    allLines n a = allLines n b := by
  unfold allLines
  congr 1
  funext i
  rw [row_lines_eq, row_lines_eq, row_map_eq hS i]

theorem perm_flatMap_update {β : Type} (f g : Nat → List β) (a : Nat) (x : β) (n : Nat)
    (ha : a < n) (hg : ∀ i, g i = if i = a then f a ++ [x] else f i) :
    ((List.range n).flatMap g).Perm (x :: (List.range n).flatMap f) := by
  induction n with
  | zero => exact absurd ha (Nat.not_lt_zero a)
  | succ n ih =>
    rw [List.range_succ, List.flatMap_append, List.flatMap_append]
    simp only [List.flatMap_cons, List.flatMap_nil, List.append_nil]
    by_cases han : a = n
    · subst han
      have hsame : (List.range a).flatMap g = (List.range a).flatMap f := by
        apply List.flatMap_congr
        intro i hi
        rw [hg i, if_neg]
        have := List.mem_range.mp hi
        omega
      rw [hsame, hg a, if_pos rfl, ← List.append_assoc]
      exact List.perm_append_singleton _ _
    · have hlt : a < n := by omega
      rw [hg n, if_neg (fun h => han h.symm)]
      have h1 := (ih hlt).append_right (f n)
      exact h1

theorem allLines_addEdge (n : Nat) (adj : Adj) (e : InEdge) (hl : adj.length = n)
    (hu : e.1 < n) (hv : e.2.1 < n) (huv : e.1 ≠ e.2.1) :
    (allLines n (addEdge adj e)).Perm (canon e :: allLines n adj) := by
  have hu2 : e.1 < adj.length := by rw [hl]; exact hu
  have hv2 : e.2.1 < adj.length := by rw [hl]; exact hv
  unfold allLines
  by_cases hlt : e.1 < e.2.1
  · have hc : canon e = (e.1, e.2.1, e.2.2) := by
      unfold canon
      rw [Nat.min_eq_left (le_of_lt hlt), Nat.max_eq_right (le_of_lt hlt)]
    rw [hc]
    apply perm_flatMap_update _ _ e.1 _ n hu
    intro i
    rw [getD_addEdge adj e hu2 hv2 huv]
    by_cases h1 : i = e.1
    · rw [if_pos h1, if_pos h1, List.filter_append, List.map_append, h1]
      congr 1
      rw [List.filter_cons_of_pos (by simp; omega)]
      rfl
    · rw [if_neg h1, if_neg h1]
      by_cases h2 : i = e.2.1
      · rw [if_pos h2, List.filter_append, List.map_append, h2,
          List.filter_cons_of_neg (by simp; omega)]
        simp
      · rw [if_neg h2]
  · have hlt2 : e.2.1 < e.1 := by omega
    have hc : canon e = (e.2.1, e.1, e.2.2) := by
      unfold canon
      rw [Nat.min_eq_right (le_of_lt hlt2), Nat.max_eq_left (le_of_lt hlt2)]
    rw [hc]
    apply perm_flatMap_update _ _ e.2.1 _ n hv
    intro i
    rw [getD_addEdge adj e hu2 hv2 huv]
    by_cases h2 : i = e.2.1
    · rw [if_neg (fun h => huv (h.symm.trans h2)), if_pos h2, if_pos h2, List.filter_append,
        List.map_append, h2]
      congr 1
      rw [List.filter_cons_of_pos (by simp; omega)]
      rfl
    · rw [if_neg h2, if_neg h2]
      by_cases h1 : i = e.1
      · rw [if_pos h1, List.filter_append, List.map_append, h1,
          List.filter_cons_of_neg (by simp; omega)]
        simp
      · rw [if_neg h1]

theorem allLines_foldl (n : Nat) (edges : List InEdge) (adj0 : Adj) (hl : adj0.length = n)
    (hv : ∀ e ∈ edges, e.1 < n ∧ e.2.1 < n ∧ e.1 ≠ e.2.1) :
    (allLines n (edges.foldl addEdge adj0)).Perm (allLines n adj0 ++ edges.map canon) := by
  induction edges generalizing adj0 with
  | nil => simp
  | cons e es ih =>
    obtain ⟨e1, e2, e3⟩ := hv e (List.mem_cons_self _ _)
    have hl1 : (addEdge adj0 e).length = n := by rw [length_addEdge]; exact hl
    have h1 := ih (addEdge adj0 e) hl1 (fun x hx => hv x (List.mem_cons_of_mem _ hx))
    simp only [List.foldl_cons, List.map_cons]
    refine h1.trans ?_
    have h2 := (allLines_addEdge n adj0 e hl e1 e2 e3).append_right (es.map canon)
    refine h2.trans ?_
    simp only [List.cons_append]
    exact List.perm_middle.symm

theorem allLines_build (n : Nat) (edges : List InEdge)
    (hv : ∀ e ∈ edges, e.1 < n ∧ e.2.1 < n ∧ e.1 ≠ e.2.1) :
    (allLines n (build n edges)).Perm (edges.map canon) := by
  have h := allLines_foldl n edges (List.replicate n []) (List.length_replicate _ _) hv
  have h0 : allLines n (List.replicate n ([] : List edge)) = [] := by
    unfold allLines
    rw [List.flatMap_eq_nil_iff]
    intro i hi
    rw [getD_replicate_eq]
    split <;> rfl
  rw [h0, List.nil_append] at h
  exact h

theorem fin_subperm (draws : Nat → Bool) (n t : Nat) (edges : List InEdge)
    (hv : ValidInput n edges) :
    (fin n (finalState draws n t edges).adj).Subperm (edges.map canon) := by
  have hS := (final_mirror draws n t edges hv).2.2
  have h1 := (fin_sublist_allLines n (finalState draws n t edges).adj).subperm
  rw [allLines_sameSkel hS n] at h1
  exact h1.trans (allLines_build n edges (valid_edges hv)).subperm

theorem canon_cases (e : InEdge) : canon e = e ∨ canon e = (e.2.1, e.1, e.2.2) := by
  unfold canon
  by_cases h : e.1 ≤ e.2.1
  · left
    rw [Nat.min_eq_left h, Nat.max_eq_right h]
  · right
    have h2 : e.2.1 ≤ e.1 := by omega
    rw [Nat.min_eq_right h2, Nat.max_eq_left h2]

/-- C3 (subgraph property): for every valid input whose numbers fit the 32-bit `int`
variables they are read into (`FitsInt`: `n`, `m`, `t + 1` and every weight below `2^31`),
every such `t` and every sequence of sampling outcomes, every emitted line `(u, v, w)` is an
input line between `u` and `v` of weight `w` (in one of the two orientations), the emitted
lines are, counted with multiplicity, among the input lines written smaller endpoint first,
and the emitted count is at most `m`. -/
theorem subgraph_property (draws : Nat → Bool) (n t : Nat) (edges : List InEdge)
    (hv : ValidInput n edges) (hfit : FitsInt n t edges) :
    (∀ x ∈ (spanner draws n t edges).2, x ∈ edges ∨ (x.2.1, x.1, x.2.2) ∈ edges) ∧
    (spanner draws n t edges).2.Subperm (edges.map canon) ∧
    (spanner draws n t edges).1 ≤ edges.length := by
  have hsp := fin_subperm draws n t edges hv
  refine ⟨?_, hsp, ?_⟩
  · intro x hx
    have hx2 : x ∈ edges.map canon := hsp.subset hx
    rw [List.mem_map] at hx2
    obtain ⟨e, he, hce⟩ := hx2
    rcases canon_cases e with h | h
    · left
      rw [← hce, h]
      exact he
    · right
      rw [← hce, h]
      exact he
  · have h := hsp.length_le
    rw [List.length_map] at h
    exact h

theorem subgraph_property_witness :
    ValidInput 4 [(0, 1, 1), (0, 2, 2), (0, 3, 1), (1, 2, 10)] ∧
    FitsInt 4 5 [(0, 1, 1), (0, 2, 2), (0, 3, 1), (1, 2, 10)] ∧
    (spanner (drawsOf [false, false, true, true, false, false]) 4 5
      [(0, 1, 1), (0, 2, 2), (0, 3, 1), (1, 2, 10)]).1 ≤ 4 :=
  ⟨by decide, by decide,
    (subgraph_property (drawsOf [false, false, true, true, false, false]) 4 5
      [(0, 1, 1), (0, 2, 2), (0, 3, 1), (1, 2, 10)] (by decide) (by decide)).2.2⟩

/-! ## The slots reported by the emitter -/

theorem list_eq_map_range {α : Type} (l : List α) (d : α) :
    l = (List.range l.length).map (fun k => l.getD k d) := by
  apply List.ext_getElem
  · rw [List.length_map, List.length_range]
  · intro k h1 h2
    rw [List.getElem_map, List.getElem_range, List.getD_eq_getElem _ _ h1]

theorem mem_finSlots (n : Nat) (adj : Adj) (p : Nat × Nat) :
    p ∈ finSlots n adj ↔ p.1 < n ∧ InB adj p.1 p.2 ∧ ¬ (getE adj p.1 p.2).v < p.1 ∧
      ¬ (getE adj p.1 p.2).s < 2 := by
  unfold finSlots
  rw [List.mem_flatMap]
  constructor
  · rintro ⟨i, hi, hp⟩
    rw [List.mem_map] at hp
    obtain ⟨k, hk, hpk⟩ := hp
    rw [List.mem_filter] at hk
    obtain ⟨hk1, hk2⟩ := hk
    have hk3 : ¬ (getE adj i k).v < i ∧ ¬ (getE adj i k).s < 2 := by simpa using hk2
    rw [← hpk]
    exact ⟨List.mem_range.mp hi, List.mem_range.mp hk1, hk3.1, hk3.2⟩
  · rintro ⟨h1, h2, h3, h4⟩
    refine ⟨p.1, List.mem_range.mpr h1, ?_⟩
    rw [List.mem_map]
    refine ⟨p.2, ?_, rfl⟩
    rw [List.mem_filter]
    refine ⟨List.mem_range.mpr h2, ?_⟩
    simp only [decide_eq_true_eq]
    exact ⟨h3, h4⟩

theorem finSlots_nodup (n : Nat) (adj : Adj) : (finSlots n adj).Nodup := by
  unfold finSlots
  rw [List.nodup_flatMap]
  constructor
  · intro i _
    apply List.Nodup.map
    · intro a b h
      exact (Prod.mk.inj h).2
    · exact List.Nodup.filter _ (List.nodup_range _)
  · apply List.Pairwise.imp _ (List.pairwise_lt_range n)
    intro a b hab
    show List.Disjoint _ _
    intro x hx1 hx2
    rw [List.mem_map] at hx1 hx2
    obtain ⟨k1, _, h1⟩ := hx1
    obtain ⟨k2, _, h2⟩ := hx2
    have e1 : x.1 = a := by rw [← h1]
    have e2 : x.1 = b := by rw [← h2]
    omega

theorem fin_eq_map_finSlots (n : Nat) (adj : Adj) :
    fin n adj = (finSlots n adj).map (lineOf adj) := by
  rw [fin_eq]
  unfold finSlots
  rw [List.map_flatMap]
  congr 1
  funext i
  rw [List.map_map]
  have hl := list_eq_map_range (adj.getD i []) default
  conv_lhs => rw [hl]
  rw [List.filter_map, List.map_map]
  rfl

/-- C4 (canonical single emission): for every valid input, the lines of the output are the
records in the slots `finSlots`, in order; no slot is reported twice; every reported slot
holds a record of final status 2 (SpannerEdge); of the two mirrored slots of every record of
final status 2 exactly one is reported; every reported line `(u, v, w)` has `u < v`; and the
count printed on the first line is the number of reported lines. -/
theorem canonical_emission (draws : Nat → Bool) (n t : Nat) (edges : List InEdge)
    (hv : ValidInput n edges) :
    (spanner draws n t edges).2 =
      (finSlots n (finalState draws n t edges).adj).map
        (lineOf (finalState draws n t edges).adj) ∧
    (finSlots n (finalState draws n t edges).adj).Nodup ∧
    (∀ p ∈ finSlots n (finalState draws n t edges).adj,
      InB (finalState draws n t edges).adj p.1 p.2 ∧
        (getE (finalState draws n t edges).adj p.1 p.2).s = 2) ∧
    (∀ j k, InB (finalState draws n t edges).adj j k →
      (getE (finalState draws n t edges).adj j k).s = 2 →
      ((j, k) ∈ finSlots n (finalState draws n t edges).adj ∧
          mir (finalState draws n t edges).adj (j, k) ∉
            finSlots n (finalState draws n t edges).adj) ∨
        ((j, k) ∉ finSlots n (finalState draws n t edges).adj ∧
          mir (finalState draws n t edges).adj (j, k) ∈
            finSlots n (finalState draws n t edges).adj)) ∧
    (∀ x ∈ (spanner draws n t edges).2, x.1 < x.2.1) ∧
    (spanner draws n t edges).1 = (spanner draws n t edges).2.length := by
  obtain ⟨hM, hl, _⟩ := final_mirror draws n t edges hv
  have hI := rounds_inv draws n edges (valid_edges hv) ((t + 1) / 2 - 1)
  have hS := (phase2_spec hI).1
  have hstat : ∀ j k, InB (finalState draws n t edges).adj j k →
      (getE (finalState draws n t edges).adj j k).s = 0 ∨
        (getE (finalState draws n t edges).adj j k).s = 2 := fun j k hb =>
    phase2_no_candidate hI j k ((sameSkel_inB hS j k).mp hb)
  refine ⟨fin_eq_map_finSlots n _, finSlots_nodup n _, ?_, ?_, ?_, rfl⟩
  · intro p hp
    obtain ⟨_, h2, _, h4⟩ := (mem_finSlots n _ p).mp hp
    refine ⟨h2, ?_⟩
    rcases hstat p.1 p.2 h2 with h | h
    · rw [h] at h4
      exact absurd (by decide) h4
    · exact h
  · intro j k hb hs
    obtain ⟨m1, m2, m3⟩ := hM j k hb
    have hj : j < n := hl ▸ inB_lt_length hb
    have hvn : (getE (finalState draws n t edges).adj j k).v < n := by
      have h0 := inB_lt_length m2
      rw [hl] at h0
      exact h0
    by_cases hc : (getE (finalState draws n t edges).adj j k).v < j
    · right
      constructor
      · intro h
        exact ((mem_finSlots n _ (j, k)).mp h).2.2.1 hc
      · rw [mem_finSlots]
        unfold mir
        dsimp only
        rw [m3]
        dsimp only
        exact ⟨hvn, m2, by omega, by omega⟩
    · left
      constructor
      · rw [mem_finSlots]
        exact ⟨hj, hb, hc, by dsimp only; omega⟩
      · intro h
        have h2 := ((mem_finSlots n _ _).mp h).2.2.1
        unfold mir at h2
        dsimp only at h2
        rw [m3] at h2
        dsimp only at h2
        omega
  · intro x hx
    have hx2 : x ∈ fin n (finalState draws n t edges).adj := hx
    obtain ⟨j, k, _, hb, h1, _, hxe⟩ := (mem_fin n _ x).mp hx2
    have hne := (hM j k hb).1
    rw [hxe]
    dsimp only
    omega

theorem canonical_emission_witness :
    ValidInput 4 [(0, 1, 1), (0, 2, 2), (0, 3, 1), (1, 2, 10)] ∧
    (spanner (drawsOf [false, false, true, true, false, false]) 4 5
      [(0, 1, 1), (0, 2, 2), (0, 3, 1), (1, 2, 10)]).1 =
    (spanner (drawsOf [false, false, true, true, false, false]) 4 5
      [(0, 1, 1), (0, 2, 2), (0, 3, 1), (1, 2, 10)]).2.length :=
  ⟨by decide, (canonical_emission (drawsOf [false, false, true, true, false, false]) 4 5
    [(0, 1, 1), (0, 2, 2), (0, 3, 1), (1, 2, 10)] (by decide)).2.2.2.2.2⟩

/-! ## Bridges are kept -/

theorem canon_col_eq (col : Nat → Bool) (a b : Nat) (w : Int) (h : col a = col b) :
    col (canon (a, b, w)).1 = col (canon (a, b, w)).2.1 := by
  rcases canon_cases (a, b, w) with h1 | h1
  · rw [h1]; exact h
  · rw [h1]; exact h.symm

theorem canon_col_ne (col : Nat → Bool) (a b : Nat) (w : Int) (h : col a ≠ col b) :
    col (canon (a, b, w)).1 ≠ col (canon (a, b, w)).2.1 := by
  rcases canon_cases (a, b, w) with h1 | h1
  · rw [h1]; exact h
  · rw [h1]; exact fun h2 => h h2.symm

theorem walk_col {es : List InEdge} (col : Nat → Bool)
    (h : ∀ x ∈ es, col x.1 = col x.2.1) {i j : Nat} {d : Int} (hw : Walk es i j d) :
    col i = col j := by
  induction hw with
  | nil i => rfl
  | cons he _ ih =>
    rcases he with he | he
    · exact (h _ he).trans ih
    · exact (h _ he).symm.trans ih

/-- An input line whose removal separates its endpoints (witnessed by a two-colouring of the
vertices that only this line crosses) is emitted. -/
theorem bridge_in_spanner (draws : Nat → Bool) (n t : Nat) (edges : List InEdge)
    (hv : ValidInput n edges) (c : InEdge) (L : List InEdge) (hL : (edges.map canon).Perm L)
    (hc : c ∈ L) (col : Nat → Bool) (hcol : col c.1 ≠ col c.2.1)
    (hothers : ∀ x ∈ L, x ≠ c → col x.1 = col x.2.1) :
    c ∈ fin n (finalState draws n t edges).adj := by
  by_contra hnot
  have hsub : ∀ x ∈ fin n (finalState draws n t edges).adj, col x.1 = col x.2.1 := by
    intro x hx
    have hxL : x ∈ L := hL.subset ((fin_subperm draws n t edges hv).subset hx)
    apply hothers x hxL
    intro hxc
    exact hnot (hxc ▸ hx)
  have hce : c ∈ edges.map canon := hL.symm.subset hc
  rw [List.mem_map] at hce
  obtain ⟨e, he, hec⟩ := hce
  have hreach : Reachable edges c.1 c.2.1 := by
    rcases canon_cases e with h1 | h1
    · rw [h1] at hec
      rw [← hec]
      exact ⟨_, walk_single (Or.inl he)⟩
    · rw [h1] at hec
      rw [← hec]
      exact ⟨_, walk_single (Or.inr he)⟩
  obtain ⟨d, hw⟩ := reachable_spanner draws n t edges hv c.1 c.2.1 hreach
  exact hcol (walk_col col hsub hw)

theorem canon_ends (e : InEdge) :
    (canon e).2.2 = e.2.2 ∧
      (((canon e).1 = e.1 ∧ (canon e).2.1 = e.2.1) ∨
        ((canon e).1 = e.2.1 ∧ (canon e).2.1 = e.1)) := by
  rcases canon_cases e with h | h
  · rw [h]; exact ⟨rfl, Or.inl ⟨rfl, rfl⟩⟩
  · rw [h]; exact ⟨rfl, Or.inr ⟨rfl, rfl⟩⟩

/-- An input whose lines are, up to order and orientation, those of a list of lines with
endpoints in range, distinct endpoints and weights `>= 0` is valid. -/
theorem valid_of_perm (n : Nat) (edges L : List InEdge) (hn : 1 ≤ n)
    (hL : (edges.map canon).Perm L)
    (hok : ∀ x ∈ L, x.1 < n ∧ x.2.1 < n ∧ x.1 ≠ x.2.1 ∧ 0 ≤ x.2.2) : ValidInput n edges := by
  refine ⟨hn, fun e he => ?_⟩
  have hm : canon e ∈ L := hL.subset (List.mem_map_of_mem _ he)
  obtain ⟨h1, h2, h3, h4⟩ := hok _ hm
  obtain ⟨hw, h | h⟩ := canon_ends e
  · rw [h.1] at h1 h3
    rw [h.2] at h2 h3
    rw [hw] at h4
    exact ⟨h1, h2, h3, h4⟩
  · rw [h.1] at h1 h3
    rw [h.2] at h2 h3
    rw [hw] at h4
    exact ⟨h2, h1, fun x => h3 x.symm, h4⟩

theorem path_spanner (draws : Nat → Bool) (t p0 p1 p2 p3 : Nat) (w1 w2 w3 : Int)
    (edges : List InEdge)
    (hlt : p0 < 4 ∧ p1 < 4 ∧ p2 < 4 ∧ p3 < 4)
    (hd : p0 ≠ p1 ∧ p0 ≠ p2 ∧ p0 ≠ p3 ∧ p1 ≠ p2 ∧ p1 ≠ p3 ∧ p2 ≠ p3)
    (hw : 0 < w1 ∧ 0 < w2 ∧ 0 < w3)
    (he : (edges.map canon).Perm [canon (p0, p1, w1), canon (p1, p2, w2), canon (p2, p3, w3)]) :
    (fin 4 (finalState draws 4 t edges).adj).Perm
      [canon (p0, p1, w1), canon (p1, p2, w2), canon (p2, p3, w3)] := by
  obtain ⟨l0, l1, l2, l3⟩ := hlt
  obtain ⟨d01, d02, d03, d12, d13, d23⟩ := hd
  have hok : ∀ a b : Nat, ∀ w : Int, a < 4 → b < 4 → a ≠ b → 0 < w →
      (canon (a, b, w)).1 < 4 ∧ (canon (a, b, w)).2.1 < 4 ∧
        (canon (a, b, w)).1 ≠ (canon (a, b, w)).2.1 ∧ 0 ≤ (canon (a, b, w)).2.2 := by
    intro a b w ha hb hab hw0
    obtain ⟨e1, e2 | e2⟩ := canon_ends (a, b, w)
    · rw [e1, e2.1, e2.2]; exact ⟨ha, hb, hab, le_of_lt hw0⟩
    · rw [e1, e2.1, e2.2]; exact ⟨hb, ha, fun x => hab x.symm, le_of_lt hw0⟩
  have hv : ValidInput 4 edges := by
    apply valid_of_perm 4 edges _ (by decide) he
    intro x hx
    simp only [List.mem_cons, List.mem_singleton, List.not_mem_nil, or_false] at hx
    rcases hx with h | h | h
    · rw [h]; exact hok p0 p1 w1 l0 l1 d01 hw.1
    · rw [h]; exact hok p1 p2 w2 l1 l2 d12 hw.2.1
    · rw [h]; exact hok p2 p3 w3 l2 l3 d23 hw.2.2
  -- three colourings, each crossed by exactly one line of the path
  have colA1 : (fun x => decide (x = p0)) (canon (p0, p1, w1)).1 ≠
      (fun x => decide (x = p0)) (canon (p0, p1, w1)).2.1 :=
    canon_col_ne (fun x => decide (x = p0)) p0 p1 w1 (by simp [d01.symm])
  have colA2 : (fun x => decide (x = p0)) (canon (p1, p2, w2)).1 =
      (fun x => decide (x = p0)) (canon (p1, p2, w2)).2.1 :=
    canon_col_eq (fun x => decide (x = p0)) p1 p2 w2 (by simp [d01.symm, d02.symm])
  have colA3 : (fun x => decide (x = p0)) (canon (p2, p3, w3)).1 =
      (fun x => decide (x = p0)) (canon (p2, p3, w3)).2.1 :=
    canon_col_eq (fun x => decide (x = p0)) p2 p3 w3 (by simp [d02.symm, d03.symm])
  have colB1 : (fun x => decide (x = p0 ∨ x = p1)) (canon (p0, p1, w1)).1 =
      (fun x => decide (x = p0 ∨ x = p1)) (canon (p0, p1, w1)).2.1 :=
    canon_col_eq (fun x => decide (x = p0 ∨ x = p1)) p0 p1 w1 (by simp)
  have colB2 : (fun x => decide (x = p0 ∨ x = p1)) (canon (p1, p2, w2)).1 ≠
      (fun x => decide (x = p0 ∨ x = p1)) (canon (p1, p2, w2)).2.1 :=
    canon_col_ne (fun x => decide (x = p0 ∨ x = p1)) p1 p2 w2
      (by simp [d02.symm, d12.symm])
  have colB3 : (fun x => decide (x = p0 ∨ x = p1)) (canon (p2, p3, w3)).1 =
      (fun x => decide (x = p0 ∨ x = p1)) (canon (p2, p3, w3)).2.1 :=
    canon_col_eq (fun x => decide (x = p0 ∨ x = p1)) p2 p3 w3
      (by simp [d02.symm, d12.symm, d03.symm, d13.symm])
  have colC1 : (fun x => decide (x = p3)) (canon (p0, p1, w1)).1 =
      (fun x => decide (x = p3)) (canon (p0, p1, w1)).2.1 :=
    canon_col_eq (fun x => decide (x = p3)) p0 p1 w1 (by simp [d03, d13])
  have colC2 : (fun x => decide (x = p3)) (canon (p1, p2, w2)).1 =
      (fun x => decide (x = p3)) (canon (p1, p2, w2)).2.1 :=
    canon_col_eq (fun x => decide (x = p3)) p1 p2 w2 (by simp [d13, d23])
  have colC3 : (fun x => decide (x = p3)) (canon (p2, p3, w3)).1 ≠
      (fun x => decide (x = p3)) (canon (p2, p3, w3)).2.1 :=
    canon_col_ne (fun x => decide (x = p3)) p2 p3 w3 (by simp [d23])
  have n12 : canon (p0, p1, w1) ≠ canon (p1, p2, w2) := fun h => colA1 (h ▸ colA2)
  have n13 : canon (p0, p1, w1) ≠ canon (p2, p3, w3) := fun h => colA1 (h ▸ colA3)
  have n23 : canon (p1, p2, w2) ≠ canon (p2, p3, w3) := fun h => colB2 (h ▸ colB3)
  have hnodup : [canon (p0, p1, w1), canon (p1, p2, w2), canon (p2, p3, w3)].Nodup := by
    simp only [List.nodup_cons, List.mem_cons, List.mem_singleton, List.not_mem_nil,
      not_or, not_false_eq_true, List.nodup_nil, and_true, or_false]
    exact ⟨⟨n12, n13⟩, n23⟩
  have m1 : canon (p0, p1, w1) ∈ fin 4 (finalState draws 4 t edges).adj := by
    apply bridge_in_spanner draws 4 t edges hv _ _ he (by simp) (fun x => decide (x = p0)) colA1
    intro x hx hne
    simp only [List.mem_cons, List.mem_singleton, List.not_mem_nil, or_false] at hx
    rcases hx with h | h | h
    · exact absurd h hne
    · rw [h]; exact colA2
    · rw [h]; exact colA3
  have m2 : canon (p1, p2, w2) ∈ fin 4 (finalState draws 4 t edges).adj := by
    apply bridge_in_spanner draws 4 t edges hv _ _ he (by simp)
      (fun x => decide (x = p0 ∨ x = p1)) colB2
    intro x hx hne
    simp only [List.mem_cons, List.mem_singleton, List.not_mem_nil, or_false] at hx
    rcases hx with h | h | h
    · rw [h]; exact colB1
    · exact absurd h hne
    · rw [h]; exact colB3
  have m3 : canon (p2, p3, w3) ∈ fin 4 (finalState draws 4 t edges).adj := by
    apply bridge_in_spanner draws 4 t edges hv _ _ he (by simp) (fun x => decide (x = p3)) colC3
    intro x hx hne
    simp only [List.mem_cons, List.mem_singleton, List.not_mem_nil, or_false] at hx
    rcases hx with h | h | h
    · rw [h]; exact colC1
    · rw [h]; exact colC2
    · exact absurd h hne
  have hsub : [canon (p0, p1, w1), canon (p1, p2, w2), canon (p2, p3, w3)] ⊆
      fin 4 (finalState draws 4 t edges).adj := by
    intro x hx
    simp only [List.mem_cons, List.mem_singleton, List.not_mem_nil, or_false] at hx
    rcases hx with h | h | h
    · rw [h]; exact m1
    · rw [h]; exact m2
    · rw [h]; exact m3
  have h1 : (fin 4 (finalState draws 4 t edges).adj).Subperm
      [canon (p0, p1, w1), canon (p1, p2, w2), canon (p2, p3, w3)] :=
    (fin_subperm draws 4 t edges hv).trans he.subperm
  exact List.Subperm.antisymm h1 (List.subperm_of_subset hnodup hsub)

/-- C8 (a path is returned unchanged): for every input that is a simple path `p0-p1-p2-p3` on
the 4 vertices `0..3` (any labelling, lines in any order and orientation) with distinct
positive weights, every `t ≥ 1` and every sequence of sampling outcomes, where the weights and
`t + 1` fit the 32-bit `int` variables they are read into (`FitsInt`: below `2^31`), the
emitted lines are exactly the 3 lines of the path with their weights, smaller endpoint
first. -/
theorem path_unchanged (draws : Nat → Bool) (t p0 p1 p2 p3 : Nat) (w1 w2 w3 : Int)
    (edges : List InEdge) (ht : 1 ≤ t) (hfit : FitsInt 4 t edges)
    (hlt : p0 < 4 ∧ p1 < 4 ∧ p2 < 4 ∧ p3 < 4)
    (hd : p0 ≠ p1 ∧ p0 ≠ p2 ∧ p0 ≠ p3 ∧ p1 ≠ p2 ∧ p1 ≠ p3 ∧ p2 ≠ p3)
    (hw : 0 < w1 ∧ 0 < w2 ∧ 0 < w3) (hwd : w1 ≠ w2 ∧ w1 ≠ w3 ∧ w2 ≠ w3)
    (he : (edges.map canon).Perm [canon (p0, p1, w1), canon (p1, p2, w2), canon (p2, p3, w3)]) :
    (spanner draws 4 t edges).2.Perm
        [canon (p0, p1, w1), canon (p1, p2, w2), canon (p2, p3, w3)] ∧
      (spanner draws 4 t edges).1 = 3 := by
  have h := path_spanner draws t p0 p1 p2 p3 w1 w2 w3 edges hlt hd hw he
  exact ⟨h, h.length_eq⟩

theorem path_unchanged_witness :
    FitsInt 4 5 [(2, 0, 7), (1, 3, 4), (3, 2, 9)] ∧
    (spanner (drawsOf [true, false, false, true, false, true]) 4 5
        [(2, 0, 7), (1, 3, 4), (3, 2, 9)]).2.Perm
      [canon (0, 2, 7), canon (2, 3, 9), canon (3, 1, 4)] ∧
    (spanner (drawsOf [true, false, false, true, false, true]) 4 5
        [(2, 0, 7), (1, 3, 4), (3, 2, 9)]).1 = 3 :=
  ⟨by decide,
    path_unchanged (drawsOf [true, false, false, true, false, true]) 5 0 2 3 1 7 9 4
      [(2, 0, 7), (1, 3, 4), (3, 2, 9)] (by decide) (by decide) (by decide) (by decide)
      (by decide) (by decide) (by decide)⟩

/-! ## Stretch 1: zero rounds, then the final augmentation -/

theorem centerIdx_range (n j : Nat) (hj : j < n) :
    (centerIdx n (List.range n)).1.getD j none = some j := by
  obtain ⟨ci, hci⟩ := centerIdx_mem n (List.range n) j (List.mem_range.mpr hj) hj
  obtain ⟨h1, h2, _⟩ := centerIdx_some n (List.range n) j ci hci
  rw [centerIdx_snd, List.length_range] at h1
  rw [getD_range_eq, if_pos h1] at h2
  rw [hci, h2]

theorem finalState_one (draws : Nat → Bool) (n : Nat) (edges : List InEdge) :
    finalState draws n 1 edges = phase2 n (initState n edges) := rfl

/-- With `t = 1` every record has a record of the same two endpoints, not heavier, that phase 2
puts in the spanner. -/
theorem one_record_kept (draws : Nat → Bool) (n : Nat) (edges : List InEdge)
    (hv : ValidInput n edges) (u k : Nat) (hb : InB (build n edges) u k) :
    ∃ y, InB (finalState draws n 1 edges).adj u y ∧
      (getE (finalState draws n 1 edges).adj u y).s = 2 ∧
      (getE (finalState draws n 1 edges).adj u y).v = (getE (build n edges) u k).v ∧
      (getE (finalState draws n 1 edges).adj u y).w ≤ (getE (build n edges) u k).w := by
  have hve := valid_edges hv
  have hI := init_inv n edges hve
  have hS := (phase2_spec hI).1
  obtain ⟨_, _, b3⟩ := build_spec n edges hve
  have hb0 : InB (initState n edges).adj u k := hb
  have hun : u < n := inv_lt hI hb0
  have hvn : (getE (build n edges) u k).v < n := inv_v_lt hI hb0
  have hcl : ∀ x, x < n → (initState n edges).cluster.getD x 0 = x := fun x hx => by
    show (List.range n).getD x 0 = x
    rw [getD_range_eq, if_pos hx]
  have hci : ∀ x, x < n → (centerIdx n (initState n edges).centers).1.getD x none = some x :=
    fun x hx => centerIdx_range n x hx
  have hcand : Cand n (initState n edges) u k (getE (build n edges) u k).v := by
    refine ⟨hb0, b3 u k hb, ?_⟩
    show (centerIdx n (initState n edges).centers).1.getD
      ((initState n edges).cluster.getD (getE (build n edges) u k).v 0) none = _
    rw [hcl _ hvn, hci _ hvn]
  have hlt : (getE (build n edges) u k).v < (centerIdx n (initState n edges).centers).2 := by
    rw [centerIdx_snd]
    show _ < (List.range n).length
    rw [List.length_range]
    exact hvn
  obtain ⟨y, hy⟩ := cand_minEd hlt hcand
  obtain ⟨hyc, hmin⟩ := minEd_cand hy
  have hyb : InB (initState n edges).adj u y := hyc.1
  have hyv : (getE (build n edges) u y).v < n := inv_v_lt hI hyb
  have hvy : (getE (build n edges) u y).v = (getE (build n edges) u k).v := by
    have h3 := hyc.2.2
    have h4 : (centerIdx n (initState n edges).centers).1.getD
        ((initState n edges).cluster.getD (getE (build n edges) u y).v 0) none =
        some (getE (build n edges) u k).v := h3
    rw [hcl _ hyv, hci _ hyv] at h4
    exact Option.some.inj h4
  have hadd : (u, y) ∈ (finalLoop n (initState n edges).adj (initState n edges).cluster
      (initState n edges).ivd (centerIdx n (initState n edges).centers).1
      (centerIdx n (initState n edges).centers).2).1 := by
    rw [mem_final_add]
    refine ⟨hun, ?_, _, hy⟩
    show (List.replicate n 1).getD u 0 ≠ 0
    rw [getD_replicate_eq, if_pos hun]
    decide
  have hs2 := phase2_s_add hI (u, y) hadd
  rw [finalState_one]
  refine ⟨y, (sameSkel_inB hS u y).mpr hyb, hs2, ?_, ?_⟩
  · rw [(hS.2.2 u y).1]
    exact hvy
  · rw [(hS.2.2 u y).2.1]
    exact hmin k hcand

/-- With `t = 1` every input line has an emitted line between the same endpoints that is not
heavier. -/
theorem one_line_kept (draws : Nat → Bool) (n : Nat) (edges : List InEdge)
    (hv : ValidInput n edges) (e : InEdge) (he : e ∈ edges) :
    ∃ w1, w1 ≤ e.2.2 ∧ ((e.1, e.2.1, w1) ∈ fin n (finalState draws n 1 edges).adj ∨
      (e.2.1, e.1, w1) ∈ fin n (finalState draws n 1 edges).adj) := by
  obtain ⟨k, hb, hk1, hk2⟩ := build_record n edges (valid_edges hv) e he
  obtain ⟨y, y1, y2, y3, y4⟩ := one_record_kept draws n edges hv e.1 k hb
  obtain ⟨hM, hl, _⟩ := final_mirror draws n 1 edges hv
  have h := fin_of_record hM hl y1 y2
  rw [y3, hk1] at h
  rw [hk2] at y4
  exact ⟨_, y4, h⟩

theorem walk_lighter (draws : Nat → Bool) (n : Nat) (edges : List InEdge)
    (hv : ValidInput n edges) {i j : Nat} {d : Int} (hw : Walk edges i j d) :
    ∃ d1, d1 ≤ d ∧ Walk (fin n (finalState draws n 1 edges).adj) i j d1 := by
  induction hw with
  | nil i => exact ⟨0, le_refl _, Walk.nil i⟩
  | @cons a b c w d he _ ih =>
    obtain ⟨d1, hd1, hw1⟩ := ih
    rcases he with he | he
    · obtain ⟨w1, hw1le, h⟩ := one_line_kept draws n edges hv _ he
      dsimp only at hw1le
      exact ⟨w1 + d1, by omega, Walk.cons h hw1⟩
    · obtain ⟨w1, hw1le, h⟩ := one_line_kept draws n edges hv _ he
      dsimp only at hw1le
      exact ⟨w1 + d1, by omega, Walk.cons h.symm hw1⟩

theorem walk_of_subset {es fs : List InEdge}
    (h : ∀ x ∈ es, x ∈ fs ∨ (x.2.1, x.1, x.2.2) ∈ fs) {i j : Nat} {d : Int}
    (hw : Walk es i j d) : Walk fs i j d := by
  induction hw with
  | nil i => exact Walk.nil i
  | cons he _ ih =>
    rcases he with he | he
    · exact Walk.cons (h _ he) ih
    · exact Walk.cons (h _ he).symm ih

theorem fin_mem_edges (draws : Nat → Bool) (n t : Nat) (edges : List InEdge)
    (hv : ValidInput n edges) :
    ∀ x ∈ fin n (finalState draws n t edges).adj, x ∈ edges ∨ (x.2.1, x.1, x.2.2) ∈ edges := by
  intro x hx
  have hx2 : x ∈ edges.map canon := (fin_subperm draws n t edges hv).subset hx
  rw [List.mem_map] at hx2
  obtain ⟨e, he, hce⟩ := hx2
  rcases canon_cases e with h | h
  · left
    rw [← hce, h]
    exact he
  · right
    rw [← hce, h]
    exact he

theorem one_dist (draws : Nat → Bool) (n : Nat) (edges : List InEdge)
    (hv : ValidInput n edges) (i j : Nat) (d : Int) :
    IsDist (fin n (finalState draws n 1 edges).adj) i j d ↔ IsDist edges i j d := by
  have hsub := fin_mem_edges draws n 1 edges hv
  constructor
  · rintro ⟨h1, h2⟩
    refine ⟨walk_of_subset hsub h1, fun d1 hd1 => ?_⟩
    obtain ⟨d2, hle, hw2⟩ := walk_lighter draws n edges hv hd1
    have := h2 d2 hw2
    omega
  · rintro ⟨h1, h2⟩
    obtain ⟨d2, hle, hw2⟩ := walk_lighter draws n edges hv h1
    have hge := h2 d2 (walk_of_subset hsub hw2)
    have hd : d2 = d := by omega
    rw [hd] at hw2
    exact ⟨hw2, fun d1 hd1 => h2 d1 (walk_of_subset hsub hd1)⟩

theorem canon_sorted (e : InEdge) : (canon e).1 ≤ (canon e).2.1 := by
  unfold canon
  dsimp only
  omega

theorem one_no_parallel (draws : Nat → Bool) (n : Nat) (edges : List InEdge)
    (hv : ValidInput n edges)
    (hnp : (edges.map (fun e => ((canon e).1, (canon e).2.1))).Nodup) :
    (fin n (finalState draws n 1 edges).adj).Perm (edges.map canon) := by
  have hsp := fin_subperm draws n 1 edges hv
  have hnd : (edges.map canon).Nodup := by
    have h2 : edges.map (fun e => ((canon e).1, (canon e).2.1)) =
        (edges.map canon).map (fun x => (x.1, x.2.1)) := by
      rw [List.map_map]; rfl
    rw [h2] at hnp
    exact List.Nodup.of_map _ hnp
  have hinj := List.inj_on_of_nodup_map hnp
  have hsub : edges.map canon ⊆ fin n (finalState draws n 1 edges).adj := by
    intro c hc
    rw [List.mem_map] at hc
    obtain ⟨e, he, hec⟩ := hc
    obtain ⟨w1, _, hline⟩ := one_line_kept draws n edges hv e he
    -- the emitted line between the endpoints of `e` is the canonical form of an input line
    have key : ∀ x : InEdge, x ∈ fin n (finalState draws n 1 edges).adj →
        ((x.1 = e.1 ∧ x.2.1 = e.2.1) ∨ (x.1 = e.2.1 ∧ x.2.1 = e.1)) →
        c ∈ fin n (finalState draws n 1 edges).adj := by
      intro x hx hends
      have hx2 : x ∈ edges.map canon := hsp.subset hx
      rw [List.mem_map] at hx2
      obtain ⟨e2, he2, hce2⟩ := hx2
      have hsort := canon_sorted e2
      rw [hce2] at hsort
      have hpair : ((canon e2).1, (canon e2).2.1) = ((canon e).1, (canon e).2.1) := by
        rw [hce2]
        have hsort2 := canon_sorted e
        obtain ⟨_, h | h⟩ := canon_ends e
        · rw [h.1, h.2] at hsort2 ⊢
          rcases hends with a | a
          · rw [a.1, a.2]
          · rw [a.1, a.2] at hsort
            have e1 : e.1 = e.2.1 := by omega
            rw [a.1, a.2, ← e1]
        · rw [h.1, h.2] at hsort2 ⊢
          rcases hends with a | a
          · rw [a.1, a.2] at hsort
            have e1 : e.1 = e.2.1 := by omega
            rw [a.1, a.2, ← e1]
          · rw [a.1, a.2]
      have hee : e2 = e := hinj he2 he hpair
      rw [← hec, ← hee, hce2]
      exact hx
    rcases hline with h | h
    · exact key _ h (Or.inl ⟨rfl, rfl⟩)
    · exact key _ h (Or.inr ⟨rfl, rfl⟩)
  exact List.Subperm.antisymm hsp (List.subperm_of_subset hnd hsub)

theorem one_complete_graph (draws : Nat → Bool) :
    spanner draws 4 1 [(0, 1, 1), (0, 2, 1), (0, 3, 1), (1, 2, 1), (1, 3, 1), (2, 3, 1)] =
      (6, [(0, 1, 1), (0, 2, 1), (0, 3, 1), (1, 2, 1), (1, 3, 1), (2, 3, 1)]) := by
  unfold spanner
  rw [finalState_one]
  decide

/-- C7 (degenerate stretch `t = 1`): for every valid input whose numbers fit the 32-bit `int`
variables they are read into (`FitsInt`: `n`, `m` and every weight below `2^31`) and `t = 1`,
phase 1 performs zero rounds (the final state is phase 2 applied to the initial state) and
consumes no draw; the output has the pairwise shortest-path distances of the input; for an
input without parallel lines the emitted lines are exactly the input lines (smaller endpoint
first); and the complete graph on 4 vertices with uniform weight 1 yields all 6 edges. -/
theorem stretch_one_exact (draws : Nat → Bool) (n : Nat) (edges : List InEdge)
    (hv : ValidInput n edges) (hfit : FitsInt n 1 edges) :
    finalState draws n 1 edges = phase2 n (initState n edges) ∧
    (finalState draws n 1 edges).pos = 0 ∧
    (∀ i j d, IsDist (spanner draws n 1 edges).2 i j d ↔ IsDist edges i j d) ∧
    ((edges.map (fun e => ((canon e).1, (canon e).2.1))).Nodup →
      (spanner draws n 1 edges).2.Perm (edges.map canon)) ∧
    spanner draws 4 1 [(0, 1, 1), (0, 2, 1), (0, 3, 1), (1, 2, 1), (1, 3, 1), (2, 3, 1)] =
      (6, [(0, 1, 1), (0, 2, 1), (0, 3, 1), (1, 2, 1), (1, 3, 1), (2, 3, 1)]) :=
  ⟨rfl, rfl, one_dist draws n edges hv, one_no_parallel draws n edges hv,
    one_complete_graph draws⟩

theorem stretch_one_exact_witness :
    ValidInput 4 [(0, 1, 1), (0, 2, 1), (0, 3, 1), (1, 2, 1), (1, 3, 1), (2, 3, 1)] ∧
    FitsInt 4 1 [(0, 1, 1), (0, 2, 1), (0, 3, 1), (1, 2, 1), (1, 3, 1), (2, 3, 1)] ∧
    (∀ i j d, IsDist (spanner (drawsOf []) 4 1
        [(0, 1, 1), (0, 2, 1), (0, 3, 1), (1, 2, 1), (1, 3, 1), (2, 3, 1)]).2 i j d ↔
      IsDist [(0, 1, 1), (0, 2, 1), (0, 3, 1), (1, 2, 1), (1, 3, 1), (2, 3, 1)] i j d) :=
  ⟨by decide, by decide,
    (stretch_one_exact (drawsOf []) 4
      [(0, 1, 1), (0, 2, 1), (0, 3, 1), (1, 2, 1), (1, 3, 1), (2, 3, 1)] (by decide)
      (by decide)).2.2.1⟩

end TSpanner

namespace Checker

open TSpanner

/-! ## 64-bit arithmetic -/

theorem wrap64_eq (x : Int) (h1 : -(2 ^ 63) ≤ x) (h2 : x < 2 ^ 63) : wrap64 x = x := by
  unfold wrap64
  rw [Int.emod_eq_of_lt (by omega) (by omega)]
  omega

theorem big_eq : BIG = 1125899906842624 := by
  unfold BIG
  norm_num

/-! ## Matrices -/

theorem getM_setM {n : Nat} {d : List (List Int)} (hS : Shape n d) (i j : Nat) (x : Int)
    (a b : Nat) :
    getM (setM d i j x) a b = if a = i ∧ b = j ∧ i < n ∧ j < n then x else getM d a b := by
  unfold getM setM
  rw [getD_set_eq, hS.1]
  by_cases h1 : i = a ∧ i < n
  · obtain ⟨h1a, h1b⟩ := h1
    subst h1a
    rw [if_pos ⟨rfl, h1b⟩, getD_set_eq, hS.2 i h1b]
    by_cases h2 : j = b ∧ j < n
    · rw [if_pos h2, if_pos ⟨rfl, h2.1.symm, h1b, h2.2⟩]
    · rw [if_neg h2, if_neg]
      rintro ⟨_, c, _, e⟩
      exact h2 ⟨c.symm, e⟩
  · rw [if_neg h1, if_neg]
    rintro ⟨c, _, e, _⟩
    exact h1 ⟨c.symm, e⟩

theorem shape_setM {n : Nat} {d : List (List Int)} (hS : Shape n d) (i j : Nat) (x : Int) :
    Shape n (setM d i j x) := by
  unfold setM
  refine ⟨by rw [List.length_set]; exact hS.1, fun a ha => ?_⟩
  rw [getD_set_eq]
  split
  · rename_i h
    rw [List.length_set, h.1]
    exact hS.2 a ha
  · exact hS.2 a ha

/-- The effect of lowering one entry to a sound value. -/
theorem lower_spec {n : Nat} {es : List InEdge} {d : List (List Int)} (hSh : Shape n d)
    (hS : Sound n es d) (i j : Nat) (x : Int) (hi : i < n) (hj : j < n) (hx0 : 0 ≤ x)
    (hxw : x < BIG → Walk es i j x) :
    Shape n (setM d i j (min (getM d i j) x)) ∧
    Sound n es (setM d i j (min (getM d i j) x)) ∧
    (∀ a b, getM (setM d i j (min (getM d i j) x)) a b ≤ getM d a b) ∧
    getM (setM d i j (min (getM d i j) x)) i j ≤ x := by
  refine ⟨shape_setM hSh _ _ _, ?_, ?_, ?_⟩
  · intro a b ha hb
    rw [getM_setM hSh]
    by_cases c : a = i ∧ b = j ∧ i < n ∧ j < n
    · rw [if_pos c]
      obtain ⟨c1, c2, _, _⟩ := c
      subst c1 c2
      obtain ⟨s1, s2, s3⟩ := hS a b ha hb
      refine ⟨le_min s1 hx0, le_trans (min_le_left _ _) s2, ?_⟩
      intro hlt
      by_cases hc : getM d a b ≤ x
      · rw [min_eq_left hc] at hlt ⊢
        exact s3 hlt
      · have hc2 : x ≤ getM d a b := by omega
        rw [min_eq_right hc2] at hlt ⊢
        exact hxw hlt
    · rw [if_neg c]
      exact hS a b ha hb
  · intro a b
    rw [getM_setM hSh]
    split
    · rename_i c
      rw [c.1, c.2.1]
      exact min_le_left _ _
    · exact le_refl _
  · rw [getM_setM hSh, if_pos ⟨rfl, rfl, hi, hj⟩]
    exact min_le_right _ _

/-! ## Loops with processed elements -/

theorem foldl_inv_mem {α β : Type} (P : β → Prop) (Q : α → β → Prop) (f : β → α → β)
    (l : List α) (b : β) (h0 : P b) (hP : ∀ b a, a ∈ l → P b → P (f b a))
    (hQ : ∀ b a, a ∈ l → P b → Q a (f b a))
    (hstab : ∀ b a x, x ∈ l → P b → Q a b → Q a (f b x)) :
    P (l.foldl f b) ∧ ∀ a ∈ l, Q a (l.foldl f b) := by
  induction l generalizing b with
  | nil => exact ⟨h0, fun a ha => absurd ha (List.not_mem_nil a)⟩
  | cons x xs ih =>
    simp only [List.foldl_cons]
    have hP1 : P (f b x) := hP b x (List.mem_cons_self _ _) h0
    have hQ1 : Q x (f b x) := hQ b x (List.mem_cons_self _ _) h0
    obtain ⟨i1, i2⟩ := ih (f b x) hP1
      (fun b a ha => hP b a (List.mem_cons_of_mem _ ha))
      (fun b a ha => hQ b a (List.mem_cons_of_mem _ ha))
      (fun b a y hy => hstab b a y (List.mem_cons_of_mem _ hy))
    refine ⟨i1, fun a ha => ?_⟩
    rcases List.mem_cons.mp ha with hax | hax
    · subst hax
      have := foldl_inv (fun c => P c ∧ Q a c) f xs (f b a) ⟨hP1, hQ1⟩
        (fun c y hy hc => ⟨hP c y (List.mem_cons_of_mem _ hy) hc.1,
          hstab c a y (List.mem_cons_of_mem _ hy) hc.1 hc.2⟩)
      exact this.2
    · exact i2 a hax

/-! ## The adjacency lists of the checker -/

theorem length_addPair (adj : List (List (Nat × Int))) (e : InEdge) :
    (addPair adj e).length = adj.length := by
  unfold addPair
  simp only [List.length_set]

theorem mem_addPair (adj : List (List (Nat × Int))) (e : InEdge) (hu : e.1 < adj.length)
    (hv : e.2.1 < adj.length) (u : Nat) (p : Nat × Int) :
    p ∈ (addPair adj e).getD u [] ↔
      p ∈ adj.getD u [] ∨ (u, p.1, p.2) = e ∨ (p.1, u, p.2) = e := by
  unfold addPair
  dsimp only
  have e1 : (u, p.1, p.2) = e ↔ (u = e.1 ∧ p = (e.2.1, e.2.2)) := by
    constructor
    · intro h
      rw [← h]
      exact ⟨rfl, rfl⟩
    · rintro ⟨a, b⟩
      rw [a, b]
  have e2 : (p.1, u, p.2) = e ↔ (u = e.2.1 ∧ p = (e.1, e.2.2)) := by
    constructor
    · intro h
      rw [← h]
      exact ⟨rfl, rfl⟩
    · rintro ⟨a, b⟩
      rw [a, b]
  rw [e1, e2, getD_set_eq, List.length_set]
  have hinner : ∀ x, p ∈ (adj.set e.1 (adj.getD e.1 [] ++ [(e.2.1, e.2.2)])).getD x [] ↔
      p ∈ adj.getD x [] ∨ (x = e.1 ∧ p = (e.2.1, e.2.2)) := by
    intro x
    rw [getD_set_eq]
    by_cases c : e.1 = x ∧ e.1 < adj.length
    · rw [if_pos c, List.mem_append, List.mem_singleton, c.1]
      constructor
      · rintro (a | a)
        · exact Or.inl a
        · exact Or.inr ⟨rfl, a⟩
      · rintro (a | ⟨_, a⟩)
        · exact Or.inl a
        · exact Or.inr a
    · rw [if_neg c]
      constructor
      · exact fun a => Or.inl a
      · rintro (a | ⟨a, _⟩)
        · exact a
        · exact absurd ⟨a.symm, hu⟩ c
  by_cases c : e.2.1 = u ∧ e.2.1 < adj.length
  · rw [if_pos c, List.mem_append, List.mem_singleton, hinner, c.1]
    constructor
    · rintro ((a | a) | a)
      · exact Or.inl a
      · exact Or.inr (Or.inl a)
      · exact Or.inr (Or.inr ⟨rfl, a⟩)
    · rintro (a | a | ⟨_, a⟩)
      · exact Or.inl (Or.inl a)
      · exact Or.inl (Or.inr a)
      · exact Or.inr a
  · rw [if_neg c, hinner]
    constructor
    · rintro (a | a)
      · exact Or.inl a
      · exact Or.inr (Or.inl a)
    · rintro (a | a | ⟨a, _⟩)
      · exact Or.inl a
      · exact Or.inr a
      · exact absurd ⟨a.symm, hv⟩ c

theorem mem_foldl_addPair (n : Nat) (es : List InEdge) (adj0 : List (List (Nat × Int)))
    (hl : adj0.length = n) (hv : ValidGraph n es) (u : Nat) (p : Nat × Int) :
    p ∈ (es.foldl addPair adj0).getD u [] ↔
      p ∈ adj0.getD u [] ∨ (u, p.1, p.2) ∈ es ∨ (p.1, u, p.2) ∈ es := by
  induction es generalizing adj0 with
  | nil => simp
  | cons e es ih =>
    obtain ⟨h1, h2, _⟩ := hv e (List.mem_cons_self _ _)
    rw [← hl] at h1 h2
    simp only [List.foldl_cons]
    rw [ih (addPair adj0 e) (by rw [length_addPair]; exact hl)
      (fun x hx => hv x (List.mem_cons_of_mem _ hx)), mem_addPair adj0 e h1 h2]
    simp only [List.mem_cons]
    constructor
    · rintro ((a | a | a) | a | a)
      · exact Or.inl a
      · exact Or.inr (Or.inl (Or.inl a))
      · exact Or.inr (Or.inr (Or.inl a))
      · exact Or.inr (Or.inl (Or.inr a))
      · exact Or.inr (Or.inr (Or.inr a))
    · rintro (a | (a | a) | (a | a))
      · exact Or.inl (Or.inl a)
      · exact Or.inl (Or.inr (Or.inl a))
      · exact Or.inr (Or.inl a)
      · exact Or.inl (Or.inr (Or.inr a))
      · exact Or.inr (Or.inr a)

theorem mem_adjOf (n : Nat) (es : List InEdge) (hv : ValidGraph n es) (u : Nat)
    (p : Nat × Int) :
    p ∈ (adjOf n es).getD u [] ↔ ((u, p.1, p.2) ∈ es ∨ (p.1, u, p.2) ∈ es) := by
  unfold adjOf
  rw [mem_foldl_addPair n es _ (List.length_replicate _ _) hv]
  constructor
  · rintro (a | a)
    · rw [getD_replicate_eq] at a
      split at a <;> simp at a
    · exact a
  · exact fun a => Or.inr a

/-! ## Initialisation of the matrix -/

theorem initRow_spec {n : Nat} {es : List InEdge} {d : List (List Int)} (hSh : Shape n d)
    (hS : Sound n es d) (u : Nat) (hu : u < n) (row : List (Nat × Int))
    (hrow : ∀ p ∈ row, p.1 < n ∧ 0 ≤ p.2 ∧ ((u, p.1, p.2) ∈ es ∨ (p.1, u, p.2) ∈ es)) :
    (Shape n (initRow d u row) ∧ Sound n es (initRow d u row) ∧
      (∀ a b, getM (initRow d u row) a b ≤ getM d a b) ∧ getM (initRow d u row) u u ≤ 0) ∧
    ∀ p ∈ row, getM (initRow d u row) u p.1 ≤ p.2 := by
  have h0 := (hS u u hu hu).1
  have hstart : setM d u u 0 = setM d u u (min (getM d u u) 0) := by
    rw [min_eq_right h0]
  obtain ⟨s1, s2, s3, s4⟩ := lower_spec hSh hS u u 0 hu hu (le_refl _)
    (fun _ => Walk.nil u)
  rw [← hstart] at s1 s2 s3 s4
  unfold initRow
  refine foldl_inv_mem
    (fun c => Shape n c ∧ Sound n es c ∧ (∀ a b, getM c a b ≤ getM d a b) ∧ getM c u u ≤ 0)
    (fun p c => getM c u p.1 ≤ p.2)
    (fun d p => setM d u p.1 (min (getM d u p.1) p.2)) row (setM d u u 0) ?_ ?_ ?_ ?_
  · exact ⟨s1, s2, s3, s4⟩
  · intro c p hp ⟨c1, c2, c3, c4⟩
    obtain ⟨r1, r2, r3⟩ := hrow p hp
    obtain ⟨l1, l2, l3, _⟩ := lower_spec c1 c2 u p.1 p.2 hu r1 r2
      (fun _ => walk_single r3)
    exact ⟨l1, l2, fun a b => le_trans (l3 a b) (c3 a b), le_trans (l3 u u) c4⟩
  · intro c p hp ⟨c1, c2, _, _⟩
    obtain ⟨r1, r2, r3⟩ := hrow p hp
    exact (lower_spec c1 c2 u p.1 p.2 hu r1 r2 (fun _ => walk_single r3)).2.2.2
  · intro c p x hx ⟨c1, c2, _, _⟩ hq
    obtain ⟨r1, r2, r3⟩ := hrow x hx
    obtain ⟨_, _, l3, _⟩ := lower_spec c1 c2 u x.1 x.2 hu r1 r2
      (fun _ => walk_single r3)
    exact le_trans (l3 u p.1) hq

theorem fwInit_spec (n : Nat) (es : List InEdge) (hv : ValidGraph n es) :
    (Shape n (fwInit n (adjOf n es)) ∧ Sound n es (fwInit n (adjOf n es))) ∧
    ∀ u ∈ List.range n, getM (fwInit n (adjOf n es)) u u ≤ 0 ∧
      ∀ p ∈ (adjOf n es).getD u [], getM (fwInit n (adjOf n es)) u p.1 ≤ p.2 := by
  have hrow : ∀ u, ∀ p ∈ (adjOf n es).getD u [],
      p.1 < n ∧ 0 ≤ p.2 ∧ ((u, p.1, p.2) ∈ es ∨ (p.1, u, p.2) ∈ es) := by
    intro u p hp
    have h := (mem_adjOf n es hv u p).mp hp
    rcases h with a | a
    · exact ⟨(hv _ a).2.1, (hv _ a).2.2, Or.inl a⟩
    · exact ⟨(hv _ a).1, (hv _ a).2.2, Or.inr a⟩
  unfold fwInit
  refine foldl_inv_mem (fun c => Shape n c ∧ Sound n es c)
    (fun u c => getM c u u ≤ 0 ∧ ∀ p ∈ (adjOf n es).getD u [], getM c u p.1 ≤ p.2)
    (fun d u => initRow d u ((adjOf n es).getD u [])) (List.range n)
    (List.replicate n (List.replicate n BIG)) ?_ ?_ ?_ ?_
  · constructor
    · refine ⟨List.length_replicate _ _, fun i hi => ?_⟩
      rw [getD_replicate_eq, if_pos hi, List.length_replicate]
    · intro i j hi hj
      have e : getM (List.replicate n (List.replicate n BIG)) i j = BIG := by
        unfold getM
        rw [getD_replicate_eq, if_pos hi, getD_replicate_eq, if_pos hj]
      rw [e, big_eq]
      exact ⟨by omega, le_refl _, fun h => absurd h (lt_irrefl _)⟩
  · intro c u hu ⟨c1, c2⟩
    obtain ⟨⟨r1, r2, _, _⟩, _⟩ := initRow_spec c1 c2 u (List.mem_range.mp hu) _ (hrow u)
    exact ⟨r1, r2⟩
  · intro c u hu ⟨c1, c2⟩
    obtain ⟨⟨_, _, _, r4⟩, r5⟩ := initRow_spec c1 c2 u (List.mem_range.mp hu) _ (hrow u)
    exact ⟨r4, r5⟩
  · intro c u x hx ⟨c1, c2⟩ ⟨q1, q2⟩
    obtain ⟨⟨_, _, r3, _⟩, _⟩ := initRow_spec c1 c2 x (List.mem_range.mp hx) _ (hrow x)
    exact ⟨le_trans (r3 u u) q1, fun p hp => le_trans (r3 u p.1) (q2 p hp)⟩

/-! ## One stage of the triple loop -/

theorem relax_spec {n : Nat} {es : List InEdge} {d : List (List Int)} (hSh : Shape n d)
    (hS : Sound n es d) (k i j : Nat) (hk : k < n) (hi : i < n) (hj : j < n) :
    Shape n (relax d k i j) ∧ Sound n es (relax d k i j) ∧
    (∀ a b, getM (relax d k i j) a b ≤ getM d a b) ∧
    getM (relax d k i j) i j ≤ getM d i k + getM d k j := by
  obtain ⟨a1, a2, a3⟩ := hS i k hi hk
  obtain ⟨b1, b2, b3⟩ := hS k j hk hj
  have hw : wrap64 (getM d i k + getM d k j) = getM d i k + getM d k j := by
    apply wrap64_eq
    · omega
    · rw [big_eq] at a2 b2
      omega
  unfold relax
  rw [hw]
  apply lower_spec hSh hS i j _ hi hj (by omega)
  intro hlt
  exact walk_trans (a3 (by omega)) (b3 (by omega))

theorem fwStage_spec {n : Nat} {es : List InEdge} {d : List (List Int)} (hSh : Shape n d)
    (hS : Sound n es d) (k : Nat) (hk : k < n) :
    (Shape n (fwStage n d k) ∧ Sound n es (fwStage n d k) ∧
      ∀ a b, getM (fwStage n d k) a b ≤ getM d a b) ∧
    ∀ i ∈ List.range n, ∀ j ∈ List.range n,
      getM (fwStage n d k) i j ≤ getM d i k + getM d k j := by
  have hinner : ∀ (c : List (List Int)) (i : Nat), i < n →
      (Shape n c ∧ Sound n es c ∧ ∀ a b, getM c a b ≤ getM d a b) →
      (Shape n ((List.range n).foldl (fun d1 j => relax d1 k i j) c) ∧
        Sound n es ((List.range n).foldl (fun d1 j => relax d1 k i j) c) ∧
        ∀ a b, getM ((List.range n).foldl (fun d1 j => relax d1 k i j) c) a b ≤ getM c a b) ∧
      ∀ j ∈ List.range n,
        getM ((List.range n).foldl (fun d1 j => relax d1 k i j) c) i j ≤
          getM d i k + getM d k j := by
    intro c i hi ⟨c1, c2, c3⟩
    refine foldl_inv_mem
      (fun c0 => Shape n c0 ∧ Sound n es c0 ∧ ∀ a b, getM c0 a b ≤ getM c a b)
      (fun j c0 => getM c0 i j ≤ getM d i k + getM d k j)
      (fun d1 j => relax d1 k i j) (List.range n) c ?_ ?_ ?_ ?_
    · exact ⟨c1, c2, fun a b => le_refl _⟩
    · intro c0 j hj ⟨e1, e2, e3⟩
      obtain ⟨r1, r2, r3, _⟩ := relax_spec e1 e2 k i j hk hi (List.mem_range.mp hj)
      exact ⟨r1, r2, fun a b => le_trans (r3 a b) (e3 a b)⟩
    · intro c0 j hj ⟨e1, e2, e3⟩
      obtain ⟨_, _, _, r4⟩ := relax_spec e1 e2 k i j hk hi (List.mem_range.mp hj)
      have h1 := le_trans (e3 i k) (c3 i k)
      have h2 := le_trans (e3 k j) (c3 k j)
      show getM (relax c0 k i j) i j ≤ getM d i k + getM d k j
      omega
    · intro c0 j x hx ⟨e1, e2, _⟩ hq
      obtain ⟨_, _, r3, _⟩ := relax_spec e1 e2 k i x hk hi (List.mem_range.mp hx)
      exact le_trans (r3 i j) hq
  unfold fwStage
  refine foldl_inv_mem
    (fun c => Shape n c ∧ Sound n es c ∧ ∀ a b, getM c a b ≤ getM d a b)
    (fun i c => ∀ j ∈ List.range n, getM c i j ≤ getM d i k + getM d k j)
    (fun d i => (List.range n).foldl (fun d1 j => relax d1 k i j) d) (List.range n) d
    ?_ ?_ ?_ ?_
  · exact ⟨hSh, hS, fun a b => le_refl _⟩
  · intro c i hi hc
    obtain ⟨⟨r1, r2, r3⟩, _⟩ := hinner c i (List.mem_range.mp hi) hc
    exact ⟨r1, r2, fun a b => le_trans (r3 a b) (hc.2.2 a b)⟩
  · intro c i hi hc
    exact (hinner c i (List.mem_range.mp hi) hc).2
  · intro c i x hx hc hq j hj
    obtain ⟨⟨_, _, r3⟩, _⟩ := hinner c x (List.mem_range.mp hx) hc
    exact le_trans (r3 i j) (hq j hj)

/-! ## Walks with bounded intermediate vertices -/

theorem walkIn_nonneg {n : Nat} {es : List InEdge} (hv : ValidGraph n es) {k i j : Nat}
    {d : Int} (h : WalkIn es k i j d) : 0 ≤ d := by
  induction h with
  | nil i => exact le_refl _
  | edge he =>
    rcases he with he | he
    · exact (hv _ he).2.2
    · exact (hv _ he).2.2
  | @cons a m b w d he _ _ ih =>
    have hw : 0 ≤ w := by
      rcases he with he | he
      · exact (hv _ he).2.2
      · exact (hv _ he).2.2
    exact add_nonneg hw ih

/-- A walk through vertices below `k + 1` avoids `k`, or splits at `k` into two walks through
vertices below `k` that together are not heavier. -/
theorem walkIn_split {n : Nat} {es : List InEdge} (hv : ValidGraph n es) {k i j : Nat}
    {d : Int} (h : WalkIn es (k + 1) i j d) :
    WalkIn es k i j d ∨
      ∃ d1 d2, WalkIn es k i k d1 ∧ WalkIn es k k j d2 ∧ d1 + d2 ≤ d := by
  induction h with
  | nil i => exact Or.inl (WalkIn.nil i)
  | edge he => exact Or.inl (WalkIn.edge he)
  | @cons a m b w d he hm _ ih =>
    have hw : 0 ≤ w := by
      rcases he with he | he
      · exact (hv _ he).2.2
      · exact (hv _ he).2.2
    by_cases hmk : m < k
    · rcases ih with h1 | ⟨d1, d2, h1, h2, h3⟩
      · exact Or.inl (WalkIn.cons he hmk h1)
      · exact Or.inr ⟨w + d1, d2, WalkIn.cons he hmk h1, h2, by omega⟩
    · have hmk2 : m = k := by omega
      subst hmk2
      rcases ih with h1 | ⟨d1, d2, h1, h2, h3⟩
      · exact Or.inr ⟨w, d, WalkIn.edge he, h1, le_refl _⟩
      · have hd1 := walkIn_nonneg hv h1
        exact Or.inr ⟨w, d2, WalkIn.edge he, h2, by omega⟩

theorem walk_walkIn {n : Nat} {es : List InEdge} (hv : ValidGraph n es) {i j : Nat} {d : Int}
    (h : Walk es i j d) : WalkIn es n i j d := by
  induction h with
  | nil i => exact WalkIn.nil i
  | @cons a m b w d he _ ih =>
    have hm : m < n := by
      rcases he with he | he
      · exact (hv _ he).2.1
      · exact (hv _ he).1
    exact WalkIn.cons he hm ih

/-! ## Correctness of `distances_fw` -/

theorem fw_inv (n : Nat) (es : List InEdge) (hv : ValidGraph n es) :
    Shape n (distances_fw n (adjOf n es)) ∧ Sound n es (distances_fw n (adjOf n es)) ∧
    ∀ i j, i < n → j < n → ∀ d, WalkIn es n i j d →
      getM (distances_fw n (adjOf n es)) i j ≤ d := by
  obtain ⟨⟨i1, i2⟩, i3⟩ := fwInit_spec n es hv
  unfold distances_fw
  apply foldl_range_inv
    (fun k (c : List (List Int)) => Shape n c ∧ Sound n es c ∧
      ∀ i j, i < n → j < n → ∀ d, WalkIn es k i j d → getM c i j ≤ d)
  · refine ⟨i1, i2, ?_⟩
    intro i j hi hj d hw
    cases hw with
    | nil => exact (i3 i (List.mem_range.mpr hi)).1
    | edge he =>
      apply (i3 i (List.mem_range.mpr hi)).2 (j, d)
      exact (mem_adjOf n es hv i (j, d)).mpr he
    | cons _ hm _ => exact absurd hm (Nat.not_lt_zero _)
  · intro k c hk ⟨c1, c2, c3⟩
    obtain ⟨⟨s1, s2, s3⟩, s4⟩ := fwStage_spec c1 c2 k hk
    refine ⟨s1, s2, ?_⟩
    intro i j hi hj d hw
    rcases walkIn_split hv hw with h | ⟨d1, d2, h1, h2, h3⟩
    · exact le_trans (s3 i j) (c3 i j hi hj d h)
    · have e1 := c3 i k hi hk d1 h1
      have e2 := c3 k j hk hj d2 h2
      have e3 := s4 i (List.mem_range.mpr hi) j (List.mem_range.mpr hj)
      omega

/-- The entries of the matrix returned by `distances_fw`: between 0 and `2^50`, at most the
weight of every walk, and the weight of a walk when below `2^50`. -/
theorem fw_entry (n : Nat) (es : List InEdge) (hv : ValidGraph n es) (i j : Nat) (hi : i < n)
    (hj : j < n) :
    0 ≤ getM (distances_fw n (adjOf n es)) i j ∧
    getM (distances_fw n (adjOf n es)) i j ≤ BIG ∧
    (∀ d, Walk es i j d → getM (distances_fw n (adjOf n es)) i j ≤ d) ∧
    (getM (distances_fw n (adjOf n es)) i j < BIG →
      Walk es i j (getM (distances_fw n (adjOf n es)) i j)) := by
  obtain ⟨_, h2, h3⟩ := fw_inv n es hv
  obtain ⟨a1, a2, a3⟩ := h2 i j hi hj
  exact ⟨a1, a2, fun d hw => h3 i j hi hj d (walk_walkIn hv hw), a3⟩

theorem fw_true_distance (n : Nat) (es : List InEdge) (hv : ValidGraph n es)
    (hsum : ∀ i j d, IsDist es i j d → d < BIG) (i j : Nat) (hi : i < n) (hj : j < n) :
    (i = j → getM (distances_fw n (adjOf n es)) i j = 0) ∧
    (∀ d, IsDist es i j d → getM (distances_fw n (adjOf n es)) i j = d) ∧
    (¬ Reachable es i j → getM (distances_fw n (adjOf n es)) i j = BIG) := by
  obtain ⟨a1, a2, a3, a4⟩ := fw_entry n es hv i j hi hj
  refine ⟨?_, ?_, ?_⟩
  · intro hij
    subst hij
    have := a3 0 (Walk.nil i)
    omega
  · intro d hd
    have h1 := a3 d hd.1
    have h2 := hsum i j d hd
    have h3 := hd.2 _ (a4 (by omega))
    omega
  · intro hnr
    by_contra hne
    have hlt : getM (distances_fw n (adjOf n es)) i j < BIG := by omega
    exact hnr ⟨_, a4 hlt⟩

/-! ## The verdict -/

theorem verify_iff {n : Nat} {d1 : List (List Int)} (d2 : List (List Int)) (t : Int)
    (hS : Shape n d1) :
    verify d1 d2 t = true ↔
      ∀ i j, i < n → j < n → getM d2 i j ≤ wrap64 (getM d1 i j * t) := by
  unfold verify
  rw [hS.1]
  simp only [List.all_eq_true, List.mem_range, Bool.not_eq_true', decide_eq_false_iff_not,
    not_lt]
  constructor
  · intro h i j hi hj
    exact h i hi j hj
  · intro h i hi j hj
    exact h i j hi hj

theorem solve_iff (n : Nat) (t : Int) (e1 e2 : List InEdge) (h1 : ValidGraph n e1)
    (ht : -8192 < t ∧ t < 8192) :
    solve n t e1 e2 = true ↔
      ∀ i j, i < n → j < n →
        getM (distances_fw n (adjOf n e2)) i j ≤ t * getM (distances_fw n (adjOf n e1)) i j := by
  unfold solve
  rw [verify_iff _ t (fw_inv n e1 h1).1]
  have hw : ∀ i j, i < n → j < n →
      wrap64 (getM (distances_fw n (adjOf n e1)) i j * t) =
        t * getM (distances_fw n (adjOf n e1)) i j := by
    intro i j hi hj
    obtain ⟨a1, a2, _, _⟩ := fw_entry n e1 h1 i j hi hj
    rw [big_eq] at a2
    rw [mul_comm]
    apply wrap64_eq
    · have : -(8192 * 1125899906842624) ≤ t * getM (distances_fw n (adjOf n e1)) i j := by
        nlinarith [ht.1, ht.2, a1, a2]
      norm_num at this ⊢
      omega
    · have : t * getM (distances_fw n (adjOf n e1)) i j < 8192 * 1125899906842624 := by
        nlinarith [ht.1, ht.2, a1, a2]
      norm_num at this ⊢
      omega
  constructor
  · intro h i j hi hj
    rw [← hw i j hi hj]
    exact h i j hi hj
  · intro h i j hi hj
    rw [hw i j hi hj]
    exact h i j hi hj

/-! ## The verdict of the checker -/

theorem walk_ends_lt {n : Nat} {es : List InEdge} (hv : ValidGraph n es) {i j : Nat} {d : Int}
    (hw : Walk es i j d) : i = j ∨ (i < n ∧ j < n) := by
  induction hw with
  | nil i => exact Or.inl rfl
  | @cons a b c w d he _ ih =>
    right
    have hab : a < n ∧ b < n := by
      rcases he with he | he
      · exact ⟨(hv _ he).1, (hv _ he).2.1⟩
      · exact ⟨(hv _ he).2.1, (hv _ he).1⟩
    rcases ih with ih | ih
    · exact ⟨hab.1, ih ▸ hab.2⟩
    · exact ⟨hab.1, ih.2⟩

theorem dist_lt_big (n : Nat) (es : List InEdge) (hv : ValidGraph n es)
    (hD : ∀ i j, i < n → j < n → getM (distances_fw n (adjOf n es)) i j < BIG) :
    ∀ i j d, IsDist es i j d → d < BIG := by
  intro i j d hd
  rcases walk_ends_lt hv hd.1 with h | h
  · subst h
    have h0 := hd.2 0 (Walk.nil i)
    have hb : (0 : Int) < BIG := by rw [big_eq]; norm_num
    omega
  · obtain ⟨_, _, _, a4⟩ := fw_entry n es hv i j h.1 h.2
    have h1 := hD i j h.1 h.2
    have h2 := hd.2 _ (a4 h1)
    omega

theorem walk_empty {i j : Nat} {d : Int} (hw : Walk ([] : List InEdge) i j d) :
    i = j ∧ d = 0 := by
  cases hw with
  | nil => exact ⟨rfl, rfl⟩
  | cons he _ => rcases he with he | he <;> simp at he

theorem forall_lt_two {P : Nat → Nat → Prop} (h : ∀ i < 2, ∀ j < 2, P i j) :
    ∀ i j, i < 2 → j < 2 → P i j := fun i j hi hj => h i hi j hj

theorem forall_lt_three {P : Nat → Nat → Prop} (h : ∀ i < 3, ∀ j < 3, P i j) :
    ∀ i j, i < 3 → j < 3 → P i j := fun i j hi hj => h i hi j hj

/-- C10 (verifier verdict), as stated, fails at an input it covers: two vertices, no edge in
either graph, `t = 8192`. Every hypothesis of the claim holds, vertex 1 is unreachable from
vertex 0, the distance matrices hold `2^50` there, the stretch condition holds for every
pair (`2^50 ≤ 8192 * 2^50`), and yet the verdict is NO: the product `2^50 * 8192 = 2^63`
does not fit the 64-bit integers of `verify`. -/
theorem checker_verdict_overflow :
    ValidGraph 2 [] ∧
    (∀ i j d, IsDist ([] : List InEdge) i j d → d < BIG) ∧
    ¬ Reachable ([] : List InEdge) 0 1 ∧
    getM (distances_fw 2 (adjOf 2 [])) 0 1 = BIG ∧
    (∀ i j, i < 2 → j < 2 →
      getM (distances_fw 2 (adjOf 2 [])) i j ≤ 8192 * getM (distances_fw 2 (adjOf 2 [])) i j) ∧
    solve 2 8192 [] [] = false := by
  refine ⟨?_, ?_, ?_, ?_, ?_, ?_⟩
  · intro e he
    simp at he
  · intro i j d hd
    have h := (walk_empty hd.1).2
    have hb : (0 : Int) < BIG := by rw [big_eq]; norm_num
    omega
  · rintro ⟨d, hw⟩
    have h := (walk_empty hw).1
    omega
  · set_option maxRecDepth 8000 in decide
  · apply forall_lt_two
    set_option maxRecDepth 8000 in decide
  · set_option maxRecDepth 8000 in decide

/-- C10 (verifier verdict, amended with `-8192 < t < 8192`): for two graphs on the same `n`
vertices with endpoints below `n`, non-negative weights and shortest-path sums below `2^50`,
`distances_fw` returns for every pair `(i, j)` the true shortest-path distance (0 on the
diagonal, `2^50` when `j` is unreachable from `i`), for the original graph and for the
spanner; and, when the product `t * 2^50` fits 64 bits, the checker answers YES exactly
when `distance_in_spanner(i, j) ≤ t * distance_in_original(i, j)` for all pairs, and NO
otherwise. -/
theorem checker_verdict (n : Nat) (t : Int) (e1 e2 : List InEdge)
    (h1 : ValidGraph n e1) (h2 : ValidGraph n e2)
    (hs1 : ∀ i j d, IsDist e1 i j d → d < BIG)
    (hs2 : ∀ i j d, IsDist e2 i j d → d < BIG)
    (ht : -8192 < t ∧ t < 8192) :
    (∀ i j, i < n → j < n →
      ((i = j → getM (distances_fw n (adjOf n e1)) i j = 0) ∧
       (∀ d, IsDist e1 i j d → getM (distances_fw n (adjOf n e1)) i j = d) ∧
       (¬ Reachable e1 i j → getM (distances_fw n (adjOf n e1)) i j = BIG)) ∧
      ((i = j → getM (distances_fw n (adjOf n e2)) i j = 0) ∧
       (∀ d, IsDist e2 i j d → getM (distances_fw n (adjOf n e2)) i j = d) ∧
       (¬ Reachable e2 i j → getM (distances_fw n (adjOf n e2)) i j = BIG))) ∧
    (solve n t e1 e2 = true ↔
      ∀ i j, i < n → j < n →
        getM (distances_fw n (adjOf n e2)) i j ≤
          t * getM (distances_fw n (adjOf n e1)) i j) ∧
    (solve n t e1 e2 = false ↔
      ¬ ∀ i j, i < n → j < n →
        getM (distances_fw n (adjOf n e2)) i j ≤
          t * getM (distances_fw n (adjOf n e1)) i j) := by
  have hiff := solve_iff n t e1 e2 h1 ht
  refine ⟨?_, hiff, ?_⟩
  · intro i j hi hj
    exact ⟨fw_true_distance n e1 h1 hs1 i j hi hj, fw_true_distance n e2 h2 hs2 i j hi hj⟩
  · rw [← hiff]
    simp

/-- The amended C10 at a concrete input: the triangle with weights 5, 7, 20 and its spanner
without the edge of weight 20, with `t = 2`. -/
theorem checker_verdict_witness :
    (ValidGraph 3 [(0, 1, 5), (1, 2, 7), (0, 2, 20)] ∧ ValidGraph 3 [(0, 1, 5), (1, 2, 7)] ∧
     (∀ i j d, IsDist [(0, 1, 5), (1, 2, 7), (0, 2, 20)] i j d → d < BIG) ∧
     (∀ i j d, IsDist [(0, 1, 5), (1, 2, 7)] i j d → d < BIG) ∧
     (-8192 < (2 : Int) ∧ (2 : Int) < 8192)) ∧
    (solve 3 2 [(0, 1, 5), (1, 2, 7), (0, 2, 20)] [(0, 1, 5), (1, 2, 7)] = true ↔
      ∀ i j, i < 3 → j < 3 →
        getM (distances_fw 3 (adjOf 3 [(0, 1, 5), (1, 2, 7)])) i j ≤
          2 * getM (distances_fw 3 (adjOf 3 [(0, 1, 5), (1, 2, 7), (0, 2, 20)])) i j) ∧
    solve 3 2 [(0, 1, 5), (1, 2, 7), (0, 2, 20)] [(0, 1, 5), (1, 2, 7)] = true := by
  have v1 : ValidGraph 3 [(0, 1, 5), (1, 2, 7), (0, 2, 20)] := by
    intro e he
    simp only [List.mem_cons, List.mem_singleton, List.not_mem_nil, or_false] at he
    rcases he with he | he | he <;> subst he <;> decide
  have v2 : ValidGraph 3 [(0, 1, 5), (1, 2, 7)] := by
    intro e he
    simp only [List.mem_cons, List.mem_singleton, List.not_mem_nil, or_false] at he
    rcases he with he | he <;> subst he <;> decide
  have s1 : ∀ i j d, IsDist [(0, 1, 5), (1, 2, 7), (0, 2, 20)] i j d → d < BIG := by
    apply dist_lt_big 3 _ v1
    apply forall_lt_three
    set_option maxRecDepth 8000 in decide
  have s2 : ∀ i j d, IsDist [(0, 1, 5), (1, 2, 7)] i j d → d < BIG := by
    apply dist_lt_big 3 _ v2
    apply forall_lt_three
    set_option maxRecDepth 8000 in decide
  have ht : -8192 < (2 : Int) ∧ (2 : Int) < 8192 := by decide
  refine ⟨⟨v1, v2, s1, s2, ht⟩, (checker_verdict 3 2 _ _ v1 v2 s1 s2 ht).2.1, ?_⟩
  set_option maxRecDepth 8000 in decide

end Checker

namespace TSpanner

/-! ## Step 2: the nearest surviving cluster -/

/-- C11 (nearest-surviving-cluster lookup), evaluated at a failing input: on the valid 4-vertex
input `0-1 (1), 0-2 (2), 0-3 (1), 1-2 (10)` with the draws `F F T T` in round 1 and `F F` in
round 2, at the start of round 2 vertex 0 is active and its cluster is not surviving, the
record in slot 1 of vertex 0 (the edge `0-2`) has status Candidate and leads into the surviving
cluster, and yet `min_idx[0]` is slot 0 (the edge `0-1`), whose status is SpannerEdge. -/
theorem nearest_lookup_not_candidate :
    ValidInput 4 [(0, 1, 1), (0, 2, 2), (0, 3, 1), (1, 2, 10)] ∧
    (rounds (drawsOf [false, false, true, true, false, false]) 4
      (initState 4 [(0, 1, 1), (0, 2, 2), (0, 3, 1), (1, 2, 10)]) 1).ivd.getD 0 0 = 1 ∧
    (rIsc (drawsOf [false, false, true, true, false, false]) 4
      (rounds (drawsOf [false, false, true, true, false, false]) 4
        (initState 4 [(0, 1, 1), (0, 2, 2), (0, 3, 1), (1, 2, 10)]) 1)).getD
      ((rounds (drawsOf [false, false, true, true, false, false]) 4
        (initState 4 [(0, 1, 1), (0, 2, 2), (0, 3, 1), (1, 2, 10)]) 1).cluster.getD 0 0) 0 = 0 ∧
    getE (rounds (drawsOf [false, false, true, true, false, false]) 4
      (initState 4 [(0, 1, 1), (0, 2, 2), (0, 3, 1), (1, 2, 10)]) 1).adj 0 1 =
        { v := 2, w := 2, s := 1, oi := 0 } ∧
    (rIsc (drawsOf [false, false, true, true, false, false]) 4
      (rounds (drawsOf [false, false, true, true, false, false]) 4
        (initState 4 [(0, 1, 1), (0, 2, 2), (0, 3, 1), (1, 2, 10)]) 1)).getD
      ((rounds (drawsOf [false, false, true, true, false, false]) 4
        (initState 4 [(0, 1, 1), (0, 2, 2), (0, 3, 1), (1, 2, 10)]) 1).cluster.getD 2 0) 0 = 1 ∧
    (step2 4
      (rounds (drawsOf [false, false, true, true, false, false]) 4
        (initState 4 [(0, 1, 1), (0, 2, 2), (0, 3, 1), (1, 2, 10)]) 1).adj
      (rounds (drawsOf [false, false, true, true, false, false]) 4
        (initState 4 [(0, 1, 1), (0, 2, 2), (0, 3, 1), (1, 2, 10)]) 1).cluster
      (rounds (drawsOf [false, false, true, true, false, false]) 4
        (initState 4 [(0, 1, 1), (0, 2, 2), (0, 3, 1), (1, 2, 10)]) 1).ivd
      (rIsc (drawsOf [false, false, true, true, false, false]) 4
        (rounds (drawsOf [false, false, true, true, false, false]) 4
          (initState 4 [(0, 1, 1), (0, 2, 2), (0, 3, 1), (1, 2, 10)]) 1))).getD 0 none =
      some 0 ∧
    getE (rounds (drawsOf [false, false, true, true, false, false]) 4
      (initState 4 [(0, 1, 1), (0, 2, 2), (0, 3, 1), (1, 2, 10)]) 1).adj 0 0 =
        { v := 1, w := 1, s := 2, oi := 0 } := by
  refine ⟨by decide, by decide, by decide, by decide, by decide, by decide, by decide⟩

/-! ## Step 1 and the refresh of the active-center list -/

theorem getD_mem_of_lt (l : List Nat) (i : Nat) (h : i < l.length) : l.getD i 0 ∈ l := by
  rw [List.getD_eq_getElem l 0 h]
  exact List.getElem_mem h

theorem refresh_pairwise (n : Nat) (is_center : List Nat) :
    (refresh n is_center).Pairwise (fun a b => a < b) := by
  unfold refresh
  exact List.Pairwise.filter _ (List.pairwise_lt_range n)

theorem isc_iff (draws : Nat → Bool) (n : Nat) (st : State)
    (hok : ∀ c ∈ st.centers, c < n) (hne : st.centers ≠ []) (j : Nat) :
    (rIsc draws n st).getD j 0 ≠ 0 ↔
      ((∃ idx, idx < st.centers.length ∧
          (st.centers.getD idx 0 = j ∧ draws (st.pos + idx) = true)) ∨
        ((∀ idx, idx < st.centers.length → draws (st.pos + idx) = false) ∧
          st.centers.getD 0 0 = j)) := by
  unfold rIsc
  rw [step1_getD]
  have hpos : 0 < st.centers.length := List.length_pos.mpr hne
  constructor
  · intro h
    by_cases hc : j < n ∧ ((∃ idx, idx < st.centers.length ∧
          (st.centers.getD idx 0 = j ∧ draws (st.pos + idx) = true)) ∨
        ((∀ idx, idx < st.centers.length → draws (st.pos + idx) = false) ∧
          st.centers.getD 0 0 = j))
    · exact hc.2
    · rw [if_neg hc] at h
      exact absurd rfl h
  · intro h
    have hj : j < n := by
      rcases h with ⟨idx, hi, he, _⟩ | ⟨_, he⟩
      · rw [← he]
        exact hok _ (getD_mem_of_lt _ _ hi)
      · rw [← he]
        exact hok _ (getD_mem_of_lt _ _ hpos)
    rw [if_pos ⟨hj, h⟩]
    decide

/-- C12 (center sampling and refresh): for `n ≥ 1`, in the round started after `r` rounds,
(1) every surviving center (a vertex marked in `is_center`) is in the active-center list of the
round, and there is one; (2) a vertex is surviving exactly when it is an element of the list
whose draw succeeded (the element at index `idx` is answered by draw number `pos + idx`), or
when every draw failed and it is the first element of the list; (3) the round consumes one draw
per element of the list; (4) after the round the active-center list is the list of the
surviving vertices in increasing vertex id. -/
theorem center_sampling (draws : Nat → Bool) (n : Nat) (edges : List InEdge) (hn : 1 ≤ n)
    (r : Nat) :
    ((∀ j, (rIsc draws n (rounds draws n (initState n edges) r)).getD j 0 ≠ 0 →
        j ∈ (rounds draws n (initState n edges) r).centers) ∧
      ∃ c, (rIsc draws n (rounds draws n (initState n edges) r)).getD c 0 ≠ 0) ∧
    (∀ j, (rIsc draws n (rounds draws n (initState n edges) r)).getD j 0 ≠ 0 ↔
      ((∃ idx, idx < (rounds draws n (initState n edges) r).centers.length ∧
          ((rounds draws n (initState n edges) r).centers.getD idx 0 = j ∧
            draws ((rounds draws n (initState n edges) r).pos + idx) = true)) ∨
        ((∀ idx, idx < (rounds draws n (initState n edges) r).centers.length →
            draws ((rounds draws n (initState n edges) r).pos + idx) = false) ∧
          (rounds draws n (initState n edges) r).centers.getD 0 0 = j))) ∧
    (rounds draws n (initState n edges) (r + 1)).pos =
      (rounds draws n (initState n edges) r).pos +
        (rounds draws n (initState n edges) r).centers.length ∧
    ((rounds draws n (initState n edges) (r + 1)).centers =
        (List.range n).filter
          (fun j => decide ((rIsc draws n (rounds draws n (initState n edges) r)).getD j 0 ≠ 0)) ∧
      (∀ j, j ∈ (rounds draws n (initState n edges) (r + 1)).centers ↔
        (rIsc draws n (rounds draws n (initState n edges) r)).getD j 0 ≠ 0) ∧
      (rounds draws n (initState n edges) (r + 1)).centers.Pairwise (fun a b => a < b)) := by
  obtain ⟨hok, hne0⟩ := rounds_centers_fix draws n edges r
  have hne := hne0 (by omega)
  have hlt : ∀ c ∈ (rounds draws n (initState n edges) r).centers, c < n :=
    fun c hc => (hok c hc).1
  have hiff := isc_iff draws n (rounds draws n (initState n edges) r) hlt hne
  have hmem : ∀ j, (rIsc draws n (rounds draws n (initState n edges) r)).getD j 0 ≠ 0 →
      j ∈ (rounds draws n (initState n edges) r).centers := by
    intro j hj
    rcases (hiff j).1 hj with ⟨idx, hi, he, _⟩ | ⟨_, he⟩
    · rw [← he]
      exact getD_mem_of_lt _ _ hi
    · rw [← he]
      exact getD_mem_of_lt _ _ (List.length_pos.mpr hne)
  have hround : rounds draws n (initState n edges) (r + 1) =
      round draws n (rounds draws n (initState n edges) r) := rfl
  refine ⟨⟨hmem, ?_⟩, hiff, ?_, ?_, ?_, ?_⟩
  · obtain ⟨c, _, hc⟩ := step1_exists draws n _ (rounds draws n (initState n edges) r).pos hne hlt
    refine ⟨c, ?_⟩
    unfold rIsc
    rw [hc]
    decide
  · rw [hround, round_eq]
  · rw [hround, round_eq]
    rfl
  · intro j
    rw [hround, mem_round_centers]
    constructor
    · intro h
      exact h.2
    · intro h
      exact ⟨hlt j (hmem j h), h⟩
  · rw [hround, round_eq]
    exact refresh_pairwise n _

theorem center_sampling_witness :
    (1 ≤ 4) ∧
    (rounds (drawsOf [false, false, true, true, false, false]) 4
      (initState 4 [(0, 1, 1), (0, 2, 2), (0, 3, 1), (1, 2, 10)]) (1 + 1)).pos =
      (rounds (drawsOf [false, false, true, true, false, false]) 4
        (initState 4 [(0, 1, 1), (0, 2, 2), (0, 3, 1), (1, 2, 10)]) 1).pos +
      (rounds (drawsOf [false, false, true, true, false, false]) 4
        (initState 4 [(0, 1, 1), (0, 2, 2), (0, 3, 1), (1, 2, 10)]) 1).centers.length :=
  ⟨by decide,
    (center_sampling (drawsOf [false, false, true, true, false, false]) 4
      [(0, 1, 1), (0, 2, 2), (0, 3, 1), (1, 2, 10)] (by decide) 1).2.2.1⟩

/-! ## Step 3: the found case and the orphan case -/

theorem active_lt {n : Nat} {st : State} (hI : Inv n st) {v : Nat}
    (h : st.ivd.getD v 0 ≠ 0) : v < n := by
  by_contra hc
  apply h
  apply getD_of_le
  rw [hI.len_ivd]
  omega

/-- In a state satisfying the invariant, a Candidate edge `k` of `j` leads into a cluster of the
active-center list, and the entry of `min_ed` for that cluster is a Candidate edge of `j` into
the same cluster, of minimum weight among them. -/
theorem cheapest_cand {n : Nat} {st : State} (hI : Inv n st) {j k : Nat}
    (hb : InB st.adj j k) (hs : (getE st.adj j k).s = 1) :
    st.cluster.getD (getE st.adj j k).v 0 ∈ st.centers ∧
    ∃ ci x, MinEd n st j ci x ∧ Cand n st j k ci ∧
      InB st.adj j x ∧ (getE st.adj j x).s = 1 ∧
      st.cluster.getD (getE st.adj j x).v 0 = st.cluster.getD (getE st.adj j k).v 0 ∧
      ∀ y, InB st.adj j y → (getE st.adj j y).s = 1 →
        st.cluster.getD (getE st.adj j y).v 0 = st.cluster.getD (getE st.adj j k).v 0 →
        (getE st.adj j x).w ≤ (getE st.adj j y).w := by
  obtain ⟨ci, hc, hci⟩ := cand_of_candidate hI hb hs
  obtain ⟨x, hx⟩ := cand_minEd hci hc
  obtain ⟨hxc, hmin⟩ := minEd_cand hx
  have hmemc : st.cluster.getD (getE st.adj j k).v 0 ∈ st.centers := by
    obtain ⟨h1, h2, _⟩ := centerIdx_some n st.centers _ ci hc.2.2
    rw [← h2]
    apply getD_mem_of_lt
    rw [← centerIdx_snd n]
    exact h1
  refine ⟨hmemc, ci, x, hx, hc, hxc.1, hxc.2.1, ?_, ?_⟩
  · exact centerIdx_inj n st.centers _ _ ci hxc.2.2 hc.2.2
  · intro y hy hys hyc
    apply hmin
    refine ⟨hy, hys, ?_⟩
    rw [hyc]
    exact hc.2.2

theorem round_s_add (draws : Nat → Bool) {n : Nat} {st : State} (hI : Inv n st)
    {x : Nat × Nat} (hx : x ∈ (rFound draws n st).1) :
    (getE (round draws n st).adj x.1 x.2).s = 2 ∧
      (getE (round draws n st).adj (getE st.adj x.1 x.2).v (getE st.adj x.1 x.2).oi).s = 2 := by
  have hb := round_add_inB draws x hx
  have hs := round_s_two draws hI x hb (midS_of_add draws n st x hx)
  refine ⟨hs, ?_⟩
  have hS := round_sameSkel draws hI
  have hM := round_mirror draws hI
  have hb1 : InB (round draws n st).adj x.1 x.2 := (sameSkel_inB hS _ _).mpr hb
  have h := mirror_mir_s hM (p := x) hb1
  rw [sameSkel_mir hS] at h
  unfold mir at h
  dsimp only at h
  rw [h]
  exact hs

/-- The found edge of a vertex leads into a surviving cluster, and no Candidate edge into a
surviving cluster is cheaper. -/
theorem fnd_surviving {draws : Nat → Bool} {n : Nat} {st : State} {j mi : Nat} (hj : j < n)
    (hf : Fnd draws n st j mi) :
    (rIsc draws n st).getD (st.cluster.getD (getE st.adj j mi).v 0) 0 ≠ 0 :=
  (fnd_spec hj hf).2.1.2

/-- C13 (found case of step 3): in the round started after `r` rounds of a run on a valid
input, for a vertex `v` that is active, lies outside every surviving cluster and has found the
edge in slot `mi`: the cluster `C*` of the far endpoint of that edge is surviving; after the
round (a) the found edge has status 2 (SpannerEdge) on both records; (b) `cluster[v]` is `C*`
and `v` is still active; (c) for every Candidate edge `k` of `v` strictly cheaper than the
found edge, a Candidate edge `x` of `v` into the cluster of `k` of minimum weight among the
Candidate edges of `v` into that cluster (the first such slot, the entry of `min_ed`) has
status 2. -/
theorem found_case (draws : Nat → Bool) (n : Nat) (edges : List InEdge)
    (hv : ValidInput n edges) (r v mi : Nat)
    (hf : Fnd draws n (rounds draws n (initState n edges) r) v mi) :
    (rIsc draws n (rounds draws n (initState n edges) r)).getD
      ((rounds draws n (initState n edges) r).cluster.getD
        (getE (rounds draws n (initState n edges) r).adj v mi).v 0) 0 ≠ 0 ∧
    ((getE (rounds draws n (initState n edges) (r + 1)).adj v mi).s = 2 ∧
      (getE (rounds draws n (initState n edges) (r + 1)).adj
        (getE (rounds draws n (initState n edges) r).adj v mi).v
        (getE (rounds draws n (initState n edges) r).adj v mi).oi).s = 2) ∧
    ((rounds draws n (initState n edges) (r + 1)).cluster.getD v 0 =
        (rounds draws n (initState n edges) r).cluster.getD
          (getE (rounds draws n (initState n edges) r).adj v mi).v 0 ∧
      (rounds draws n (initState n edges) (r + 1)).ivd.getD v 0 ≠ 0) ∧
    (∀ k, InB (rounds draws n (initState n edges) r).adj v k →
      (getE (rounds draws n (initState n edges) r).adj v k).s = 1 →
      (getE (rounds draws n (initState n edges) r).adj v k).w <
        (getE (rounds draws n (initState n edges) r).adj v mi).w →
      ∃ x, InB (rounds draws n (initState n edges) r).adj v x ∧
        (getE (rounds draws n (initState n edges) r).adj v x).s = 1 ∧
        (rounds draws n (initState n edges) r).cluster.getD
            (getE (rounds draws n (initState n edges) r).adj v x).v 0 =
          (rounds draws n (initState n edges) r).cluster.getD
            (getE (rounds draws n (initState n edges) r).adj v k).v 0 ∧
        (∀ y, InB (rounds draws n (initState n edges) r).adj v y →
          (getE (rounds draws n (initState n edges) r).adj v y).s = 1 →
          (rounds draws n (initState n edges) r).cluster.getD
              (getE (rounds draws n (initState n edges) r).adj v y).v 0 =
            (rounds draws n (initState n edges) r).cluster.getD
              (getE (rounds draws n (initState n edges) r).adj v k).v 0 →
          (getE (rounds draws n (initState n edges) r).adj v x).w ≤
            (getE (rounds draws n (initState n edges) r).adj v y).w) ∧
        (getE (rounds draws n (initState n edges) (r + 1)).adj v x).s = 2) := by
  have hI := rounds_inv draws n edges (valid_edges hv) r
  have hround : rounds draws n (initState n edges) (r + 1) =
      round draws n (rounds draws n (initState n edges) r) := rfl
  have hvn : v < n := active_lt hI hf.1
  rw [hround]
  refine ⟨fnd_surviving hvn hf, ?_, ⟨?_, ?_⟩, ?_⟩
  · have hadd : (v, mi) ∈ (rFound draws n (rounds draws n (initState n edges) r)).1 :=
      (mem_round_add draws n _ (v, mi)).mpr ⟨hvn, Or.inr ⟨mi, hf, Or.inl rfl⟩⟩
    exact round_s_add draws hI hadd
  · exact round_cluster_found draws n _ v mi hvn hI.len_cluster hf
  · rw [round_ivd, if_neg (fun h => fnd_not_orph hf h.2)]
    exact hf.1
  · intro k hb hs hw
    obtain ⟨_, ci, x, hm, _, hxb, hxs, hxc, hmin⟩ := cheapest_cand hI hb hs
    refine ⟨x, hxb, hxs, hxc, hmin, ?_⟩
    have hxw := hmin k hb hs rfl
    have hadd : (v, x) ∈ (rFound draws n (rounds draws n (initState n edges) r)).1 :=
      (mem_round_add draws n _ (v, x)).mpr
        ⟨hvn, Or.inr ⟨mi, hf, Or.inr ⟨lt_of_le_of_lt hxw hw, ci, hm⟩⟩⟩
    exact (round_s_add draws hI hadd).1

theorem found_case_witness :
    ValidInput 4 [(0, 1, 1), (0, 2, 2), (0, 3, 1), (1, 2, 10)] ∧
    Fnd (drawsOf [false, false, true, true, false, false]) 4
      (rounds (drawsOf [false, false, true, true, false, false]) 4
        (initState 4 [(0, 1, 1), (0, 2, 2), (0, 3, 1), (1, 2, 10)]) 0) 1 1 ∧
    (rounds (drawsOf [false, false, true, true, false, false]) 4
        (initState 4 [(0, 1, 1), (0, 2, 2), (0, 3, 1), (1, 2, 10)]) (0 + 1)).cluster.getD 1 0 =
      (rounds (drawsOf [false, false, true, true, false, false]) 4
        (initState 4 [(0, 1, 1), (0, 2, 2), (0, 3, 1), (1, 2, 10)]) 0).cluster.getD
        (getE (rounds (drawsOf [false, false, true, true, false, false]) 4
          (initState 4 [(0, 1, 1), (0, 2, 2), (0, 3, 1), (1, 2, 10)]) 0).adj 1 1).v 0 :=
  ⟨by decide, by decide,
    (found_case (drawsOf [false, false, true, true, false, false]) 4
      [(0, 1, 1), (0, 2, 2), (0, 3, 1), (1, 2, 10)] (by decide) 0 1 1 (by decide)).2.2.1.1⟩

theorem rounds_add (draws : Nat → Bool) (n : Nat) (st : State) (r d : Nat) :
    rounds draws n st (r + d) = rounds draws n (rounds draws n st r) d := by
  induction d with
  | zero => rfl
  | succ d ih =>
    show round draws n (rounds draws n st (r + d)) = round draws n _
    rw [ih]

/-- An inactive vertex stays inactive and keeps its cluster value over one round. -/
theorem round_inactive (draws : Nat → Bool) (n : Nat) (st : State) (v : Nat)
    (h : st.ivd.getD v 0 = 0) :
    (round draws n st).ivd.getD v 0 = 0 ∧
      (round draws n st).cluster.getD v 0 = st.cluster.getD v 0 := by
  constructor
  · rw [round_ivd]
    by_cases hc : v < n ∧ Orph draws n st v
    · rw [if_pos hc]
    · rw [if_neg hc]
      exact h
  · apply round_cluster_other
    intro mi hf
    exact hf.1 h

theorem rounds_inactive (draws : Nat → Bool) (n : Nat) (st : State) (v : Nat)
    (h : st.ivd.getD v 0 = 0) (d : Nat) :
    (rounds draws n st d).ivd.getD v 0 = 0 ∧
      (rounds draws n st d).cluster.getD v 0 = st.cluster.getD v 0 := by
  induction d with
  | zero => exact ⟨h, rfl⟩
  | succ d ih =>
    have h1 := round_inactive draws n (rounds draws n st d) v ih.1
    exact ⟨h1.1, h1.2.trans ih.2⟩

/-- After the round no record of an orphaned vertex has status 1. -/
theorem round_orphan_no_candidate (draws : Nat → Bool) {n : Nat} {st : State} (hI : Inv n st)
    {v : Nat} (hvn : v < n) (ho : Orph draws n st v) (k : Nat)
    (hb : InB st.adj v k) : (getE (round draws n st).adj v k).s ≠ 1 := by
  have hrs := round_s draws hI (v, k) hb
  dsimp only at hrs
  have hmid : midS draws n st (v, k) ≠ 1 := by
    rcases midS_cases draws n st (v, k) with h | h | ⟨h, _, _, _, h5, _⟩
    · omega
    · omega
    · rw [h]
      intro hs
      apply h5
      exact (mem_round_rem draws n st (v, k)).mpr ⟨hvn, Or.inl ⟨ho, hb, hs⟩⟩
  rw [hrs]
  split
  · omega
  · exact hmid

/-- C14 (orphan case of step 3): in the round started after `r` rounds of a run on a valid
input, for a vertex `v` that is active, lies outside every surviving cluster and has found no
edge: (a) every Candidate edge `k` of `v` leads into a cluster of the active-center list of
the round, and a Candidate edge `x` of `v` into that cluster of minimum weight among the
Candidate edges of `v` into it (the first such slot, the entry of `min_ed`) has status 2
(SpannerEdge) after the round; (b) after the round no record of `v` has status 1 (Candidate);
(c) `v` is inactive after the round and after every later round, with the cluster value it
had, and so it is in the final augmentation. -/
theorem orphan_case (draws : Nat → Bool) (n : Nat) (edges : List InEdge)
    (hv : ValidInput n edges) (r v : Nat)
    (ho : Orph draws n (rounds draws n (initState n edges) r) v) :
    (∀ k, InB (rounds draws n (initState n edges) r).adj v k →
      (getE (rounds draws n (initState n edges) r).adj v k).s = 1 →
      (rounds draws n (initState n edges) r).cluster.getD
          (getE (rounds draws n (initState n edges) r).adj v k).v 0 ∈
        (rounds draws n (initState n edges) r).centers ∧
      ∃ x, InB (rounds draws n (initState n edges) r).adj v x ∧
        (getE (rounds draws n (initState n edges) r).adj v x).s = 1 ∧
        (rounds draws n (initState n edges) r).cluster.getD
            (getE (rounds draws n (initState n edges) r).adj v x).v 0 =
          (rounds draws n (initState n edges) r).cluster.getD
            (getE (rounds draws n (initState n edges) r).adj v k).v 0 ∧
        (∀ y, InB (rounds draws n (initState n edges) r).adj v y →
          (getE (rounds draws n (initState n edges) r).adj v y).s = 1 →
          (rounds draws n (initState n edges) r).cluster.getD
              (getE (rounds draws n (initState n edges) r).adj v y).v 0 =
            (rounds draws n (initState n edges) r).cluster.getD
              (getE (rounds draws n (initState n edges) r).adj v k).v 0 →
          (getE (rounds draws n (initState n edges) r).adj v x).w ≤
            (getE (rounds draws n (initState n edges) r).adj v y).w) ∧
        (getE (rounds draws n (initState n edges) (r + 1)).adj v x).s = 2) ∧
    (∀ k, InB (rounds draws n (initState n edges) (r + 1)).adj v k →
      (getE (rounds draws n (initState n edges) (r + 1)).adj v k).s ≠ 1) ∧
    (∀ d, (rounds draws n (initState n edges) (r + 1 + d)).ivd.getD v 0 = 0 ∧
      (rounds draws n (initState n edges) (r + 1 + d)).cluster.getD v 0 =
        (rounds draws n (initState n edges) r).cluster.getD v 0) ∧
    (∀ t, r + 1 ≤ (t + 1) / 2 - 1 →
      (finalState draws n t edges).ivd.getD v 0 = 0 ∧
      (finalState draws n t edges).cluster.getD v 0 =
        (rounds draws n (initState n edges) r).cluster.getD v 0) := by
  have hI := rounds_inv draws n edges (valid_edges hv) r
  have hround : rounds draws n (initState n edges) (r + 1) =
      round draws n (rounds draws n (initState n edges) r) := rfl
  have hvn : v < n := active_lt hI ho.1
  have h1 : (rounds draws n (initState n edges) (r + 1)).ivd.getD v 0 = 0 ∧
      (rounds draws n (initState n edges) (r + 1)).cluster.getD v 0 =
        (rounds draws n (initState n edges) r).cluster.getD v 0 := by
    rw [hround]
    constructor
    · rw [round_ivd, if_pos ⟨hvn, ho⟩]
    · apply round_cluster_other
      intro mi hf
      exact fnd_not_orph hf ho
  have hlater : ∀ d, (rounds draws n (initState n edges) (r + 1 + d)).ivd.getD v 0 = 0 ∧
      (rounds draws n (initState n edges) (r + 1 + d)).cluster.getD v 0 =
        (rounds draws n (initState n edges) r).cluster.getD v 0 := by
    intro d
    rw [rounds_add]
    have h2 := rounds_inactive draws n (rounds draws n (initState n edges) (r + 1)) v h1.1 d
    exact ⟨h2.1, h2.2.trans h1.2⟩
  refine ⟨?_, ?_, hlater, ?_⟩
  · intro k hb hs
    obtain ⟨hc, ci, x, hm, _, hxb, hxs, hxc, hmin⟩ := cheapest_cand hI hb hs
    refine ⟨hc, x, hxb, hxs, hxc, hmin, ?_⟩
    have hadd : (v, x) ∈ (rFound draws n (rounds draws n (initState n edges) r)).1 :=
      (mem_round_add draws n _ (v, x)).mpr ⟨hvn, Or.inl ⟨ho, ci, hm⟩⟩
    rw [hround]
    exact (round_s_add draws hI hadd).1
  · intro k hb
    rw [hround] at hb ⊢
    have hb0 := (sameSkel_inB (round_sameSkel draws hI) v k).mp hb
    exact round_orphan_no_candidate draws hI hvn ho k hb0
  · intro t ht
    obtain ⟨d, hd⟩ := Nat.exists_eq_add_of_le ht
    have h2 := hlater d
    rw [← hd] at h2
    exact h2

theorem orphan_case_witness :
    ValidInput 3 [(0, 1, 4)] ∧
    Orph (drawsOf [false, false, true]) 3
      (rounds (drawsOf [false, false, true]) 3 (initState 3 [(0, 1, 4)]) 0) 0 ∧
    (∀ d, (rounds (drawsOf [false, false, true]) 3
          (initState 3 [(0, 1, 4)]) (0 + 1 + d)).ivd.getD 0 0 = 0 ∧
      (rounds (drawsOf [false, false, true]) 3
          (initState 3 [(0, 1, 4)]) (0 + 1 + d)).cluster.getD 0 0 =
        (rounds (drawsOf [false, false, true]) 3 (initState 3 [(0, 1, 4)]) 0).cluster.getD 0 0) :=
  ⟨by decide, by decide,
    (orphan_case (drawsOf [false, false, true]) 3 [(0, 1, 4)] (by decide) 0 0
      (by decide)).2.2.1⟩

/-! ## The final augmentation -/

/-- C15 (final augmentation commits the cheapest edge per cluster): on a valid input, let `k`
be a Candidate edge of `v` in the state before the augmentation. Then `v` is active, the
cluster of the far endpoint of `k` is in the final active-center list, and a Candidate edge `x`
of `v` into that cluster of minimum weight among the Candidate edges of `v` into it has status
2 (SpannerEdge) on both records after the augmentation. -/
theorem final_augmentation (draws : Nat → Bool) (n t : Nat) (edges : List InEdge)
    (hv : ValidInput n edges) (v k : Nat)
    (hb : InB (rounds draws n (initState n edges) ((t + 1) / 2 - 1)).adj v k)
    (hs : (getE (rounds draws n (initState n edges) ((t + 1) / 2 - 1)).adj v k).s = 1) :
    (rounds draws n (initState n edges) ((t + 1) / 2 - 1)).ivd.getD v 0 ≠ 0 ∧
    (rounds draws n (initState n edges) ((t + 1) / 2 - 1)).cluster.getD
        (getE (rounds draws n (initState n edges) ((t + 1) / 2 - 1)).adj v k).v 0 ∈
      (rounds draws n (initState n edges) ((t + 1) / 2 - 1)).centers ∧
    ∃ x, InB (rounds draws n (initState n edges) ((t + 1) / 2 - 1)).adj v x ∧
      (getE (rounds draws n (initState n edges) ((t + 1) / 2 - 1)).adj v x).s = 1 ∧
      (rounds draws n (initState n edges) ((t + 1) / 2 - 1)).cluster.getD
          (getE (rounds draws n (initState n edges) ((t + 1) / 2 - 1)).adj v x).v 0 =
        (rounds draws n (initState n edges) ((t + 1) / 2 - 1)).cluster.getD
          (getE (rounds draws n (initState n edges) ((t + 1) / 2 - 1)).adj v k).v 0 ∧
      (∀ y, InB (rounds draws n (initState n edges) ((t + 1) / 2 - 1)).adj v y →
        (getE (rounds draws n (initState n edges) ((t + 1) / 2 - 1)).adj v y).s = 1 →
        (rounds draws n (initState n edges) ((t + 1) / 2 - 1)).cluster.getD
            (getE (rounds draws n (initState n edges) ((t + 1) / 2 - 1)).adj v y).v 0 =
          (rounds draws n (initState n edges) ((t + 1) / 2 - 1)).cluster.getD
            (getE (rounds draws n (initState n edges) ((t + 1) / 2 - 1)).adj v k).v 0 →
        (getE (rounds draws n (initState n edges) ((t + 1) / 2 - 1)).adj v x).w ≤
          (getE (rounds draws n (initState n edges) ((t + 1) / 2 - 1)).adj v y).w) ∧
      (getE (finalState draws n t edges).adj v x).s = 2 ∧
      (getE (finalState draws n t edges).adj
        (getE (rounds draws n (initState n edges) ((t + 1) / 2 - 1)).adj v x).v
        (getE (rounds draws n (initState n edges) ((t + 1) / 2 - 1)).adj v x).oi).s = 2 := by
  have hI := rounds_inv draws n edges (valid_edges hv) ((t + 1) / 2 - 1)
  have hact := hI.cand_active v k hb hs
  have hvn : v < n := inv_lt hI hb
  obtain ⟨hc, ci, x, hm, _, hxb, hxs, hxc, hmin⟩ := cheapest_cand hI hb hs
  refine ⟨hact, hc, x, hxb, hxs, hxc, hmin, ?_⟩
  have hadd : (v, x) ∈ (finalLoop n (rounds draws n (initState n edges) ((t + 1) / 2 - 1)).adj
      (rounds draws n (initState n edges) ((t + 1) / 2 - 1)).cluster
      (rounds draws n (initState n edges) ((t + 1) / 2 - 1)).ivd
      (centerIdx n (rounds draws n (initState n edges) ((t + 1) / 2 - 1)).centers).1
      (centerIdx n (rounds draws n (initState n edges) ((t + 1) / 2 - 1)).centers).2).1 :=
    (mem_final_add n _ (v, x)).mpr ⟨hvn, hact, ci, hm⟩
  have h2 : (getE (finalState draws n t edges).adj v x).s = 2 := phase2_s_add hI (v, x) hadd
  refine ⟨h2, ?_⟩
  obtain ⟨hS, hM, _⟩ := phase2_spec hI
  have hb1 : InB (finalState draws n t edges).adj v x := (sameSkel_inB hS _ _).mpr hxb
  have h := mirror_mir_s hM (p := (v, x)) hb1
  have hmir : mir (phase2 n (rounds draws n (initState n edges) ((t + 1) / 2 - 1))).adj (v, x) =
      mir (rounds draws n (initState n edges) ((t + 1) / 2 - 1)).adj (v, x) := sameSkel_mir hS _
  unfold finalState at h
  rw [hmir] at h
  unfold mir at h
  dsimp only at h
  unfold finalState
  rw [h]
  exact h2

theorem final_augmentation_witness :
    ValidInput 3 [(0, 1, 4), (0, 1, 3)] ∧
    InB (rounds (drawsOf []) 3 (initState 3 [(0, 1, 4), (0, 1, 3)]) ((1 + 1) / 2 - 1)).adj 0 0 ∧
    (getE (rounds (drawsOf []) 3 (initState 3 [(0, 1, 4), (0, 1, 3)])
      ((1 + 1) / 2 - 1)).adj 0 0).s = 1 ∧
    (rounds (drawsOf []) 3 (initState 3 [(0, 1, 4), (0, 1, 3)])
      ((1 + 1) / 2 - 1)).ivd.getD 0 0 ≠ 0 :=
  ⟨by decide, by decide, by decide,
    (final_augmentation (drawsOf []) 3 1 [(0, 1, 4), (0, 1, 3)] (by decide) 0 0
      (by decide) (by decide)).1⟩

/-- C16 (no Candidate edge survives the run): for every valid input, every `t` and every
sequence of sampling outcomes, after the final augmentation every record of the store has
status 0 (Removed) or 2 (SpannerEdge). -/
theorem no_candidate_survives (draws : Nat → Bool) (n t : Nat) (edges : List InEdge)
    (hv : ValidInput n edges) (j k : Nat) (hb : InB (finalState draws n t edges).adj j k) :
    (getE (finalState draws n t edges).adj j k).s = 0 ∨
      (getE (finalState draws n t edges).adj j k).s = 2 := by
  have hI := rounds_inv draws n edges (valid_edges hv) ((t + 1) / 2 - 1)
  have hS := (phase2_spec hI).1
  exact phase2_no_candidate hI j k ((sameSkel_inB hS j k).mp hb)

theorem no_candidate_survives_witness :
    ValidInput 4 [(0, 1, 1), (0, 2, 2), (0, 3, 1), (1, 2, 10)] ∧
    InB (finalState (drawsOf [false, false, true, true, false, false]) 4 5
      [(0, 1, 1), (0, 2, 2), (0, 3, 1), (1, 2, 10)]).adj 0 1 ∧
    ((getE (finalState (drawsOf [false, false, true, true, false, false]) 4 5
        [(0, 1, 1), (0, 2, 2), (0, 3, 1), (1, 2, 10)]).adj 0 1).s = 0 ∨
      (getE (finalState (drawsOf [false, false, true, true, false, false]) 4 5
        [(0, 1, 1), (0, 2, 2), (0, 3, 1), (1, 2, 10)]).adj 0 1).s = 2) :=
  ⟨by decide, by decide,
    no_candidate_survives (drawsOf [false, false, true, true, false, false]) 4 5
      [(0, 1, 1), (0, 2, 2), (0, 3, 1), (1, 2, 10)] (by decide) 0 1 (by decide)⟩

/-! ## Step 4: the cleanup inside the surviving clusters -/

theorem step4_record_two (n : Nat) (adj : Adj) (cluster is_center : List Nat) (j k : Nat)
    (h : (getE adj j k).s = 2) : getE (step4 n adj cluster is_center) j k = getE adj j k := by
  rw [getE_step4]
  split
  · unfold cleanRecord
    rw [if_neg (by omega : ¬ (getE adj j k).s < 2)]
    split <;> rfl
  · rfl

/-- After a round a Candidate record does not join two vertices of one surviving cluster. -/
theorem round_candidate_apart (draws : Nat → Bool) {n : Nat} {st : State} (hI : Inv n st)
    (j k : Nat) (hb : InB (round draws n st).adj j k)
    (hs : (getE (round draws n st).adj j k).s = 1) :
    ¬ ((round draws n st).cluster.getD (getE (round draws n st).adj j k).v 0 =
        (round draws n st).cluster.getD j 0 ∧
      (round draws n st).cluster.getD j 0 ∈ (round draws n st).centers) := by
  have hS := round_sameSkel draws hI
  have hb0 := (sameSkel_inB hS j k).mp hb
  have hrs := round_s draws hI (j, k) hb0
  dsimp only at hrs
  rw [(hS.2.2 j k).1]
  rintro ⟨h1, h2⟩
  have h3 := ((mem_round_centers draws n st _).mp h2).2
  by_cases hm : midS draws n st (j, k) < 2
  · rw [if_pos ⟨h1, h3, hm⟩] at hrs
    omega
  · rw [if_neg (fun h => hm h.2.2)] at hrs
    omega

/-- C17 (intra-cluster cleanup): on a valid input, at the end of every clustering round
(1) no record of status 1 (Candidate) has both endpoints in the same surviving cluster, that
is `cluster[u] == cluster[v]` with `cluster[u]` in the refreshed active-center list; in fact
the two endpoints of a Candidate record are then in different clusters; (2) the store at
the end of the round is the result of the cleanup (step 4) on the store left by the status
writes of step 3; and (3) the cleanup returns every record of status 2 (SpannerEdge)
unchanged. -/
theorem intra_cluster_cleanup (draws : Nat → Bool) (n : Nat) (edges : List InEdge)
    (hv : ValidInput n edges) (r : Nat) :
    (∀ j k, InB (rounds draws n (initState n edges) (r + 1)).adj j k →
      (getE (rounds draws n (initState n edges) (r + 1)).adj j k).s = 1 →
      ¬ ((rounds draws n (initState n edges) (r + 1)).cluster.getD
            (getE (rounds draws n (initState n edges) (r + 1)).adj j k).v 0 =
          (rounds draws n (initState n edges) (r + 1)).cluster.getD j 0 ∧
        (rounds draws n (initState n edges) (r + 1)).cluster.getD j 0 ∈
          (rounds draws n (initState n edges) (r + 1)).centers) ∧
      (rounds draws n (initState n edges) (r + 1)).cluster.getD
          (getE (rounds draws n (initState n edges) (r + 1)).adj j k).v 0 ≠
        (rounds draws n (initState n edges) (r + 1)).cluster.getD j 0) ∧
    (rounds draws n (initState n edges) (r + 1)).adj =
      step4 n
        (applyLists (rounds draws n (initState n edges) r).adj
          (rFound draws n (rounds draws n (initState n edges) r)).1
          (rFound draws n (rounds draws n (initState n edges) r)).2.1)
        (rounds draws n (initState n edges) (r + 1)).cluster
        (rIsc draws n (rounds draws n (initState n edges) r)) ∧
    (∀ (adj : Adj) (cluster is_center : List Nat) (j k : Nat), (getE adj j k).s = 2 →
      getE (step4 n adj cluster is_center) j k = getE adj j k) := by
  have hI := rounds_inv draws n edges (valid_edges hv) r
  have hI1 := rounds_inv draws n edges (valid_edges hv) (r + 1)
  have hround : rounds draws n (initState n edges) (r + 1) =
      round draws n (rounds draws n (initState n edges) r) := rfl
  refine ⟨?_, ?_, ?_⟩
  · intro j k hb hs
    have h1 : ¬ ((rounds draws n (initState n edges) (r + 1)).cluster.getD
            (getE (rounds draws n (initState n edges) (r + 1)).adj j k).v 0 =
          (rounds draws n (initState n edges) (r + 1)).cluster.getD j 0 ∧
        (rounds draws n (initState n edges) (r + 1)).cluster.getD j 0 ∈
          (rounds draws n (initState n edges) (r + 1)).centers) := by
      rw [hround] at hb hs ⊢
      exact round_candidate_apart draws hI j k hb hs
    refine ⟨h1, ?_⟩
    intro he
    apply h1
    refine ⟨he, ?_⟩
    exact hI1.active_cluster j (inv_lt hI1 hb) (hI1.cand_active j k hb hs)
  · rw [hround, round_eq]
  · intro adj cluster is_center j k h
    exact step4_record_two n adj cluster is_center j k h

theorem intra_cluster_cleanup_witness :
    ValidInput 4 [(0, 1, 1), (0, 2, 2), (0, 3, 1), (1, 2, 10)] ∧
    InB (rounds (drawsOf [false, false, true, true, false, false]) 4
      (initState 4 [(0, 1, 1), (0, 2, 2), (0, 3, 1), (1, 2, 10)]) (0 + 1)).adj 0 1 ∧
    (getE (rounds (drawsOf [false, false, true, true, false, false]) 4
      (initState 4 [(0, 1, 1), (0, 2, 2), (0, 3, 1), (1, 2, 10)]) (0 + 1)).adj 0 1).s = 1 ∧
    (rounds (drawsOf [false, false, true, true, false, false]) 4
        (initState 4 [(0, 1, 1), (0, 2, 2), (0, 3, 1), (1, 2, 10)]) (0 + 1)).cluster.getD
        (getE (rounds (drawsOf [false, false, true, true, false, false]) 4
          (initState 4 [(0, 1, 1), (0, 2, 2), (0, 3, 1), (1, 2, 10)]) (0 + 1)).adj 0 1).v 0 ≠
      (rounds (drawsOf [false, false, true, true, false, false]) 4
        (initState 4 [(0, 1, 1), (0, 2, 2), (0, 3, 1), (1, 2, 10)]) (0 + 1)).cluster.getD 0 0 :=
  ⟨by decide, by decide, by decide,
    ((intra_cluster_cleanup (drawsOf [false, false, true, true, false, false]) 4
      [(0, 1, 1), (0, 2, 2), (0, 3, 1), (1, 2, 10)] (by decide) 0).1 0 1
        (by decide) (by decide)).2⟩

/-! ## The pruning rule of the found case -/

/-- A record put in `to_rem` has status 0 or 2 after the round. -/
theorem round_s_rem (draws : Nat → Bool) {n : Nat} {st : State} (hI : Inv n st)
    {x : Nat × Nat} (hx : x ∈ (rFound draws n st).2.1) :
    (getE (round draws n st).adj x.1 x.2).s = 0 ∨ (getE (round draws n st).adj x.1 x.2).s = 2 := by
  have hb := round_rem_inB draws x hx
  have hrs := round_s draws hI x hb
  have hmid : midS draws n st x = 0 ∨ midS draws n st x = 2 := by
    rcases midS_cases draws n st x with h | h | ⟨_, _, _, _, h5, _⟩
    · exact Or.inr h
    · exact Or.inl h
    · exact absurd hx h5
  rw [hrs]
  split
  · exact Or.inl rfl
  · exact hmid

/-- A record that has status 1 after the round had status 1 before it and is not in `to_rem`. -/
theorem round_still_candidate (draws : Nat → Bool) {n : Nat} {st : State} (hI : Inv n st)
    {x : Nat × Nat} (hb : InB st.adj x.1 x.2)
    (hs : (getE (round draws n st).adj x.1 x.2).s = 1) :
    (getE st.adj x.1 x.2).s = 1 ∧ x ∉ (rFound draws n st).2.1 := by
  have hrs := round_s draws hI x hb
  have hm : midS draws n st x = 1 := by
    rw [hrs] at hs
    split at hs
    · omega
    · exact hs
  rcases midS_cases draws n st x with h | h | ⟨h, _, _, _, h5, _⟩
  · omega
  · omega
  · exact ⟨by omega, h5⟩

/-- The Candidate edges of a found vertex that step 3 puts in `to_rem`. -/
theorem found_mem_rem (draws : Nat → Bool) {n : Nat} {st : State} (hI : Inv n st)
    {v mi k : Nat} (hvn : v < n) (hf : Fnd draws n st v mi) (hb : InB st.adj v k)
    (hs : (getE st.adj v k).s = 1)
    (hc : st.cluster.getD (getE st.adj v k).v 0 = st.cluster.getD (getE st.adj v mi).v 0 ∨
      ∃ y, InB st.adj v y ∧ (getE st.adj v y).s = 1 ∧
        st.cluster.getD (getE st.adj v y).v 0 = st.cluster.getD (getE st.adj v k).v 0 ∧
        (getE st.adj v y).w < (getE st.adj v mi).w) :
    (v, k) ∈ (rFound draws n st).2.1 := by
  rw [mem_round_rem]
  refine ⟨hvn, Or.inr ⟨mi, hf, ?_⟩⟩
  by_cases he : st.cluster.getD (getE st.adj v k).v 0 = st.cluster.getD (getE st.adj v mi).v 0
  · exact Or.inl ⟨hb, hs, he⟩
  · rcases hc with hc | ⟨y, hyb, hys, hyc, hyw⟩
    · exact absurd hc he
    · right
      obtain ⟨ci, hck, hci⟩ := cand_of_candidate hI hb hs
      refine ⟨ci, hck, hci, y, ⟨hyb, hys, ?_⟩, hyw, ?_⟩
      · show (centerIdx n st.centers).1.getD (st.cluster.getD (getE st.adj v y).v 0) none = some ci
        rw [hyc]
        exact hck.2.2
      · intro heq
        apply he
        exact centerIdx_inj n st.centers _ _ ci hck.2.2 heq.symm

/-- C19 (pruning rule of the found case): in the round started after `r` rounds of a run on a
valid input, for a vertex `v` that is active, lies outside every surviving cluster and has
found the edge in slot `mi` (of weight `cw`, into the cluster `C*`): (a) every Candidate edge
`k` of `v` that leads into `C*`, or into a cluster that `v` reaches by a Candidate edge `y`
strictly cheaper than `cw`, has status 0 (Removed) or 2 (SpannerEdge) after the round;
(b) every record of `v` that has status 1 (Candidate) at the end of the round has weight at
least `cw` and leads to a vertex outside `C*` as clusters stood at the start of the round. -/
theorem found_pruning (draws : Nat → Bool) (n : Nat) (edges : List InEdge)
    (hv : ValidInput n edges) (r v mi : Nat)
    (hf : Fnd draws n (rounds draws n (initState n edges) r) v mi) :
    (∀ k, InB (rounds draws n (initState n edges) r).adj v k →
      (getE (rounds draws n (initState n edges) r).adj v k).s = 1 →
      ((rounds draws n (initState n edges) r).cluster.getD
            (getE (rounds draws n (initState n edges) r).adj v k).v 0 =
          (rounds draws n (initState n edges) r).cluster.getD
            (getE (rounds draws n (initState n edges) r).adj v mi).v 0 ∨
        ∃ y, InB (rounds draws n (initState n edges) r).adj v y ∧
          (getE (rounds draws n (initState n edges) r).adj v y).s = 1 ∧
          (rounds draws n (initState n edges) r).cluster.getD
              (getE (rounds draws n (initState n edges) r).adj v y).v 0 =
            (rounds draws n (initState n edges) r).cluster.getD
              (getE (rounds draws n (initState n edges) r).adj v k).v 0 ∧
          (getE (rounds draws n (initState n edges) r).adj v y).w <
            (getE (rounds draws n (initState n edges) r).adj v mi).w) →
      (getE (rounds draws n (initState n edges) (r + 1)).adj v k).s = 0 ∨
        (getE (rounds draws n (initState n edges) (r + 1)).adj v k).s = 2) ∧
    (∀ k, InB (rounds draws n (initState n edges) (r + 1)).adj v k →
      (getE (rounds draws n (initState n edges) (r + 1)).adj v k).s = 1 →
      (getE (rounds draws n (initState n edges) r).adj v mi).w ≤
          (getE (rounds draws n (initState n edges) (r + 1)).adj v k).w ∧
        (rounds draws n (initState n edges) r).cluster.getD
            (getE (rounds draws n (initState n edges) (r + 1)).adj v k).v 0 ≠
          (rounds draws n (initState n edges) r).cluster.getD
            (getE (rounds draws n (initState n edges) r).adj v mi).v 0) := by
  have hI := rounds_inv draws n edges (valid_edges hv) r
  have hround : rounds draws n (initState n edges) (r + 1) =
      round draws n (rounds draws n (initState n edges) r) := rfl
  have hvn : v < n := active_lt hI hf.1
  rw [hround]
  have hS := round_sameSkel draws hI
  refine ⟨?_, ?_⟩
  · intro k hb hs hc
    exact round_s_rem draws hI (found_mem_rem draws hI hvn hf hb hs hc)
  · intro k hb hs
    have hb0 := (sameSkel_inB hS v k).mp hb
    obtain ⟨hs0, hnr⟩ := round_still_candidate draws hI (x := (v, k)) hb0 hs
    dsimp only at hs0
    rw [(hS.2.2 v k).1, (hS.2.2 v k).2.1]
    constructor
    · by_contra hlt
      apply hnr
      apply found_mem_rem draws hI hvn hf hb0 hs0
      right
      exact ⟨k, hb0, hs0, rfl, by omega⟩
    · intro he
      apply hnr
      exact found_mem_rem draws hI hvn hf hb0 hs0 (Or.inl he)

theorem found_pruning_witness :
    ValidInput 4 [(0, 1, 1), (0, 2, 2), (0, 3, 1), (1, 2, 10)] ∧
    Fnd (drawsOf [false, false, true, true, false, false]) 4
      (rounds (drawsOf [false, false, true, true, false, false]) 4
        (initState 4 [(0, 1, 1), (0, 2, 2), (0, 3, 1), (1, 2, 10)]) 0) 0 2 ∧
    InB (rounds (drawsOf [false, false, true, true, false, false]) 4
      (initState 4 [(0, 1, 1), (0, 2, 2), (0, 3, 1), (1, 2, 10)]) (0 + 1)).adj 0 1 ∧
    (getE (rounds (drawsOf [false, false, true, true, false, false]) 4
      (initState 4 [(0, 1, 1), (0, 2, 2), (0, 3, 1), (1, 2, 10)]) (0 + 1)).adj 0 1).s = 1 ∧
    (getE (rounds (drawsOf [false, false, true, true, false, false]) 4
        (initState 4 [(0, 1, 1), (0, 2, 2), (0, 3, 1), (1, 2, 10)]) 0).adj 0 2).w ≤
      (getE (rounds (drawsOf [false, false, true, true, false, false]) 4
        (initState 4 [(0, 1, 1), (0, 2, 2), (0, 3, 1), (1, 2, 10)]) (0 + 1)).adj 0 1).w :=
  ⟨by decide, by decide, by decide, by decide,
    ((found_pruning (drawsOf [false, false, true, true, false, false]) 4
      [(0, 1, 1), (0, 2, 2), (0, 3, 1), (1, 2, 10)] (by decide) 0 0 2 (by decide)).2 1
        (by decide) (by decide)).1⟩

/-! ## The radius of the clusters -/

theorem joined_succ {st : State} {c i v : Nat} (h : Joined st c i v) : Joined st c (i + 1) v := by
  induction h with
  | base i h1 h2 => exact Joined.base (i + 1) h1 h2
  | step hb hs ha hc _ ih => exact Joined.step hb hs ha hc ih

/-- A vertex of a surviving cluster keeps its activity flag and its cluster in the round. -/
theorem round_keep_surviving (draws : Nat → Bool) (n : Nat) (st : State) (v : Nat)
    (h : (rIsc draws n st).getD (st.cluster.getD v 0) 0 ≠ 0) :
    (round draws n st).ivd.getD v 0 = st.ivd.getD v 0 ∧
      (round draws n st).cluster.getD v 0 = st.cluster.getD v 0 := by
  constructor
  · rw [round_ivd, if_neg (fun hc => not_orph_of_isc draws h hc.2)]
  · exact round_cluster_other draws n st v (not_fnd_of_isc draws h)

/-- A path inside a surviving cluster is still one after the round. -/
theorem joined_round (draws : Nat → Bool) {n : Nat} {st : State} (hI : Inv n st) {c i v : Nat}
    (hc : (rIsc draws n st).getD c 0 ≠ 0) (h : Joined st c i v) :
    Joined (round draws n st) c i v := by
  have hS := round_sameSkel draws hI
  induction h with
  | base i h1 h2 =>
    have hk := round_keep_surviving draws n st c (by rw [h2]; exact hc)
    exact Joined.base i (by rw [hk.1]; exact h1) (by rw [hk.2]; exact h2)
  | @step i v k hb hs ha hcl _ ih =>
    have hk := round_keep_surviving draws n st v (by rw [hcl]; exact hc)
    have hb1 : InB (round draws n st).adj v k := (sameSkel_inB hS v k).mpr hb
    have hs1 := round_s_two draws hI (v, k) hb (midS_of_two draws n st (v, k) hs)
    have ih1 : Joined (round draws n st) c i (getE (round draws n st).adj v k).v := by
      rw [(hS.2.2 v k).1]
      exact ih
    exact Joined.step hb1 hs1 (by rw [hk.1]; exact ha) (by rw [hk.2]; exact hcl) ih1

/-- The cluster value of an inactive vertex is not in the active-center list. -/
theorem rounds_inactive_out (draws : Nat → Bool) (n : Nat) (edges : List InEdge)
    (hv : ∀ e ∈ edges, e.1 < n ∧ e.2.1 < n ∧ e.1 ≠ e.2.1) (r : Nat) :
    ∀ v, v < n → (rounds draws n (initState n edges) r).ivd.getD v 0 = 0 →
      (rounds draws n (initState n edges) r).cluster.getD v 0 ∉
        (rounds draws n (initState n edges) r).centers := by
  induction r with
  | zero =>
    intro v hvn h
    exfalso
    have : (initState n edges).ivd.getD v 0 = 1 := by
      show (List.replicate n 1).getD v 0 = 1
      rw [getD_replicate_eq, if_pos hvn]
    have h0 : (initState n edges).ivd.getD v 0 = 0 := h
    omega
  | succ r ih =>
    intro v hvn h hmem
    have hI := rounds_inv draws n edges hv r
    have hround : rounds draws n (initState n edges) (r + 1) =
        round draws n (rounds draws n (initState n edges) r) := rfl
    rw [hround] at h hmem
    have hisc := ((mem_round_centers draws n _ _).mp hmem).2
    by_cases h0 : (rounds draws n (initState n edges) r).ivd.getD v 0 = 0
    · have hk := round_inactive draws n _ v h0
      rw [hk.2] at hisc
      exact ih v hvn h0 (isc_mem draws hI hisc).2
    · rw [round_ivd] at h
      by_cases ho : v < n ∧ Orph draws n (rounds draws n (initState n edges) r) v
      · have hcl : (round draws n (rounds draws n (initState n edges) r)).cluster.getD v 0 =
            (rounds draws n (initState n edges) r).cluster.getD v 0 :=
          round_cluster_other draws n _ v (fun mi hf => fnd_not_orph hf ho.2)
        rw [hcl] at hisc
        exact hisc ho.2.2.1
      · rw [if_neg ho] at h
        exact h0 h

theorem rounds_radius (draws : Nat → Bool) (n : Nat) (edges : List InEdge)
    (hv : ∀ e ∈ edges, e.1 < n ∧ e.2.1 < n ∧ e.1 ≠ e.2.1) (i : Nat) :
    ∀ v, v < n → (rounds draws n (initState n edges) i).ivd.getD v 0 ≠ 0 →
      Joined (rounds draws n (initState n edges) i)
        ((rounds draws n (initState n edges) i).cluster.getD v 0) i v := by
  induction i with
  | zero =>
    intro v hvn ha
    have hc : (initState n edges).cluster.getD v 0 = v := by
      show (List.range n).getD v 0 = v
      rw [getD_range_eq, if_pos hvn]
    show Joined (initState n edges) ((initState n edges).cluster.getD v 0) 0 v
    rw [hc]
    exact Joined.base 0 ha hc
  | succ i ih =>
    intro v hvn ha
    have hI := rounds_inv draws n edges hv i
    have hround : rounds draws n (initState n edges) (i + 1) =
        round draws n (rounds draws n (initState n edges) i) := rfl
    rw [hround] at ha ⊢
    have ha0 : (rounds draws n (initState n edges) i).ivd.getD v 0 ≠ 0 := by
      intro h0
      exact ha (round_inactive draws n _ v h0).1
    by_cases hc : (rIsc draws n (rounds draws n (initState n edges) i)).getD
        ((rounds draws n (initState n edges) i).cluster.getD v 0) 0 ≠ 0
    · have hk := round_keep_surviving draws n _ v hc
      rw [hk.2]
      exact joined_succ (joined_round draws hI hc (ih v hvn ha0))
    · have hc0 : (rIsc draws n (rounds draws n (initState n edges) i)).getD
          ((rounds draws n (initState n edges) i).cluster.getD v 0) 0 = 0 := by
        by_contra h
        exact hc h
      rcases orph_or_fnd draws n _ v ha0 hc0 with ho | ⟨mi, hf⟩
      · exfalso
        apply ha
        rw [round_ivd, if_pos ⟨hvn, ho⟩]
      · have hsurv := fnd_surviving hvn hf
        have hb := (fnd_spec hvn hf).1
        have hun := inv_v_lt hI hb
        have hua : (rounds draws n (initState n edges) i).ivd.getD
            (getE (rounds draws n (initState n edges) i).adj v mi).v 0 ≠ 0 := by
          intro h0
          exact rounds_inactive_out draws n edges hv i _ hun h0 (isc_mem draws hI hsurv).2
        have hju := joined_round draws hI hsurv (ih _ hun hua)
        have hcl := round_cluster_found draws n _ v mi hvn hI.len_cluster hf
        rw [hcl]
        have hS := round_sameSkel draws hI
        have hadd : (v, mi) ∈ (rFound draws n (rounds draws n (initState n edges) i)).1 :=
          (mem_round_add draws n _ (v, mi)).mpr ⟨hvn, Or.inr ⟨mi, hf, Or.inl rfl⟩⟩
        have hs2 := (round_s_add draws hI hadd).1
        have hb1 : InB (round draws n (rounds draws n (initState n edges) i)).adj v mi :=
          (sameSkel_inB hS v mi).mpr hb
        have hju1 : Joined (round draws n (rounds draws n (initState n edges) i))
            ((rounds draws n (initState n edges) i).cluster.getD
              (getE (rounds draws n (initState n edges) i).adj v mi).v 0) i
            (getE (round draws n (rounds draws n (initState n edges) i)).adj v mi).v := by
          rw [(hS.2.2 v mi).1]
          exact hju
        exact Joined.step hb1 hs2 ha hcl hju1

/-- C20 (cluster radius invariant): for every valid input and every sequence of sampling
outcomes, after `i` clustering rounds (`i = 0` is the start of phase 1) every active vertex
`v` is joined to the vertex `cluster[v]` by a path of at most `i` records, all of status 2
(SpannerEdge), every vertex of which is active and has the cluster value of `v`. -/
theorem cluster_radius (draws : Nat → Bool) (n : Nat) (edges : List InEdge)
    (hv : ValidInput n edges) (i v : Nat)
    (ha : (rounds draws n (initState n edges) i).ivd.getD v 0 ≠ 0) :
    Joined (rounds draws n (initState n edges) i)
      ((rounds draws n (initState n edges) i).cluster.getD v 0) i v :=
  rounds_radius draws n edges (valid_edges hv) i v
    (active_lt (rounds_inv draws n edges (valid_edges hv) i) ha) ha

theorem cluster_radius_witness :
    ValidInput 4 [(0, 1, 1), (0, 2, 2), (0, 3, 1), (1, 2, 10)] ∧
    (rounds (drawsOf [false, false, true, true, false, false]) 4
      (initState 4 [(0, 1, 1), (0, 2, 2), (0, 3, 1), (1, 2, 10)]) 2).ivd.getD 0 0 ≠ 0 ∧
    Joined (rounds (drawsOf [false, false, true, true, false, false]) 4
        (initState 4 [(0, 1, 1), (0, 2, 2), (0, 3, 1), (1, 2, 10)]) 2)
      ((rounds (drawsOf [false, false, true, true, false, false]) 4
        (initState 4 [(0, 1, 1), (0, 2, 2), (0, 3, 1), (1, 2, 10)]) 2).cluster.getD 0 0) 2 0 :=
  ⟨by decide, by decide,
    cluster_radius (drawsOf [false, false, true, true, false, false]) 4
      [(0, 1, 1), (0, 2, 2), (0, 3, 1), (1, 2, 10)] (by decide) 2 0 (by decide)⟩

/-! ## Index safety: the checked program agrees with the program -/

theorem rd_none {α : Type} (a : List α) (i : Nat) (h : a.length ≤ i) : rd a i = none := by
  unfold rd
  exact List.getElem?_eq_none h

/-- The checks are not vacuous: without a vertex the forced-survivor step reads `centers[0]` of
an empty list, and an endpoint out of range fails at the input loop. -/
theorem spannerC_fails :
    spannerC (drawsOf []) 0 3 [] = none ∧ spannerC (drawsOf []) 2 3 [(0, 5, 1)] = none := by
  constructor <;> decide

end TSpanner
